import Mathlib

/-!
Verification of the netlist hierarchy resolver and conflict-detection index
of the lotus reference implementation.

The Python sources are shallowly embedded:

* `ConflictStore` (src/core/conflict_store.py) — the two dictionaries
  `_line_nets` / `_net_lines` are modelled extensionally as functions
  `String → Option (Finset String)` (`none` = key absent, mirroring
  `dict.get`).  Imperative loops that insert into / remove from sets are
  rendered pointwise, which is exact because set insertion is commutative.
* Alias resolution (`_build_template_data` in src/nqs/spice_nqs.py) — the
  `alias_map` dictionary is an insertion-ordered association list; `_find`
  is the visited-set chase with fuel `m.length + 2`, which is enough for the
  Python loop to have hit a fixed point or a revisit.
* Bus expansion / collapse, regex template matching, and the SPICE netlist
  builder are embedded further below.
-/

namespace CStore

/-- State of `ConflictStore`: `lineNets` models `_line_nets`
(line id → frozenset of canonical net names), `netLines` models
`_net_lines` (net name → set of line ids).  `none` means the key is
absent from the dictionary. -/
@[ext]
structure Store where
  lineNets : String → Option (Finset String)
  netLines : String → Option (Finset String)

/-- The freshly constructed store: both dictionaries empty. -/
def emptyStore : Store := ⟨fun _ => none, fun _ => none⟩

/-- Per-net step of `_remove_line_from_index`: `owners = net_lines.get(net)`,
`if owners: owners.discard(line_id); if not owners: del net_lines[net]`.
An absent or empty entry is left untouched. -/
def dropOwner (lid : String) : Option (Finset String) → Option (Finset String)
  | none => none
  | some owners =>
    if owners = ∅ then some owners
    else
      let owners' := owners.erase lid
      if owners' = ∅ then none else some owners'

/-- `ConflictStore._remove_line_from_index`: for every net in the line's
old net set, discard the line from the reverse index and delete the
entry if it became empty.  Mirrors the guards `if not old_nets: return`
and `if owners:` of the source. -/
def removeLineFromIndex (s : Store) (lid : String) : Store :=
  match s.lineNets lid with
  | none => s
  | some old =>
    if old = ∅ then s
    else
      { s with netLines := fun n =>
          if n ∈ old then dropOwner lid (s.netLines n) else s.netLines n }

/-- `ConflictStore.update_line`: first remove the line from the reverse
index, then either drop it (empty new net set) or install the new
membership in both maps (`setdefault(net, set()).add(line_id)`). -/
def updateLine (s : Store) (lid : String) (nets : Finset String) : Store :=
  let s' := removeLineFromIndex s lid
  if nets = ∅ then
    { s' with lineNets := fun l => if l = lid then none else s'.lineNets l }
  else
    { lineNets := fun l => if l = lid then some nets else s'.lineNets l
      netLines := fun n =>
        if n ∈ nets then some (insert lid ((s'.netLines n).getD ∅))
        else s'.netLines n }

/-- First-match association-list lookup (Python `dict` access for a map
given by its `.items()` list; keys are unique in a dict). -/
def alookupF : List (String × Finset String) → String → Option (Finset String)
  | [], _ => none
  | p :: t, k => if p.1 = k then some p.2 else alookupF t k

/-- `ConflictStore.build_from_lines`: drop empty entries, then build the
reverse index from the kept entries.  The `setdefault`/`add` loop of the
source is rendered extensionally: a net is present exactly when some kept
line contains it, and its owners are exactly those lines. -/
def buildFromLines (m : List (String × Finset String)) : Store :=
  let kept := m.filter (fun p => ¬ p.2 = ∅)
  { lineNets := fun l => alookupF kept l
    netLines := fun n =>
      let owners := ((kept.filter (fun p => n ∈ p.2)).map Prod.fst).toFinset
      if owners = ∅ then none else some owners }

/-- `ConflictStore.remove_line`. -/
def removeLine (s : Store) (lid : String) : Store :=
  let s' := removeLineFromIndex s lid
  { s' with lineNets := fun l => if l = lid then none else s'.lineNets l }

/-- `ConflictStore.clear`. -/
def clearStore (_s : Store) : Store := emptyStore

/-- Number of owners recorded for a net (`len(owners)` with a missing or
empty entry counting as 0). -/
def ownersCard (s : Store) (n : String) : Nat := ((s.netLines n).getD ∅).card

/-- `ConflictStore.is_conflicting`: true iff the line has a net whose
owner set has more than one element.  `owners and len(owners) > 1` is
equivalent to `1 < card` because `1 < card` forces the set nonempty. -/
def isConflicting (s : Store) (lid : String) : Bool :=
  match s.lineNets lid with
  | none => false
  | some nets =>
    if nets = ∅ then false
    else decide (∃ n ∈ nets, 1 < ownersCard s n)

/-- `ConflictStore.get_conflicting_lines`: union of owner sets over the
line's nets, with the line itself discarded. -/
def getConflictingLines (s : Store) (lid : String) : Finset String :=
  match s.lineNets lid with
  | none => ∅
  | some nets =>
    if nets = ∅ then ∅
    else (nets.sup fun n => (s.netLines n).getD ∅).erase lid

/-- `ConflictStore.get_conflicting_net_ids`: the subset of the line's
nets owned by more than one line. -/
def getConflictingNetIds (s : Store) (lid : String) : Finset String :=
  match s.lineNets lid with
  | none => ∅
  | some nets =>
    if nets = ∅ then ∅
    else nets.filter (fun n => 1 < ownersCard s n)

/-- Membership of a line in the reverse index entry of a net (false when
the entry is absent). -/
def memNetLines (s : Store) (n l : String) : Prop := l ∈ (s.netLines n).getD ∅

/-- Membership of a net in a line's recorded net set (false when the line
is absent). -/
def memLineNets (s : Store) (l n : String) : Prop := n ∈ (s.lineNets l).getD ∅

/-- The bidirectional-index invariant of the specification:
`line ∈ net_lines[n] ⇔ n ∈ line_nets[line]`. -/
def Inv (s : Store) : Prop := ∀ l n, memNetLines s n l ↔ memLineNets s l n

/-- No entry of the reverse index is an empty set. -/
def NoEmpty (s : Store) : Prop := ∀ n, s.netLines n ≠ some ∅

/-- Keys of an association list are pairwise distinct (as in a Python
dict's `.items()`). -/
def NodupKeys (m : List (String × Finset String)) : Prop := (m.map Prod.fst).Nodup

/-- Folding `update_line` over a list of entries, starting from the empty
store (the spec's description of what `build_from_lines` must agree
with). -/
def runUpdates (ps : List (String × Finset String)) : Store :=
  ps.foldl (fun s p => updateLine s p.1 p.2) emptyStore

/-- The owners of net `n` determined by an entry list: the lines whose
net set contains `n`. -/
def ownersOf (ps : List (String × Finset String)) (n : String) : Finset String :=
  ((ps.filter (fun p => n ∈ p.2)).map Prod.fst).toFinset

/-- Extensional characterisation of the store determined by an entry
list: forward map = first lookup with empty entries dropped, reverse map
= owners when nonempty. -/
def Canon (ps : List (String × Finset String)) (s : Store) : Prop :=
  (∀ l, s.lineNets l =
    match alookupF ps l with
    | some nets => if nets = ∅ then none else some nets
    | none => none) ∧
  (∀ n, s.netLines n = if ownersOf ps n = ∅ then none else some (ownersOf ps n))

/-- The hypothesis of C9 that the store holds exactly the two lines of
interest. -/
def OnlyLines (s : Store) (a b : String) : Prop :=
  ∀ l, s.lineNets l ≠ none → l = a ∨ l = b

end CStore

namespace Py

/-- ASCII lower-casing of one character, as Python `str.lower` acts on the
ASCII names this system handles. -/
def lowChar (c : Char) : Char :=
  if 'A' ≤ c ∧ c ≤ 'Z' then Char.ofNat (c.toNat + 32) else c

/-- ASCII lower-casing of a string (`str.lower`). -/
def lowerStr (s : String) : String := ⟨s.data.map lowChar⟩

end Py

namespace Rex

/-- Abstract regular-expression engine: `eng pat item` models
`re.search(pat, item, re.IGNORECASE)`, with `.error ()` standing for an
`re.error` raised on a structurally invalid pattern (Python compiles the
pattern anew on each call, so an invalid pattern errors for every item). -/
def Engine := String → String → Except Unit Bool

/-- The `_regexp` callback registered as the SQLite `REGEXP` function
(`SpiceNetlistQueryService._init_database`): 1 on match, 0 on non-match,
and 0 when `re.error` is raised — the exception is caught inside the
callback.  (The `item is None` guard never fires: the `name` column is
declared NOT NULL.) -/
def pyRegexp (eng : Engine) (expr item : String) : Nat :=
  match eng expr item with
  | .error _ => 0
  | .ok b => if b then 1 else 0

/-- Evaluation of the REGEXP user function on one row.  `_regexp` is
total, so the per-row test never propagates an exception to SQLite. -/
def rowTest (eng : Engine) (pat t : String) : Except Unit Bool :=
  .ok (pyRegexp eng pat t = 1)

/-- `SELECT name FROM templates WHERE name REGEXP ?`: keeps the rows the
user function maps to 1, propagating any exception the user function
would raise. -/
def regexpQuery (eng : Engine) (templates : List String) (pat : String) :
    Except Unit (List String) :=
  templates.foldr
    (fun t acc =>
      match acc with
      | .error e => .error e
      | .ok rest =>
        match rowTest eng pat t with
        | .error e => .error e
        | .ok b => .ok (if b then t :: rest else rest))
    (.ok [])

/-- `SpiceNetlistQueryService._get_matching_templates`: exact branch is a
`LIMIT 1` equality lookup; the regex branch runs the REGEXP query inside
`try/except Exception`, logging and returning `[]` on any error. -/
def getMatchingTemplatesAux (eng : Engine) (templates : List String)
    (name : String) (isRegex : Bool) : Except Unit (List String) :=
  if ¬ isRegex then
    .ok ((templates.filter (fun t => t = name)).take 1)
  else
    match regexpQuery eng templates name with
    | .ok rows => .ok rows
    | .error _ => .ok []

/-- `SpiceNetlistQueryService.get_matching_templates`: empty pattern gives
the empty set; a non-regex pattern is lower-cased before lookup. -/
def getMatchingTemplates (eng : Engine) (templates : List String)
    (pattern : String) (isRegex : Bool) : Except Unit (Finset String) :=
  if pattern = "" then .ok ∅
  else
    match getMatchingTemplatesAux eng templates
        (if isRegex then pattern else Py.lowerStr pattern) isRegex with
    | .ok rows => .ok rows.toFinset
    | .error e => .error e

/-- An engine on which every pattern is structurally invalid: each search
raises `re.error`. -/
def badEngine : Engine := fun _ _ => .error ()

end Rex

namespace Alias

/-- `alias_map` of `_build_template_data`: a Python dict modelled as an
insertion-ordered association list. -/
abbrev AMap := List (String × String)

/-- First-match association-list lookup (`dict` access). -/
def alookup : AMap → String → Option String
  | [], _ => none
  | p :: t, k => if p.1 = k then some p.2 else alookup t k

/-- Python `alias_map.get(n, n)`. -/
def aget (m : AMap) (n : String) : String := (alookup m n).getD n

/-- Dict assignment `alias_map[k] = v`: replace the first binding of `k`,
or append a fresh binding at the end (dict insertion order). -/
def aset : AMap → String → String → AMap
  | [], k, v => [(k, v)]
  | p :: t, k, v => if p.1 = k then (k, v) :: t else p :: aset t k v

/-- The `while` loop of `_find`: chase aliases to a fixed point, breaking
on a revisit.  Each iteration either stops or adds a new key of `m` to
`visited`, so the Python loop runs at most `m.length + 2` iterations;
`afind` supplies exactly that much fuel, making this a faithful rendering
of the unfueled loop. -/
def chase (m : AMap) : Nat → List String → String → String
  | 0, _, n => n
  | fuel + 1, visited, n =>
    if aget m n = n then n
    else if n ∈ visited then n
    else chase m fuel (n :: visited) (aget m n)

/-- `_build_template_data._find`. -/
def afind (m : AMap) (n : String) : String := chase m (m.length + 2) [] n

/-- `name.count("/")`. -/
def depthOf (name : String) : Nat := (name.data.filter (fun c => c = '/')).length

/-- Python string `<`: lexicographic comparison of code points. -/
def strLtChars : List Char → List Char → Bool
  | [], [] => false
  | [], _ :: _ => true
  | _ :: _, [] => false
  | a :: as, b :: bs => if a < b then true else if b < a then false else strLtChars as bs

/-- Python string `<` on two names. -/
def strLtPy (a b : String) : Bool := strLtChars a.data b.data

/-- Python `False < True` on booleans (used inside tuple comparison). -/
def boolLt (a b : Bool) : Bool := !a && b

/-- The preference tuple of `_build_template_data._preference`:
`(not is_port, not is_local, depth, len(name), name)` where
`is_local = "/" not in name` and `depth = name.count("/")`. -/
structure Pref where
  notPort : Bool
  notLocal : Bool
  depth : Nat
  len : Nat
  name : String

/-- `_preference(name)` for a template whose port set is `ports`. -/
def preference (ports : List String) (name : String) : Pref :=
  { notPort := decide (name ∉ ports)
    notLocal := decide ('/' ∈ name.data)
    depth := depthOf name
    len := name.data.length
    name := name }

/-- Python tuple `<` on preference tuples: lexicographic with strict
comparison at each component. -/
def prefLt (x y : Pref) : Bool :=
  if boolLt x.notPort y.notPort then true
  else if boolLt y.notPort x.notPort then false
  else if boolLt x.notLocal y.notLocal then true
  else if boolLt y.notLocal x.notLocal then false
  else if x.depth < y.depth then true
  else if y.depth < x.depth then false
  else if x.len < y.len then true
  else if y.len < x.len then false
  else strLtPy x.name y.name

/-- `_build_template_data._merge(child, parent)`: find both
representatives; no-op when they agree, otherwise re-point the less
preferred root at the more preferred one. -/
def mergeStep (ports : List String) (m : AMap) (child parent : String) : AMap :=
  let pc := afind m parent
  let cc := afind m child
  if pc = cc then m
  else if prefLt (preference ports cc) (preference ports pc) then aset m pc cc
  else aset m cc pc

/-- A subcircuit instantiation (`SubcktInstance` in spice_nqs.py). -/
structure SubInst where
  instName : String
  connections : List String
  subcktName : String
  deriving DecidableEq

/-- A parsed `.SUBCKT` definition (`SubcktDef` in spice_nqs.py); the
Python `local_nets` set is carried as a list. -/
structure SubcktDef where
  name : String
  ports : List String
  instances : List SubInst
  localNets : List String
  deriving DecidableEq

/-- Lookup of a subcircuit definition by name (`subckts.get(...)`). -/
def slookup : List (String × SubcktDef) → String → Option SubcktDef
  | [], _ => none
  | p :: t, k => if p.1 = k then some p.2 else slookup t k

/-- `pin_map`: `for i, child_port in enumerate(child_def.ports): if i <
len(connections): pin_map[child_port] = connections[i]`. -/
def pinMap (childPorts conns : List String) : AMap :=
  childPorts.enum.foldl
    (fun pm q => if q.1 < conns.length then aset pm q.2 (conns.getD q.1 "") else pm)
    []

/-- Per-net body of the `for child_net in child_canonical` loop: register
the hierarchical path self-mapped, then merge with the parent connection
when the child net is a port of the child template. -/
def registerCanon (ports : List String) (pm : AMap) (instName : String)
    (m : AMap) (childNet : String) : AMap :=
  let hier := instName ++ "/" ++ childNet
  let m' := aset m hier hier
  match alookup pm childNet with
  | some parentNet => mergeStep ports m' hier parentNet
  | none => m'

/-- Per-alias body of the `for child_alias, child_target in
child_aliases.items()` loop: register the hierarchical alias self-mapped,
then merge it with the parent connection (when the target is a child
port) or with the hierarchical target. -/
def registerAlias (ports : List String) (pm : AMap) (instName : String)
    (m : AMap) (pr : String × String) : AMap :=
  let hierAlias := instName ++ "/" ++ pr.1
  let hierTarget := instName ++ "/" ++ pr.2
  let m' := aset m hierAlias hierAlias
  match alookup pm pr.2 with
  | some parentNet => mergeStep ports m' hierAlias parentNet
  | none => mergeStep ports m' hierAlias hierTarget

/-- One step of the final flattening loop: `alias_map[k] = _find(k)`. -/
def flattenStep (m : AMap) (k : String) : AMap := aset m k (afind m k)

/-- `for k in list(alias_map.keys()): alias_map[k] = _find(k)`. -/
def flattenAll (m : AMap) : AMap := (m.map Prod.fst).foldl flattenStep m

/-- `set(alias_map.values())`, carried as a deduplicated list. -/
def canonicalOf (m : AMap) : List String := (m.map Prod.snd).dedup

/-- Body of the `for inst in defn.instances` loop of
`_build_template_data`: skip instances of unknown templates, recursively
resolve the child (`recur`), then register every child canonical net and
every child alias.  `none` propagates a failed recursion. -/
def instStep (subckts : List (String × SubcktDef))
    (recur : String → Option (List String × AMap)) (ports : List String) :
    Option AMap → SubInst → Option AMap := fun acc inst =>
  match acc with
  | none => none
  | some m =>
    match slookup subckts inst.subcktName with
    | none => some m
    | some childDef =>
      match recur inst.subcktName with
      | none => none
      | some childData =>
        let pm := pinMap childDef.ports inst.connections
        let m1 := childData.1.foldl (registerCanon ports pm inst.instName) m
        let m2 := childData.2.foldl (registerAlias ports pm inst.instName) m1
        some m2

/-- `_build_template_data`, with fuel bounding the recursion depth
(`none` models a missing template — Python's `KeyError` — or
non-termination on a cyclic hierarchy, where Python would not return). -/
def buildTemplateData (subckts : List (String × SubcktDef)) :
    Nat → String → Option (List String × AMap)
  | 0, _ => none
  | fuel + 1, templateName =>
    match slookup subckts templateName with
    | none => none
    | some defn =>
      let m0 := defn.localNets.foldl (fun m net => aset m net net) []
      match defn.instances.foldl
          (instStep subckts (buildTemplateData subckts fuel) defn.ports)
          (some m0) with
      | none => none
      | some m => some (canonicalOf (flattenAll m), flattenAll m)

/-- `n` is a fixed point of the map (`alias_map.get(n, n) == n`). -/
def IsRoot (m : AMap) (r : String) : Prop := aget m r = r

/-- Iterated application of `aget`. -/
def iterGet (m : AMap) : Nat → String → String
  | 0, n => n
  | j + 1, n => iterGet m j (aget m n)

/-- The chain from `n` reaches `r`. -/
def Reaches (m : AMap) (n r : String) : Prop := ∃ j, iterGet m j n = r

/-- The chain from `n` reaches the fixed point `r`. -/
def RootFrom (m : AMap) (n r : String) : Prop := Reaches m n r ∧ IsRoot m r

/-- Every chain reaches a fixed point (no nontrivial alias cycles). -/
def Acyclic (m : AMap) : Prop := ∀ n, ∃ r, RootFrom m n r

/-- The map (as the function `aget`) is idempotent. -/
def IdemMap (m : AMap) : Prop := ∀ x, aget m (aget m x) = aget m x

/-- Invariant maintained across the flattening loop: the intermediate map
stays acyclic, preserves every root-reachability fact of the original
map, introduces no new keys, and maps every processed key directly to
its original root. -/
def FlatInv (m mi : AMap) (processed : List String) : Prop :=
  Acyclic mi ∧
  (∀ n r, RootFrom m n r → RootFrom mi n r) ∧
  (∀ x, x ∉ m.map Prod.fst → alookup mi x = none) ∧
  (∀ k, k ∈ processed → ∃ r, RootFrom m k r ∧ aget mi k = r)

end Alias

namespace Bus

/-- Maximal run of decimal digits at the head (the greedy `\\d+` of the
bus pattern). -/
def takeDigits : List Char → List Char × List Char
  | [] => ([], [])
  | c :: rest =>
    if c.isDigit then
      let q := takeDigits rest
      (c :: q.1, q.2)
    else ([], c :: rest)

/-- Closing step of the bus parse: expect `]`. -/
def busParseClose (d1 d2 : List Char) : List Char → Option (List Char × List Char × List Char)
  | [] => none
  | c :: r4 => if c = ']' then some (d1, d2, r4) else none

/-- Middle of the bus parse: expect `:` or `-`, then digits, then `]`. -/
def busParseTail (d1 : List Char) : List Char → Option (List Char × List Char × List Char)
  | [] => none
  | sep :: r2 =>
    if sep = ':' ∨ sep = '-' then
      let q2 := takeDigits r2
      if q2.1 = [] then none else busParseClose d1 q2.1 q2.2
    else none

/-- After an opening bracket: try to parse `\\d+[:-]\\d+]`, returning the
two digit groups and the remaining input. -/
def busParseAt (input : List Char) : Option (List Char × List Char × List Char) :=
  let q1 := takeDigits input
  if q1.1 = [] then none else busParseTail q1.1 q1.2

/-- `BUS_PATTERN.search`: leftmost occurrence of `[lo:hi]` / `[lo-hi]`,
as (characters before the match, first digit group, second digit group,
characters after the match). -/
def findBus : List Char → Option (List Char × List Char × List Char × List Char)
  | [] => none
  | c :: rest =>
    if c = '[' then
      match busParseAt rest with
      | some q => some ([], q.1, q.2.1, q.2.2)
      | none =>
        match findBus rest with
        | some q => some (c :: q.1, q.2.1, q.2.2.1, q.2.2.2)
        | none => none
    else
      match findBus rest with
      | some q => some (c :: q.1, q.2.1, q.2.2.1, q.2.2.2)
      | none => none

/-- `has_bus_notation`. -/
def hasBus (s : String) : Bool := (findBus s.data).isSome

/-- Numeric value of a digit character. -/
def digitVal (c : Char) : Nat := c.toNat - 48

/-- `int(...)` on a digit string (most significant digit first). -/
def digsToNat (ds : List Char) : Nat := ds.foldl (fun a c => 10 * a + digitVal c) 0

/-- Decimal digits of a positive number, most significant first; the fuel
only needs to exceed the number itself. -/
def natCharsAux : Nat → Nat → List Char
  | 0, _ => []
  | fuel + 1, n =>
    if n = 0 then []
    else natCharsAux fuel (n / 10) ++ [Char.ofNat (48 + n % 10)]

/-- Python `str(n)` for a natural number, most significant digit first. -/
def natChars (n : Nat) : List Char :=
  if n = 0 then ['0'] else natCharsAux (n + 1) n

/-- The pattern with the matched range replaced by a single index:
`prefix + "[i]" + suffix`. -/
def mkBus (pre : List Char) (i : Nat) (suf : List Char) : List Char :=
  pre ++ '[' :: (natChars i ++ ']' :: suf)

/-- Failures of `expand_bus_notation`: the expansion-limit `ValueError`
(carrying the original pattern and the cap, as the Python message does)
and fuel exhaustion, a model artifact shown unreachable. -/
inductive BusErr where
  | limitExceeded (pattern : String) (cap : Nat)
  | fuelOut
  deriving DecidableEq

/-- One step of the `for i in range(start, end + 1)` loop of `_expand`:
recurse on the substituted pattern and append the results, propagating
the first error. -/
def expandFoldStep (rec : Nat → List Char → Except BusErr (Nat × List String))
    (pre suf : List Char) (acc : Except BusErr (Nat × List String)) (i : Nat) :
    Except BusErr (Nat × List String) :=
  match acc with
  | .error e => .error e
  | .ok q =>
    match rec q.1 (mkBus pre i suf) with
    | .error e => .error e
    | .ok q' => .ok (q'.1, q.2 ++ q'.2)

/-- The recursive `_expand` closure, threading the shared `count` cell.
Each substitution strictly shortens the pattern, so `pattern.length + 1`
fuel is enough. -/
def expandAux (orig : String) (cap : Option Nat) :
    Nat → Nat → List Char → Except BusErr (Nat × List String)
  | 0, _, _ => .error .fuelOut
  | fuel + 1, cnt, cur =>
    match findBus cur with
    | none =>
      match cap with
      | none => .ok (cnt, [⟨cur⟩])
      | some mx =>
        if cnt + 1 > mx then .error (.limitExceeded orig mx)
        else .ok (cnt + 1, [⟨cur⟩])
    | some (pre, d1, d2, suf) =>
      let s0 := digsToNat d1
      let e0 := digsToNat d2
      let lo := if s0 > e0 then e0 else s0
      let hi := if s0 > e0 then s0 else e0
      (List.range' lo (hi + 1 - lo)).foldl
        (expandFoldStep (fun c cur2 => expandAux orig cap fuel c cur2) pre suf)
        (.ok (cnt, []))

/-- The uncapped expansion as a pure list (what `_expand` computes when
no limit is supplied). -/
def fullExpand : Nat → List Char → List String
  | 0, _ => []
  | fuel + 1, cur =>
    match findBus cur with
    | none => [⟨cur⟩]
    | some (pre, d1, d2, suf) =>
      let s0 := digsToNat d1
      let e0 := digsToNat d2
      let lo := if s0 > e0 then e0 else s0
      let hi := if s0 > e0 then s0 else e0
      (List.range' lo (hi + 1 - lo)).flatMap (fun i => fullExpand fuel (mkBus pre i suf))

/-- `expand_bus_notation(pattern, max_expansions)`: a non-positive cap
returns `[]`; a bus-free pattern returns `[pattern]` unconditionally;
otherwise the recursive expansion runs with the leaf counter at 0. -/
def expandBus (pattern : String) (cap : Option Nat) : Except BusErr (List String) :=
  match cap with
  | some 0 => .ok []
  | _ =>
    if hasBus pattern = false then .ok [pattern]
    else
      match expandAux pattern cap (pattern.data.length + 1) 0 pattern.data with
      | .ok q => .ok q.2
      | .error e => .error e

end Bus


namespace Parse

/-- Python `str.split()`: split on whitespace, dropping empty tokens. -/
def wordsAux : List Char → List Char → List String
  | [], [] => []
  | [], acc => [⟨acc.reverse⟩]
  | c :: r, acc =>
    if c.isWhitespace then
      (if acc = [] then wordsAux r [] else ⟨acc.reverse⟩ :: wordsAux r [])
    else wordsAux r (c :: acc)

/-- `line.split()`. -/
def pyWords (s : String) : List String := wordsAux s.data []

/-- `line.lstrip()` followed by the skip test
(`if not line or line.startswith('*'): continue`): `none` for skipped
lines, otherwise the whitespace-split tokens (always nonempty). -/
def effTokens (s : String) : Option (List String) :=
  match s.data.dropWhile Char.isWhitespace with
  | [] => none
  | c :: r => if c = '*' then none else some (pyWords ⟨c :: r⟩)

/-- `'=' in s`. -/
def hasEq (s : String) : Bool := s.data.contains '='

/-- The pcell-parameter stripping loop
`while '=' in instance_line_list[-1]: instance_line_list.pop()`, acting
on the reversed list; `none` models the `IndexError` Python raises once
every element has been popped. -/
def dropEqRev : List String → Option (List String)
  | [] => none
  | s :: r => if hasEq s then dropEqRev r else some (s :: r)

def stripPcell (l : List String) : Option (List String) :=
  (dropEqRev l.reverse).map List.reverse

/-- A sub-instance as the builder records it: instance name (with the
leading `X` stripped), the target template's name as written, and the
connected net names. -/
structure PInstance where
  name : String
  templName : String
  conns : List String
  deriving DecidableEq

/-- `NetlistTemplate`: interface pins in order, the insertion-ordered
lower-cased keys of `_net_name_map`, sub-instances, self-instances,
device and resistor names, and the top-cell flag. -/
structure PTemplate where
  name : String
  pins : List String
  netKeys : List String
  subInsts : List PInstance
  selfInsts : List PInstance
  devices : List String
  resistors : List String
  isTop : Bool
  deriving DecidableEq

/-- The pin loop of `NetlistTemplate.__init__`: one interface net per
pin, raising on a (case-insensitive) duplicate pin name. -/
def mkTemplateKeys (tname : String) : List String → List String → Except String (List String)
  | [], acc => .ok acc.reverse
  | p :: r, acc =>
    if acc.contains (Py.lowerStr p) then
      .error ("Failed to add pin " ++ p ++ " to template " ++ tname ++ ", pin name is duplicated")
    else mkTemplateKeys tname r (Py.lowerStr p :: acc)

/-- `NetlistTemplate(name, pin_names, is_top_cell)`. -/
def mkTemplate (tname : String) (pinNames : List String) (isTop : Bool) :
    Except String PTemplate :=
  match mkTemplateKeys tname pinNames [] with
  | .error m => .error m
  | .ok keys =>
    .ok { name := tname, pins := pinNames, netKeys := keys, subInsts := [],
          selfInsts := [], devices := [], resistors := [], isTop := isTop }

/-- `NetlistTemplate.get_or_add_net` (only the name map is modeled). -/
def getOrAddNet (t : PTemplate) (netName : String) : PTemplate :=
  if t.netKeys.contains (Py.lowerStr netName) then t
  else { t with netKeys := t.netKeys ++ [Py.lowerStr netName] }

/-- `Netlist`: templates keyed by their lower-cased name in insertion
order, plus the key of the top cell once it has been added. -/
structure PNetlist where
  templates : List (String × PTemplate)
  topCell : Option String
  deriving DecidableEq

def emptyNetlist : PNetlist := { templates := [], topCell := none }

/-- First-match association lookup (`dict.get`; keys are unique). -/
def lookupT : List (String × PTemplate) → String → Option PTemplate
  | [], _ => none
  | kv :: r, n => if kv.1 = n then some kv.2 else lookupT r n

/-- `Netlist.find_template`. -/
def findTemplate (nl : PNetlist) (tname : String) : Option PTemplate :=
  lookupT nl.templates (Py.lowerStr tname)

/-- `Netlist.add_template`: `get_name()` yields the lower-cased name,
which is also the map key; duplicates raise; a top-cell template is
recorded as the top cell. -/
def addTemplate (nl : PNetlist) (t : PTemplate) : Except String PNetlist :=
  if (lookupT nl.templates (Py.lowerStr t.name)).isSome then
    .error ("Failed to add template " ++ Py.lowerStr t.name ++
      " to Netlist, template already exists")
  else
    .ok { templates := nl.templates ++ [(Py.lowerStr t.name, t)],
          topCell := if t.isTop then some (Py.lowerStr t.name) else nl.topCell }

/-- `instance_template.add_self_instance(instance)`: mutates the stored
template with the given key. -/
def addSelfInst (nl : PNetlist) (key : String) (inst : PInstance) : PNetlist :=
  { nl with templates := nl.templates.map (fun kv =>
      if kv.1 = key then (kv.1, { kv.2 with selfInsts := kv.2.selfInsts ++ [inst] })
      else kv) }

/-- Parse failures: `ValueError`s wrapped as
`While reading spice file on line {counter}: ...` (carrying the current
line counter), the missing-top-cell `ValueError` raised after the loop
without line context, the `IndexError` escaping the pcell-stripping
loop unwrapped, and the `AttributeError` a `None` template would raise
(unreachable on the modeled paths). -/
inductive ParseErr where
  | atLine (lineNo : Nat) (msg : String)
  | noTopCell (top : String)
  | pyIndex
  | attrNone
  deriving DecidableEq

/-- The loop state of `read_spice_file`. -/
structure BState where
  netlist : PNetlist
  justTemplate : Bool
  inTemplate : Bool
  templ : Option PTemplate
  templName : String
  templPins : List String
  justInstance : Bool
  justDevice : Bool
  justResistor : Bool
  instLines : List String
  devLines : List String
  resLines : List String
  deriving DecidableEq

def initState : BState :=
  { netlist := emptyNetlist, justTemplate := false, inTemplate := false,
    templ := none, templName := "", templPins := [],
    justInstance := false, justDevice := false, justResistor := false,
    instLines := [], devLines := [], resLines := [] }

/-- The `just_read_template_line` block: a `+` line extends the pins and
consumes the line; otherwise the pending template is built. -/
def procTemplFlag (top : String) (k : Nat) (ts : List String) (st : BState) :
    Except ParseErr (Bool × BState) :=
  if st.justTemplate then
    if ts.head? = some "+" then
      .ok (true, { st with templPins := st.templPins ++ ts.drop 1 })
    else if st.templPins = [] then
      .error (.atLine k ("Template " ++ st.templName ++ " has no pins"))
    else
      match mkTemplate st.templName st.templPins (st.templName == top) with
      | .error m => .error (.atLine k m)
      | .ok t => .ok (false, { st with templ := some t, justTemplate := false })
  else .ok (false, st)

/-- The `just_read_instance_line` block: strip trailing pcell `=`
parameters, extract the instance and template names, resolve the target
template, add the connected nets in the enclosing template, and build
the instance — `NetlistInstance.__init__` raises when the connection
count differs from the target's interface net count; the new instance
is then registered as a self-instance of the target and a sub-instance
of the enclosing template (which checks for a duplicate name). -/
def procInstFlag (k : Nat) (ts : List String) (st : BState) :
    Except ParseErr (Bool × BState) :=
  if st.justInstance then
    if ts.head? = some "+" then
      .ok (true, { st with instLines := st.instLines ++ ts.drop 1 })
    else
      match stripPcell st.instLines with
      | none => .error .pyIndex
      | some [] => .error .pyIndex
      | some (i0 :: irest) =>
        let iname : String := ⟨i0.data.drop 1⟩
        if iname = "" then
          .error (.atLine k "In spice file, failed to get instance name")
        else if (i0 :: irest).length < 2 then
          .error (.atLine k ("Failed to get template name of instance " ++ iname))
        else
          let itname := (i0 :: irest).getLastD ""
          let ipins := ((i0 :: irest).drop 1).dropLast
          match findTemplate st.netlist itname with
          | none => .error (.atLine k ("Failed to get template " ++ itname))
          | some it =>
            match st.templ with
            | none => .error .attrNone
            | some ct =>
              let ct1 := ipins.foldl getOrAddNet ct
              if ipins.length ≠ it.pins.length then
                .error (.atLine k ("Failed to create instance " ++ iname ++
                  " of template " ++ itname ++
                  ", number of connected nets does not equal number of template interface nets"))
              else
                let inst : PInstance := { name := iname, templName := itname, conns := ipins }
                let nl1 := addSelfInst st.netlist (Py.lowerStr itname) inst
                if ct1.subInsts.any (fun i2 => Py.lowerStr i2.name == Py.lowerStr iname) then
                  .error (.atLine k ("Failed to add instance " ++ Py.lowerStr iname ++
                    " to template " ++ ct1.name ++ ", instance already exists"))
                else
                  .ok (false,
                    { st with
                      netlist := nl1,
                      templ := some { ct1 with subInsts := ct1.subInsts ++ [inst] },
                      justInstance := false })
  else .ok (false, st)

/-- The `just_read_device_line` block (`NetlistDevice.__init__` cannot
raise here: exactly three nets are passed). -/
def procDevFlag (k : Nat) (ts : List String) (st : BState) :
    Except ParseErr (Bool × BState) :=
  if st.justDevice then
    if ts.head? = some "+" then
      .ok (true, { st with devLines := st.devLines ++ ts.drop 1 })
    else
      match st.devLines with
      | [] => .error .pyIndex
      | d0 :: _ =>
        if st.devLines.length < 4 then
          .error (.atLine k ("Device " ++ d0 ++ " is missing net names"))
        else
          match st.templ with
          | none => .error .attrNone
          | some ct =>
            let ct1 := ((st.devLines.drop 1).take 3).foldl getOrAddNet ct
            if ct1.devices.any (fun d => Py.lowerStr d == Py.lowerStr d0) then
              .error (.atLine k ("Failed to add device " ++ Py.lowerStr d0 ++
                " to template " ++ ct1.name ++ ", device already exists"))
            else
              .ok (false,
                { st with
                  templ := some { ct1 with devices := ct1.devices ++ [d0] },
                  justDevice := false })
  else .ok (false, st)

/-- The `just_read_resistor_line` block. `NetlistResistor.py` is absent
from the source tree; its constructor is modeled like
`NetlistDevice`'s, i.e. non-raising for the two nets the builder
passes. -/
def procResFlag (k : Nat) (ts : List String) (st : BState) :
    Except ParseErr (Bool × BState) :=
  if st.justResistor then
    if ts.head? = some "+" then
      .ok (true, { st with resLines := st.resLines ++ ts.drop 1 })
    else
      match st.resLines with
      | [] => .error .pyIndex
      | r0 :: _ =>
        if st.resLines.length < 3 then
          .error (.atLine k ("Resistor " ++ r0 ++ " is missing net names"))
        else
          match st.templ with
          | none => .error .attrNone
          | some ct =>
            let ct1 := ((st.resLines.drop 1).take 2).foldl getOrAddNet ct
            if ct1.resistors.any (fun r => Py.lowerStr r == Py.lowerStr r0) then
              .error (.atLine k ("Failed to add resistor " ++ Py.lowerStr r0 ++
                " to template " ++ ct1.name ++ ", resistor already exists"))
            else
              .ok (false,
                { st with
                  templ := some { ct1 with resistors := ct1.resistors ++ [r0] },
                  justResistor := false })
  else .ok (false, st)

/-- The trailing per-line checks: `.subckt` opens a template, `.ends`
adds the pending one, and `X`/`M`/`R` lines inside a template are
captured for deferred processing; anything else is only logged. -/
def procMain (top : String) (k : Nat) : List String → BState → Except ParseErr BState
  | [], st => .ok st
  | t0 :: trest, st =>
    if Py.lowerStr t0 = ".subckt" then
      match trest with
      | [] => .error (.atLine k "Encountered .subckt line without template name")
      | t1 :: tr2 =>
        .ok
          { st with
            justTemplate := true, inTemplate := true,
            templName := t1, templPins := tr2 }
    else if st.inTemplate then
      if Py.lowerStr t0 = ".ends" then
        match st.templ with
        | none => .error .attrNone
        | some t =>
          match addTemplate st.netlist t with
          | .error m => .error (.atLine k m)
          | .ok nl1 =>
            .ok { st with netlist := nl1, inTemplate := false, templName := "" }
      else if t0.data.head? = some 'X' then
        .ok { st with justInstance := true, instLines := t0 :: trest }
      else if t0.data.head? = some 'M' then
        .ok { st with justDevice := true, devLines := t0 :: trest }
      else if t0.data.head? = some 'R' then
        .ok { st with justResistor := true, resLines := t0 :: trest }
      else .ok st
    else .ok st

/-- Sequencing of the deferred blocks: an error aborts the line, a
consumed line (`continue`) ends it, otherwise the next block runs. -/
def stepThen (r : Except ParseErr (Bool × BState))
    (f : BState → Except ParseErr BState) : Except ParseErr BState :=
  match r with
  | .error e => .error e
  | .ok (true, st1) => .ok st1
  | .ok (false, st1) => f st1

/-- One effective line of the loop body: the four deferred blocks in
order (each may consume the line via `continue`), then the per-line
checks. -/
def procLine (top : String) (k : Nat) (ts : List String) (st : BState) :
    Except ParseErr BState :=
  stepThen (procTemplFlag top k ts st) (fun st1 =>
    stepThen (procInstFlag k ts st1) (fun st2 =>
      stepThen (procDevFlag k ts st2) (fun st3 =>
        stepThen (procResFlag k ts st3) (fun st4 =>
          procMain top k ts st4))))

/-- The `for line in file` loop; `k` counts the lines already read, so
the next line is read with counter `k + 1`. Blank and `*` comment lines
are skipped. -/
def runLines (top : String) : Nat → List String → BState → Except ParseErr BState
  | _, [], st => .ok st
  | k, l :: ls, st =>
    match effTokens l with
    | none => runLines top (k + 1) ls st
    | some ts =>
      match procLine top (k + 1) ts st with
      | .error e => .error e
      | .ok st1 => runLines top (k + 1) ls st1

/-- `NetlistBuilder.read_spice_file` on the file's lines: run the loop,
then fail unless a top cell was added. -/
def readSpice (top : String) (lines : List String) : Except ParseErr PNetlist :=
  match runLines top 0 lines initState with
  | .error e => .error e
  | .ok st =>
    if st.netlist.topCell.isSome then .ok st.netlist
    else .error (.noTopCell top)

/-- Concrete input for C3: template `foo` has two ports; the top cell
parses fine; the final (unterminated) block ends with the instance line
`Xbad x foo`, which supplies one connection for the two ports of
`foo`. -/
def c3Lines : List String :=
  [".subckt foo a b", ".ends", ".subckt top a b", ".ends",
   ".subckt bar a b", "Xbad x foo"]

def isOkE {ε α : Type} (r : Except ε α) : Bool :=
  match r with
  | .ok _ => true
  | .error _ => false

/-- Port count of a named template in a successful parse result. -/
def parsedPins (top : String) (lines : List String) (tname : String) : Option Nat :=
  match readSpice top lines with
  | .ok nl => (findTemplate nl tname).map (fun t => t.pins.length)
  | .error _ => none

/-- Every sub-instance recorded in `t` names a template of `nl` whose
port count equals the instance's connection count. -/
def WellConnected (nl : PNetlist) (t : PTemplate) : Prop :=
  ∀ inst ∈ t.subInsts, ∃ tt, findTemplate nl inst.templName = some tt ∧
    inst.conns.length = tt.pins.length

/-- The loop invariant for C3: all stored templates, and the pending
one, are well connected against the current netlist. -/
def BInv (st : BState) : Prop :=
  (∀ kv ∈ st.netlist.templates, WellConnected st.netlist kv.2) ∧
  (∀ t, st.templ = some t → WellConnected st.netlist t)

/-- Witness fixtures: a stored two-port template `foo`, an enclosing
template `bar`, a loop state holding the pending instance line
`Xbad x foo`, and a trivially successful parse result. -/
def c3FooT : PTemplate :=
  { name := "foo", pins := ["a", "b"], netKeys := ["a", "b"], subInsts := [],
    selfInsts := [], devices := [], resistors := [], isTop := false }

def c3BarT : PTemplate :=
  { name := "bar", pins := ["a", "b"], netKeys := ["a", "b"], subInsts := [],
    selfInsts := [], devices := [], resistors := [], isTop := false }

def c3St : BState :=
  { netlist := { templates := [("foo", c3FooT)], topCell := none },
    justTemplate := false, inTemplate := true, templ := some c3BarT,
    templName := "bar", templPins := [],
    justInstance := true, justDevice := false, justResistor := false,
    instLines := ["Xbad", "x", "foo"], devLines := [], resLines := [] }

def c3TopNl : PNetlist :=
  { templates := [("top",
      { name := "top", pins := ["a", "b"], netKeys := ["a", "b"], subInsts := [],
        selfInsts := [], devices := [], resistors := [], isTop := true })],
    topCell := some "top" }

end Parse


namespace NQ

/-- One `INDEX_PATTERN` (`\\[(\\d+)\\]`) match attempt after an opening
bracket: digits then `]`. -/
def idxParseAt (input : List Char) : Option (List Char × List Char) :=
  let q := Bus.takeDigits input
  if q.1 = [] then none
  else
    match q.2 with
    | ']' :: r => some (q.1, r)
    | _ => none

/-- Leftmost `\\[(\\d+)\\]` match:
(chars before, digit group, chars after). -/
def findIdx : List Char → Option (List Char × List Char × List Char)
  | [] => none
  | c :: rest =>
    if c = '[' then
      match idxParseAt rest with
      | some q => some ([], q.1, q.2)
      | none =>
        match findIdx rest with
        | some q => some (c :: q.1, q.2.1, q.2.2)
        | none => none
    else
      match findIdx rest with
      | some q => some (c :: q.1, q.2.1, q.2.2)
      | none => none

/-- `INDEX_PATTERN.findall`, as numeric values (left-to-right,
non-overlapping); the fuel only needs to exceed the text length. -/
def idxFindall : Nat → List Char → List Nat
  | 0, _ => []
  | fuel + 1, cs =>
    match findIdx cs with
    | none => []
    | some (_, d, suf) => Bus.digsToNat d :: idxFindall fuel suf

/-- `INDEX_PATTERN.sub("[]", s)`. -/
def idxSubst : Nat → List Char → List Char
  | 0, cs => cs
  | fuel + 1, cs =>
    match findIdx cs with
    | none => cs
    | some (pre, _, suf) => pre ++ '[' :: ']' :: idxSubst fuel suf

/-- `BUS_PATTERN.findall`, as numeric pairs. -/
def busFindallF : Nat → List Char → List (Nat × Nat)
  | 0, _ => []
  | fuel + 1, cs =>
    match Bus.findBus cs with
    | none => []
    | some (_, d1, d2, suf) => (Bus.digsToNat d1, Bus.digsToNat d2) :: busFindallF fuel suf

/-- `BUS_PATTERN.sub("[]", s)`. -/
def busSubst : Nat → List Char → List Char
  | 0, cs => cs
  | fuel + 1, cs =>
    match Bus.findBus cs with
    | none => cs
    | some (pre, _, _, suf) => pre ++ '[' :: ']' :: busSubst fuel suf

/-- One iteration of the extraction loop of `collapse_bus_notation`:
the numeric indices of a (normalized) name — bus pairs flattened if any
bus range matches, otherwise the single indices — together with the
structural skeleton obtained by substituting `[]` for bus ranges and
then for single indices. -/
def collectRow (name : String) : List Nat × String :=
  let bus := busFindallF (name.data.length + 1) name.data
  let indices :=
    if bus ≠ [] then bus.flatMap (fun p => [p.1, p.2])
    else idxFindall (name.data.length + 1) name.data
  let s1 := busSubst (name.data.length + 1) name.data
  (indices, ⟨idxSubst (s1.length + 1) s1⟩)

/-- Remaining iterations: every further name must produce the same
skeleton as the first, else the whole collapse returns `None`. -/
def collectGo (templ : String) : List String → Option (List (List Nat))
  | [] => some []
  | n :: rest =>
    let r := collectRow n
    if r.2 = templ then (collectGo templ rest).map (fun ls => r.1 :: ls)
    else none

def collectRows (names : List String) : Option (List (List Nat) × String) :=
  match names with
  | [] => some ([], "")
  | n0 :: rest =>
    let r0 := collectRow n0
    (collectGo r0.2 rest).map (fun ls => (r0.1 :: ls, r0.2))

/-- The per-dimension loop: `values = sorted(set(dim))` must be the
full contiguous range, and collapses to `[v]` or `[lo:hi]`. The
`getD 0` defaults are unreachable (every dimension is nonempty). -/
def collapseDims : List (List Nat) → Option (List (List Char))
  | [] => some []
  | dim :: rest =>
    let values := List.insertionSort (· ≤ ·) dim.dedup
    let mn := values.head?.getD 0
    let mx := values.getLast?.getD 0
    if values = List.range' mn (mx + 1 - mn) then
      if mn = mx then
        (collapseDims rest).map (fun cs => ('[' :: (Bus.natChars mn ++ [']'])) :: cs)
      else
        (collapseDims rest).map
          (fun cs => ('[' :: (Bus.natChars mn ++ ':' :: (Bus.natChars mx ++ [']']))) :: cs)
    else none

/-- `str.replace("[]", rep, 1)`: replace the leftmost occurrence. -/
def replaceBrkOnce (rep : List Char) : List Char → List Char
  | [] => []
  | c :: rest =>
    if c = '[' then
      match rest with
      | ']' :: r2 => rep ++ r2
      | _ => c :: replaceBrkOnce rep rest
    else c :: replaceBrkOnce rep rest

/-- `NetlistQueryService.collapse_bus_notation`. -/
def collapseBus (netNames : List String) : Option String :=
  match netNames with
  | [] => none
  | _ :: _ =>
    let normalized := netNames.map Py.lowerStr
    if normalized.length = 1 then normalized.head?
    else
      match collectRows normalized with
      | none => none
      | some (indexLists, templ) =>
        if indexLists.head?.getD [] = [] then
          let uniq := normalized.dedup
          if uniq.length = 1 then uniq.head? else none
        else
          let expected := (indexLists.head?.getD []).length
          if indexLists.any (fun l => l.length ≠ expected) then none
          else
            let dims := (List.range expected).map (fun i => indexLists.map (fun l => l.getD i 0))
            match collapseDims dims with
            | none => none
            | some cdims =>
              let expectedCount := dims.foldl (fun a dim => a * dim.dedup.length) 1
              if expectedCount ≠ normalized.dedup.length then none
              else some ⟨cdims.foldl (fun acc d => replaceBrkOnce d acc) templ.data⟩

/-- The lowercase, bracket-free side condition on skeleton segments. -/
def PlainSeg (l : List Char) : Prop :=
  ∀ c ∈ l, c ≠ '[' ∧ c ≠ ']' ∧ Py.lowChar c = c

end NQ

-- ===================== end of definitions (part 1) =====================

namespace CStore

theorem mem_dropOwner (lid x : String) (o : Option (Finset String)) :
    x ∈ (dropOwner lid o).getD ∅ ↔ x ∈ o.getD ∅ ∧ x ≠ lid := by
  cases o with
  | none => simp [dropOwner]
  | some owners =>
    by_cases how : owners = ∅
    · simp [dropOwner, how]
    · by_cases he : owners.erase lid = ∅
      · simp only [dropOwner]
        rw [if_neg how, if_pos he]
        simp only [Option.getD_none, Option.getD_some, Finset.not_mem_empty, false_iff]
        rintro ⟨hx, hne⟩
        have hxe : x ∈ owners.erase lid := Finset.mem_erase.mpr ⟨hne, hx⟩
        rw [he] at hxe
        exact absurd hxe (Finset.not_mem_empty x)
      · simp only [dropOwner]
        rw [if_neg how, if_neg he]
        simp only [Option.getD_some, Finset.mem_erase]
        exact ⟨fun ⟨a, b⟩ => ⟨b, a⟩, fun ⟨a, b⟩ => ⟨b, a⟩⟩

theorem lineNets_removeLineFromIndex (s : Store) (lid : String) :
    (removeLineFromIndex s lid).lineNets = s.lineNets := by
  unfold removeLineFromIndex
  cases h : s.lineNets lid with
  | none => rfl
  | some old => by_cases ho : old = ∅ <;> simp [ho]

theorem netLines_removeLineFromIndex (s : Store) (lid n : String) :
    (removeLineFromIndex s lid).netLines n =
      match s.lineNets lid with
      | none => s.netLines n
      | some old =>
        if old = ∅ then s.netLines n
        else if n ∈ old then dropOwner lid (s.netLines n) else s.netLines n := by
  unfold removeLineFromIndex
  cases s.lineNets lid with
  | none => rfl
  | some old => by_cases ho : old = ∅ <;> simp [ho]

theorem mem_netLines_removeLineFromIndex (s : Store) (lid l n : String) :
    memNetLines (removeLineFromIndex s lid) n l ↔
      memNetLines s n l ∧ ¬(l = lid ∧ memLineNets s lid n) := by
  simp only [memNetLines, memLineNets, netLines_removeLineFromIndex]
  cases h : s.lineNets lid with
  | none => simp
  | some old =>
    simp only [Option.getD_some]
    by_cases ho : old = ∅
    · subst ho; simp
    · rw [if_neg ho]
      by_cases hn : n ∈ old
      · rw [if_pos hn, mem_dropOwner]
        constructor
        · rintro ⟨hm, hne⟩; exact ⟨hm, fun hq => hne hq.1⟩
        · rintro ⟨hm, hne⟩; exact ⟨hm, fun hq => hne ⟨hq, hn⟩⟩
      · rw [if_neg hn]
        constructor
        · intro hm; exact ⟨hm, fun hq => hn hq.2⟩
        · exact fun hq => hq.1

theorem mem_netLines_rem_of_inv {s : Store} (hInv : Inv s) (lid l n : String) :
    memNetLines (removeLineFromIndex s lid) n l ↔ memNetLines s n l ∧ l ≠ lid := by
  rw [mem_netLines_removeLineFromIndex]
  constructor
  · rintro ⟨hm, hno⟩
    refine ⟨hm, fun hl => hno ⟨hl, ?_⟩⟩
    exact (hInv lid n).mp (hl ▸ hm)
  · rintro ⟨hm, hl⟩; exact ⟨hm, fun hq => hl hq.1⟩

theorem updateLine_lineNets (s : Store) (lid : String) (nets : Finset String)
    (l : String) :
    (updateLine s lid nets).lineNets l =
      if nets = ∅ then (if l = lid then none else s.lineNets l)
      else (if l = lid then some nets else s.lineNets l) := by
  unfold updateLine
  by_cases hne : nets = ∅ <;> by_cases hl : l = lid <;>
    simp [hne, hl, congrFun (lineNets_removeLineFromIndex s lid) l]

theorem updateLine_netLines (s : Store) (lid : String) (nets : Finset String)
    (n : String) :
    (updateLine s lid nets).netLines n =
      if nets = ∅ then (removeLineFromIndex s lid).netLines n
      else if n ∈ nets then
        some (insert lid (((removeLineFromIndex s lid).netLines n).getD ∅))
      else (removeLineFromIndex s lid).netLines n := by
  unfold updateLine
  by_cases hne : nets = ∅ <;> by_cases hn : n ∈ nets <;> simp [hne, hn]

theorem removeLine_lineNets (s : Store) (lid l : String) :
    (removeLine s lid).lineNets l = if l = lid then none else s.lineNets l := by
  unfold removeLine
  by_cases hl : l = lid <;>
    simp [hl, congrFun (lineNets_removeLineFromIndex s lid) l]

theorem removeLine_netLines (s : Store) (lid n : String) :
    (removeLine s lid).netLines n = (removeLineFromIndex s lid).netLines n := rfl

theorem mem_lineNets_updateLine (s : Store) (lid : String) (nets : Finset String)
    (l n : String) :
    memLineNets (updateLine s lid nets) l n ↔
      (if l = lid then n ∈ nets else memLineNets s l n) := by
  simp only [memLineNets, updateLine_lineNets]
  by_cases hne : nets = ∅ <;> by_cases hl : l = lid <;> simp [hne, hl]

theorem mem_netLines_updateLine (s : Store) (lid : String) (nets : Finset String)
    (l n : String) :
    memNetLines (updateLine s lid nets) n l ↔
      (if n ∈ nets then l = lid ∨ memNetLines (removeLineFromIndex s lid) n l
       else memNetLines (removeLineFromIndex s lid) n l) := by
  simp only [memNetLines, updateLine_netLines]
  by_cases hne : nets = ∅
  · have hn : n ∉ nets := by rw [hne]; exact Finset.not_mem_empty n
    simp [hne, hn]
  · by_cases hn : n ∈ nets <;> simp [hne, hn, Finset.mem_insert]

theorem inv_updateLine {s : Store} (hInv : Inv s) (lid : String)
    (nets : Finset String) : Inv (updateLine s lid nets) := by
  intro l n
  rw [mem_netLines_updateLine, mem_lineNets_updateLine]
  have hrem := mem_netLines_rem_of_inv hInv lid l n
  by_cases hl : l = lid
  · subst hl
    by_cases hn : n ∈ nets
    · simp [hn]
    · rw [if_neg hn, if_pos rfl, hrem]
      simp [hn]
  · by_cases hn : n ∈ nets
    · rw [if_pos hn, if_neg hl, hrem]
      constructor
      · rintro (h | ⟨hm, _⟩)
        · exact absurd h hl
        · exact (hInv l n).mp hm
      · intro hmem; exact Or.inr ⟨(hInv l n).mpr hmem, hl⟩
    · rw [if_neg hn, if_neg hl, hrem]
      constructor
      · rintro ⟨hm, _⟩; exact (hInv l n).mp hm
      · intro hmem; exact ⟨(hInv l n).mpr hmem, hl⟩

theorem inv_removeLine {s : Store} (hInv : Inv s) (lid : String) :
    Inv (removeLine s lid) := by
  intro l n
  have hrem := mem_netLines_rem_of_inv hInv lid l n
  have hnl : memNetLines (removeLine s lid) n l ↔
      memNetLines (removeLineFromIndex s lid) n l := Iff.rfl
  have hln : memLineNets (removeLine s lid) l n ↔
      (if l = lid then False else memLineNets s l n) := by
    simp only [memLineNets, removeLine_lineNets]
    by_cases hl : l = lid <;> simp [hl]
  rw [hnl, hrem, hln]
  by_cases hl : l = lid
  · simp [hl]
  · rw [if_neg hl]
    constructor
    · rintro ⟨hm, _⟩; exact (hInv l n).mp hm
    · intro hm; exact ⟨(hInv l n).mpr hm, hl⟩

theorem exists_entry_iff_alookupF {ps : List (String × Finset String)}
    (hnd : (ps.map Prod.fst).Nodup) (l n : String) :
    (∃ p ∈ ps, p.1 = l ∧ n ∈ p.2) ↔
      ∃ nets, alookupF ps l = some nets ∧ n ∈ nets := by
  induction ps with
  | nil => simp [alookupF]
  | cons p t ih =>
    simp only [List.map_cons, List.nodup_cons] at hnd
    by_cases hp : p.1 = l
    · simp only [alookupF]
      rw [if_pos hp]
      simp only [Option.some.injEq]
      constructor
      · rintro ⟨q, hq, hql, hqn⟩
        rcases List.mem_cons.mp hq with rfl | hqt
        · exact ⟨q.2, rfl, hqn⟩
        · have hmem : p.1 ∈ t.map Prod.fst := by
            rw [hp, ← hql]
            exact List.mem_map.mpr ⟨q, hqt, rfl⟩
          exact absurd hmem hnd.1
      · rintro ⟨nets, hh, hn⟩
        exact ⟨p, List.mem_cons_self p t, hp, hh ▸ hn⟩
    · simp only [alookupF]
      rw [if_neg hp, ← ih hnd.2]
      constructor
      · rintro ⟨q, hq, hql, hqn⟩
        rcases List.mem_cons.mp hq with rfl | hqt
        · exact absurd hql hp
        · exact ⟨q, hqt, hql, hqn⟩
      · rintro ⟨q, hq, hql, hqn⟩
        exact ⟨q, List.mem_cons_of_mem p hq, hql, hqn⟩

theorem mem_getD_ite_empty (S : Finset String) (x : String) :
    x ∈ (if S = ∅ then none else some S).getD ∅ ↔ x ∈ S := by
  by_cases ho : S = ∅
  · simp [ho]
  · simp [ho]

theorem inv_buildFromLines {m : List (String × Finset String)}
    (hnd : NodupKeys m) : Inv (buildFromLines m) := by
  intro l n
  simp only [memNetLines, memLineNets]
  unfold buildFromLines
  simp only
  have hndk : ((m.filter (fun p => ¬ p.2 = ∅)).map Prod.fst).Nodup :=
    List.Nodup.sublist ((List.filter_sublist m).map Prod.fst) hnd
  set kept := m.filter (fun p => decide ¬ p.2 = ∅) with hkept
  rw [mem_getD_ite_empty]
  rw [List.mem_toFinset, List.mem_map]
  constructor
  · rintro ⟨q, hq, hql⟩
    rcases List.mem_filter.mp hq with ⟨hqk, hqn⟩
    have := (exists_entry_iff_alookupF hndk l n).mp ⟨q, hqk, hql, of_decide_eq_true hqn⟩
    rcases this with ⟨nets, hlk, hn⟩
    simp only [hkept] at hlk ⊢
    rw [hlk]
    simpa using hn
  · intro hmem2
    rcases hx : alookupF kept l with _ | nets
    · rw [hkept] at hx
      rw [hx] at hmem2
      exact absurd hmem2 (Finset.not_mem_empty n)
    · rw [hkept] at hx
      rw [hx] at hmem2
      simp only [Option.getD_some] at hmem2
      rcases (exists_entry_iff_alookupF hndk l n).mpr ⟨nets, hx, hmem2⟩ with ⟨q, hqk, hql, hqn⟩
      exact ⟨q, List.mem_filter.mpr ⟨hqk, decide_eq_true hqn⟩, hql⟩

theorem inv_emptyStore : Inv emptyStore := by
  intro l n
  simp [memNetLines, memLineNets, emptyStore]

/-- C1: after each of the four `ConflictStore` mutations the two indexes
are exact inverses: `l ∈ net_lines[n] ⇔ n ∈ line_nets[l]` — the
invariant is established by `build_from_lines` (from a dict, whose keys
are unique) and by `clear`, and preserved by `update_line` and
`remove_line`. -/
theorem c1_bidirectional_index_invariant :
    (∀ s lid nets, Inv s → Inv (updateLine s lid nets)) ∧
    (∀ m, NodupKeys m → Inv (buildFromLines m)) ∧
    (∀ s lid, Inv s → Inv (removeLine s lid)) ∧
    (∀ s, Inv (clearStore s)) :=
  ⟨fun _ lid nets h => inv_updateLine h lid nets,
   fun _ hnd => inv_buildFromLines hnd,
   fun _ lid h => inv_removeLine h lid,
   fun _ => inv_emptyStore⟩

/-- Witness for C1 at concrete inputs. -/
theorem c1_bidirectional_index_invariant_witness :
    Inv (updateLine emptyStore "line-1" {"vdd", "out"}) ∧
    Inv (buildFromLines [("line-1", {"vdd"}), ("line-2", {"vdd", "gnd"})]) :=
  ⟨c1_bidirectional_index_invariant.1 emptyStore "line-1" {"vdd", "out"} inv_emptyStore,
   c1_bidirectional_index_invariant.2.1 [("line-1", {"vdd"}), ("line-2", {"vdd", "gnd"})]
     (by unfold NodupKeys; decide)⟩

theorem dropOwner_ne_some_empty {lid : String} {o : Option (Finset String)}
    (h : o ≠ some ∅) : dropOwner lid o ≠ some ∅ := by
  cases o with
  | none => simp [dropOwner]
  | some owners =>
    have how : ¬ owners = ∅ := fun he => h (by rw [he])
    simp only [dropOwner]
    rw [if_neg how]
    by_cases he : owners.erase lid = ∅
    · rw [if_pos he]; simp
    · rw [if_neg he]; simpa using he

theorem noempty_removeLineFromIndex {s : Store} (h : NoEmpty s) (lid : String) :
    NoEmpty (removeLineFromIndex s lid) := by
  intro n
  rw [netLines_removeLineFromIndex]
  cases s.lineNets lid with
  | none => exact h n
  | some old =>
    show (if old = ∅ then s.netLines n
      else if n ∈ old then dropOwner lid (s.netLines n) else s.netLines n) ≠ some ∅
    by_cases ho : old = ∅
    · rw [if_pos ho]; exact h n
    · rw [if_neg ho]
      by_cases hn : n ∈ old
      · rw [if_pos hn]; exact dropOwner_ne_some_empty (h n)
      · rw [if_neg hn]; exact h n

theorem noempty_updateLine {s : Store} (h : NoEmpty s) (lid : String)
    (nets : Finset String) : NoEmpty (updateLine s lid nets) := by
  intro n
  rw [updateLine_netLines]
  by_cases hne : nets = ∅
  · rw [if_pos hne]; exact noempty_removeLineFromIndex h lid n
  · rw [if_neg hne]
    by_cases hn : n ∈ nets
    · rw [if_pos hn]
      intro hcontra
      have : insert lid (((removeLineFromIndex s lid).netLines n).getD ∅) = ∅ :=
        Option.some.inj hcontra
      exact absurd this (Finset.insert_ne_empty lid _)
    · rw [if_neg hn]; exact noempty_removeLineFromIndex h lid n

theorem noempty_buildFromLines (m : List (String × Finset String)) :
    NoEmpty (buildFromLines m) := by
  intro n
  unfold buildFromLines
  simp only
  by_cases ho :
      (((m.filter (fun p => ¬ p.2 = ∅)).filter (fun p => n ∈ p.2)).map Prod.fst).toFinset = ∅
  · simp [ho]
  · simp [ho]

theorem noempty_removeLine {s : Store} (h : NoEmpty s) (lid : String) :
    NoEmpty (removeLine s lid) := by
  intro n
  rw [removeLine_netLines]
  exact noempty_removeLineFromIndex h lid n

/-- C10: the reverse index never maps a net to an empty set (when a
mutation strips the last owner of a net, the entry is deleted), and —
together with the bidirectional invariant — every net present in the
reverse index is owned by at least one line present in the forward
index. -/
theorem c10_no_empty_net_entries :
    (∀ s lid nets, NoEmpty s → NoEmpty (updateLine s lid nets)) ∧
    (∀ m, NoEmpty (buildFromLines m)) ∧
    (∀ s lid, NoEmpty s → NoEmpty (removeLine s lid)) ∧
    (∀ s, NoEmpty (clearStore s)) ∧
    (∀ s, Inv s → NoEmpty s → ∀ n S, s.netLines n = some S →
      ∃ l ∈ S, ∃ T, s.lineNets l = some T ∧ n ∈ T) := by
  refine ⟨fun _ lid nets h => noempty_updateLine h lid nets,
    noempty_buildFromLines,
    fun _ lid h => noempty_removeLine h lid,
    fun _ n => by simp [clearStore, emptyStore],
    fun s hInv hne n S hS => ?_⟩
  have hSne : S ≠ ∅ := fun he => hne n (he ▸ hS)
  rcases Finset.nonempty_iff_ne_empty.mpr hSne with ⟨l, hl⟩
  have hmem : memNetLines s n l := by
    simp only [memNetLines, hS, Option.getD_some]; exact hl
  have hln : memLineNets s l n := (hInv l n).mp hmem
  rcases hT : s.lineNets l with _ | T
  · simp only [memLineNets, hT, Option.getD_none] at hln
    exact absurd hln (Finset.not_mem_empty n)
  · simp only [memLineNets, hT, Option.getD_some] at hln
    exact ⟨l, hl, T, hT, hln⟩

/-- Witness for C10 at concrete inputs. -/
theorem c10_no_empty_net_entries_witness :
    NoEmpty (updateLine emptyStore "line-1" {"vdd"}) ∧
    (∃ l ∈ ({"line-1"} : Finset String), ∃ T,
      (buildFromLines [("line-1", {"vdd"})]).lineNets l = some T ∧ "vdd" ∈ T) :=
  ⟨c10_no_empty_net_entries.1 emptyStore "line-1" {"vdd"} (fun _ => by simp [emptyStore]),
   c10_no_empty_net_entries.2.2.2.2 (buildFromLines [("line-1", {"vdd"})])
     (inv_buildFromLines (by unfold NodupKeys; decide))
     (c10_no_empty_net_entries.2.1 [("line-1", {"vdd"})]) "vdd" {"line-1"} (by decide)⟩


theorem owners_subset_singleton {s : Store} (hInv : Inv s) {a b : String}
    (honly : OnlyLines s a b) {A B : Finset String}
    (hA : s.lineNets a = some A) (hB : s.lineNets b = some B)
    (hdisj : A ∩ B = ∅) {n : String} (hn : n ∈ A) :
    (s.netLines n).getD ∅ ⊆ {a} := by
  intro l hl
  have hmem : memNetLines s n l := hl
  have hln : memLineNets s l n := (hInv l n).mp hmem
  have hnone : s.lineNets l ≠ none := by
    intro hno
    simp only [memLineNets, hno, Option.getD_none] at hln
    exact absurd hln (Finset.not_mem_empty n)
  rcases honly l hnone with rfl | rfl
  · exact Finset.mem_singleton_self l
  · simp only [memLineNets, hB, Option.getD_some] at hln
    have : n ∈ A ∩ B := Finset.mem_inter.mpr ⟨hn, hln⟩
    rw [hdisj] at this
    exact absurd this (Finset.not_mem_empty n)

theorem isConflicting_eq_false {s : Store} {lid : String} {A : Finset String}
    (hA : s.lineNets lid = some A)
    (hbound : ∀ n ∈ A, ownersCard s n ≤ 1) :
    isConflicting s lid = false := by
  unfold isConflicting
  rw [hA]
  show (if A = ∅ then false else decide (∃ n ∈ A, 1 < ownersCard s n)) = false
  by_cases hAe : A = ∅
  · rw [if_pos hAe]
  · rw [if_neg hAe]
    rw [decide_eq_false_iff_not]
    rintro ⟨n, hn, hcard⟩
    exact absurd hcard (not_lt.mpr (hbound n hn))

/-- C9: two stored lines with disjoint net sets are both non-conflicting;
after `update_line` gives the first a net set meeting the second's, both
report conflicting and each appears in the other's peer set. -/
theorem c9_disjoint_then_overlap_symmetry
    (s : Store) (a b : String) (A B : Finset String)
    (hInv : Inv s) (honly : OnlyLines s a b) (hab : a ≠ b)
    (hA : s.lineNets a = some A) (hB : s.lineNets b = some B)
    (hdisj : A ∩ B = ∅) :
    (isConflicting s a = false ∧ isConflicting s b = false) ∧
    ∀ A' : Finset String, (A' ∩ B).Nonempty →
      isConflicting (updateLine s a A') a = true ∧
      isConflicting (updateLine s a A') b = true ∧
      b ∈ getConflictingLines (updateLine s a A') a ∧
      a ∈ getConflictingLines (updateLine s a A') b := by
  have hdisj' : B ∩ A = ∅ := by rwa [Finset.inter_comm]
  constructor
  · constructor
    · refine isConflicting_eq_false hA (fun n hn => ?_)
      have hsub := owners_subset_singleton hInv honly hA hB hdisj hn
      calc ownersCard s n ≤ ({a} : Finset String).card := Finset.card_le_card hsub
        _ = 1 := Finset.card_singleton a
    · refine isConflicting_eq_false hB (fun n hn => ?_)
      have honly' : OnlyLines s b a := fun l h => (honly l h).symm
      have hsub := owners_subset_singleton hInv honly' hB hA hdisj' hn
      calc ownersCard s n ≤ ({b} : Finset String).card := Finset.card_le_card hsub
        _ = 1 := Finset.card_singleton b
  · intro A' hover
    rcases hover with ⟨n₀, hn₀⟩
    rcases Finset.mem_inter.mp hn₀ with ⟨hn₀A, hn₀B⟩
    have hA'ne : A' ≠ ∅ := fun he => by
      rw [he] at hn₀A; exact absurd hn₀A (Finset.not_mem_empty n₀)
    set s' := updateLine s a A' with hs'
    have hlnA : s'.lineNets a = some A' := by
      rw [hs', updateLine_lineNets, if_neg hA'ne, if_pos rfl]
    have hlnB : s'.lineNets b = some B := by
      rw [hs', updateLine_lineNets, if_neg hA'ne, if_neg (Ne.symm hab), hB]
    have hmema : memNetLines s' n₀ a := by
      rw [hs', mem_netLines_updateLine, if_pos hn₀A]
      exact Or.inl rfl
    have hmemb : memNetLines s' n₀ b := by
      rw [hs', mem_netLines_updateLine, if_pos hn₀A]
      refine Or.inr ((mem_netLines_rem_of_inv hInv a b n₀).mpr ⟨?_, Ne.symm hab⟩)
      exact (hInv b n₀).mpr (by simp only [memLineNets, hB, Option.getD_some]; exact hn₀B)
    have hcard : 1 < ownersCard s' n₀ := by
      unfold ownersCard
      exact Finset.one_lt_card.mpr ⟨a, hmema, b, hmemb, hab⟩
    refine ⟨?_, ?_, ?_, ?_⟩
    · unfold isConflicting
      rw [hlnA]
      show (if A' = ∅ then false else decide (∃ n ∈ A', 1 < ownersCard s' n)) = true
      rw [if_neg hA'ne, decide_eq_true_eq]
      exact ⟨n₀, hn₀A, hcard⟩
    · have hBne : B ≠ ∅ := fun he => by
        rw [he] at hn₀B; exact absurd hn₀B (Finset.not_mem_empty n₀)
      unfold isConflicting
      rw [hlnB]
      show (if B = ∅ then false else decide (∃ n ∈ B, 1 < ownersCard s' n)) = true
      rw [if_neg hBne, decide_eq_true_eq]
      exact ⟨n₀, hn₀B, hcard⟩
    · unfold getConflictingLines
      rw [hlnA]
      show b ∈ (if A' = ∅ then ∅ else (A'.sup fun n => (s'.netLines n).getD ∅).erase a)
      rw [if_neg hA'ne]
      refine Finset.mem_erase.mpr ⟨Ne.symm hab, ?_⟩
      exact Finset.mem_sup.mpr ⟨n₀, hn₀A, hmemb⟩
    · have hBne : B ≠ ∅ := fun he => by
        rw [he] at hn₀B; exact absurd hn₀B (Finset.not_mem_empty n₀)
      unfold getConflictingLines
      rw [hlnB]
      show a ∈ (if B = ∅ then ∅ else (B.sup fun n => (s'.netLines n).getD ∅).erase b)
      rw [if_neg hBne]
      refine Finset.mem_erase.mpr ⟨hab, ?_⟩
      exact Finset.mem_sup.mpr ⟨n₀, hn₀B, hmema⟩

theorem lineNets_two_line_store (l : String) :
    (updateLine (updateLine emptyStore "lineA" {"net1"}) "lineB" {"net2"}).lineNets l =
      if l = "lineB" then some {"net2"}
      else if l = "lineA" then some {"net1"} else none := by
  rw [updateLine_lineNets, if_neg (by decide : ¬({"net2"} : Finset String) = ∅)]
  by_cases h1 : l = "lineB"
  · rw [if_pos h1, if_pos h1]
  · rw [if_neg h1, if_neg h1,
      updateLine_lineNets, if_neg (by decide : ¬({"net1"} : Finset String) = ∅)]
    by_cases h2 : l = "lineA"
    · rw [if_pos h2, if_pos h2]
    · rw [if_neg h2, if_neg h2]
      rfl

/-- Witness for C9 on a concrete two-line store. -/
theorem c9_disjoint_then_overlap_symmetry_witness :
    isConflicting (updateLine (updateLine emptyStore "lineA" {"net1"}) "lineB" {"net2"})
      "lineA" = false ∧
    isConflicting
      (updateLine (updateLine (updateLine emptyStore "lineA" {"net1"}) "lineB" {"net2"})
        "lineA" {"net2", "net3"}) "lineB" = true ∧
    "lineA" ∈ getConflictingLines
      (updateLine (updateLine (updateLine emptyStore "lineA" {"net1"}) "lineB" {"net2"})
        "lineA" {"net2", "net3"}) "lineB" := by
  have hInv : Inv (updateLine (updateLine emptyStore "lineA" {"net1"}) "lineB" {"net2"}) :=
    inv_updateLine (inv_updateLine inv_emptyStore "lineA" {"net1"}) "lineB" {"net2"}
  have honly : OnlyLines (updateLine (updateLine emptyStore "lineA" {"net1"})
      "lineB" {"net2"}) "lineA" "lineB" := by
    intro l h
    rw [lineNets_two_line_store] at h
    by_cases h1 : l = "lineB"
    · exact Or.inr h1
    · by_cases h2 : l = "lineA"
      · exact Or.inl h2
      · rw [if_neg h1, if_neg h2] at h
        exact absurd rfl h
  have hmain := c9_disjoint_then_overlap_symmetry
    (updateLine (updateLine emptyStore "lineA" {"net1"}) "lineB" {"net2"})
    "lineA" "lineB" {"net1"} {"net2"} hInv honly (by decide)
    (by rw [lineNets_two_line_store]; decide)
    (by rw [lineNets_two_line_store]; decide)
    (by decide)
  have hover : (({"net2", "net3"} : Finset String) ∩ {"net2"}).Nonempty := by decide
  exact ⟨hmain.1.1, (hmain.2 {"net2", "net3"} hover).2.1, (hmain.2 {"net2", "net3"} hover).2.2.2⟩

theorem alookupF_eq_none {ps : List (String × Finset String)} {l : String}
    (h : l ∉ ps.map Prod.fst) : alookupF ps l = none := by
  induction ps with
  | nil => rfl
  | cons p t ih =>
    simp only [List.map_cons, List.mem_cons] at h
    push_neg at h
    simp only [alookupF]
    rw [if_neg (fun he => h.1 he.symm)]
    exact ih h.2

theorem alookupF_append (ps qs : List (String × Finset String)) (l : String) :
    alookupF (ps ++ qs) l =
      match alookupF ps l with
      | some v => some v
      | none => alookupF qs l := by
  induction ps with
  | nil => rfl
  | cons p t ih =>
    have hcons : (p :: t) ++ qs = p :: (t ++ qs) := rfl
    rw [hcons]
    have h1 : alookupF (p :: (t ++ qs)) l =
        if p.1 = l then some p.2 else alookupF (t ++ qs) l := rfl
    have h2 : alookupF (p :: t) l = if p.1 = l then some p.2 else alookupF t l := rfl
    rw [h1, h2]
    by_cases hp : p.1 = l
    · rw [if_pos hp, if_pos hp]
    · rw [if_neg hp, if_neg hp, ih]

theorem removeLineFromIndex_of_none {s : Store} {lid : String}
    (h : s.lineNets lid = none) : removeLineFromIndex s lid = s := by
  unfold removeLineFromIndex
  rw [h]

theorem getD_ite_empty (X : Finset String) :
    (if X = ∅ then none else some X).getD ∅ = X := by
  by_cases h : X = ∅ <;> simp [h]

theorem ownersOf_append_single (ps : List (String × Finset String))
    (p : String × Finset String) (n : String) :
    ownersOf (ps ++ [p]) n =
      if n ∈ p.2 then insert p.1 (ownersOf ps n) else ownersOf ps n := by
  unfold ownersOf
  rw [List.filter_append, List.map_append, List.toFinset_append]
  by_cases hn : n ∈ p.2
  · rw [if_pos hn]
    have : List.filter (fun p => decide (n ∈ p.2)) [p] = [p] := by
      simp [List.filter, hn]
    rw [this]
    simp only [List.map_cons, List.map_nil, List.toFinset_cons, List.toFinset_nil]
    rw [Finset.union_comm]
    simp [Finset.insert_eq]
  · rw [if_neg hn]
    have : List.filter (fun p => decide (n ∈ p.2)) [p] = [] := by
      simp [List.filter, hn]
    rw [this]
    simp

theorem canon_updateLine {ps : List (String × Finset String)} {s : Store}
    (hc : Canon ps s) (p : String × Finset String)
    (hfresh : p.1 ∉ ps.map Prod.fst) :
    Canon (ps ++ [p]) (updateLine s p.1 p.2) := by
  have hnone : s.lineNets p.1 = none := by
    rw [hc.1 p.1, alookupF_eq_none hfresh]
  have hrem : removeLineFromIndex s p.1 = s := removeLineFromIndex_of_none hnone
  constructor
  · intro l
    rw [updateLine_lineNets, alookupF_append]
    by_cases hl : l = p.1
    · subst hl
      rw [alookupF_eq_none hfresh]
      have hone : alookupF [p] p.1 = some p.2 := by
        have : alookupF [p] p.1 = if p.1 = p.1 then some p.2 else none := rfl
        rw [this, if_pos rfl]
      rw [hone]
      by_cases he : p.2 = ∅ <;> simp [he]
    · have hone : alookupF [p] l = none := by
        have : alookupF [p] l = if p.1 = l then some p.2 else none := rfl
        rw [this, if_neg (fun hq => hl hq.symm)]
      rw [hone, hc.1 l]
      by_cases he : p.2 = ∅ <;>
        cases hx : alookupF ps l <;>
        simp [he, hl]
  · intro n
    rw [updateLine_netLines, hrem, ownersOf_append_single]
    by_cases he : p.2 = ∅
    · have hn : n ∉ p.2 := by rw [he]; exact Finset.not_mem_empty n
      rw [if_pos he, if_neg hn]
      exact hc.2 n
    · rw [if_neg he]
      by_cases hn : n ∈ p.2
      · rw [if_pos hn, if_pos hn, hc.2 n, getD_ite_empty]
        rw [if_neg (Finset.insert_ne_empty p.1 (ownersOf ps n))]
      · rw [if_neg hn, if_neg hn]
        exact hc.2 n

theorem canon_foldl (rest : List (String × Finset String)) :
    ∀ (ps : List (String × Finset String)) (s : Store), Canon ps s →
      ((ps ++ rest).map Prod.fst).Nodup →
      Canon (ps ++ rest) (rest.foldl (fun s p => updateLine s p.1 p.2) s) := by
  induction rest with
  | nil => intro ps s hc _; simpa using hc
  | cons p t ih =>
    intro ps s hc hnd
    have hfresh : p.1 ∉ ps.map Prod.fst := by
      rw [List.map_append] at hnd
      rcases List.nodup_append.mp hnd with ⟨_, _, hdisj⟩
      intro hmem
      exact hdisj hmem (by simp)
    have hstep := canon_updateLine hc p hfresh
    have hnd' : (((ps ++ [p]) ++ t).map Prod.fst).Nodup := by
      rw [List.append_assoc]
      simpa using hnd
    have := ih (ps ++ [p]) (updateLine s p.1 p.2) hstep hnd'
    rw [List.append_assoc] at this
    simpa using this

theorem canon_emptyStore : Canon [] emptyStore := by
  constructor
  · intro l; rfl
  · intro n
    have : ownersOf [] n = ∅ := rfl
    rw [this, if_pos rfl]
    rfl

theorem lookup_kept_of_nodup {m : List (String × Finset String)}
    (hnd : NodupKeys m) (l : String) :
    alookupF (m.filter (fun p => ¬ p.2 = ∅)) l =
      match alookupF m l with
      | some nets => if nets = ∅ then none else some nets
      | none => none := by
  induction m with
  | nil => rfl
  | cons p t ih =>
    simp only [NodupKeys, List.map_cons, List.nodup_cons] at hnd
    have hrec := ih hnd.2
    by_cases he : p.2 = ∅
    · have hfilter : (p :: t).filter (fun p => decide ¬ p.2 = ∅) =
          t.filter (fun p => decide ¬ p.2 = ∅) := by
        simp [List.filter, he]
      rw [hfilter, hrec]
      by_cases hp : p.1 = l
      · rw [alookupF_eq_none (fun hmem => hnd.1 (hp ▸ hmem))]
        have hlk : alookupF (p :: t) l = some p.2 := by
          have : alookupF (p :: t) l = if p.1 = l then some p.2 else alookupF t l := rfl
          rw [this, if_pos hp]
        rw [hlk]
        simp [he]
      · have hlk : alookupF (p :: t) l = alookupF t l := by
          have : alookupF (p :: t) l = if p.1 = l then some p.2 else alookupF t l := rfl
          rw [this, if_neg hp]
        rw [hlk]
    · have hfilter : (p :: t).filter (fun p => decide ¬ p.2 = ∅) =
          p :: t.filter (fun p => decide ¬ p.2 = ∅) := by
        simp [List.filter, he]
      rw [hfilter]
      by_cases hp : p.1 = l
      · have h1 : alookupF (p :: t.filter (fun p => decide ¬ p.2 = ∅)) l = some p.2 := by
          have : alookupF (p :: t.filter (fun p => decide ¬ p.2 = ∅)) l =
              if p.1 = l then some p.2
              else alookupF (t.filter (fun p => decide ¬ p.2 = ∅)) l := rfl
          rw [this, if_pos hp]
        have h2 : alookupF (p :: t) l = some p.2 := by
          have : alookupF (p :: t) l = if p.1 = l then some p.2 else alookupF t l := rfl
          rw [this, if_pos hp]
        rw [h1, h2]
        simp [he]
      · have h1 : alookupF (p :: t.filter (fun p => decide ¬ p.2 = ∅)) l =
            alookupF (t.filter (fun p => decide ¬ p.2 = ∅)) l := by
          have : alookupF (p :: t.filter (fun p => decide ¬ p.2 = ∅)) l =
              if p.1 = l then some p.2
              else alookupF (t.filter (fun p => decide ¬ p.2 = ∅)) l := rfl
          rw [this, if_neg hp]
        have h2 : alookupF (p :: t) l = alookupF t l := by
          have : alookupF (p :: t) l = if p.1 = l then some p.2 else alookupF t l := rfl
          rw [this, if_neg hp]
        rw [h1, h2, hrec]

theorem canon_buildFromLines {m : List (String × Finset String)}
    (hnd : NodupKeys m) : Canon m (buildFromLines m) := by
  constructor
  · intro l
    show alookupF (m.filter (fun p => ¬ p.2 = ∅)) l = _
    exact lookup_kept_of_nodup hnd l
  · intro n
    show (if (((m.filter (fun p => ¬ p.2 = ∅)).filter
        (fun p => n ∈ p.2)).map Prod.fst).toFinset = ∅ then none else _) = _
    have hff : (m.filter (fun p => decide ¬ p.2 = ∅)).filter (fun p => decide (n ∈ p.2)) =
        m.filter (fun p => decide (n ∈ p.2)) := by
      rw [List.filter_filter]
      apply List.filter_congr
      intro p _
      by_cases hn : n ∈ p.2
      · have he : ¬ p.2 = ∅ := fun hq => by
          rw [hq] at hn; exact absurd hn (Finset.not_mem_empty n)
        simp [hn, he]
      · simp [hn]
    rw [hff]
    rfl

theorem mem_iff_alookupF {ps : List (String × Finset String)}
    (hnd : NodupKeys ps) (l : String) (v : Finset String) :
    (l, v) ∈ ps ↔ alookupF ps l = some v := by
  induction ps with
  | nil => simp [alookupF]
  | cons p t ih =>
    simp only [NodupKeys, List.map_cons, List.nodup_cons] at hnd
    simp only [alookupF, List.mem_cons]
    by_cases hp : p.1 = l
    · rw [if_pos hp]
      constructor
      · rintro (hq | hq)
        · rw [← hq]
        · exact absurd (hp ▸ List.mem_map.mpr ⟨(l, v), hq, rfl⟩) hnd.1
      · intro hq
        left
        have : p.2 = v := Option.some.inj hq
        rw [← hp, ← this]
    · rw [if_neg hp]
      rw [← ih hnd.2]
      constructor
      · rintro (hq | hq)
        · exact absurd (congrArg Prod.fst hq.symm : p.1 = l) hp
        · exact hq
      · exact Or.inr

theorem alookupF_perm {p m : List (String × Finset String)}
    (hperm : p.Perm m) (hnd : NodupKeys m) (l : String) :
    alookupF p l = alookupF m l := by
  have hndp : NodupKeys p := by
    unfold NodupKeys at *
    exact ((hperm.map Prod.fst).nodup_iff).mpr hnd
  cases hx : alookupF p l with
  | some v =>
    have : (l, v) ∈ p := (mem_iff_alookupF hndp l v).mpr hx
    exact ((mem_iff_alookupF hnd l v).mp (hperm.mem_iff.mp this)).symm
  | none =>
    cases hy : alookupF m l with
    | none => rfl
    | some v =>
      have : (l, v) ∈ p := hperm.mem_iff.mpr ((mem_iff_alookupF hnd l v).mpr hy)
      rw [(mem_iff_alookupF hndp l v).mp this] at hx
      exact absurd hx (by simp)

theorem ownersOf_perm {p m : List (String × Finset String)}
    (hperm : p.Perm m) (n : String) : ownersOf p n = ownersOf m n := by
  unfold ownersOf
  exact List.toFinset_eq_of_perm _ _ ((hperm.filter _).map Prod.fst)

/-- C8: starting from empty indexes, `build_from_lines m` yields exactly
the store reached by one `update_line` call per entry of `m`, in any
order of the entries. -/
theorem c8_build_agrees_with_updates (m : List (String × Finset String))
    (hnd : NodupKeys m) (p : List (String × Finset String)) (hperm : p.Perm m) :
    runUpdates p = buildFromLines m := by
  have hndp : NodupKeys p := by
    unfold NodupKeys at *
    exact ((hperm.map Prod.fst).nodup_iff).mpr hnd
  have hcanon_run : Canon p (runUpdates p) := by
    have := canon_foldl p [] emptyStore canon_emptyStore (by simpa using hndp)
    simpa [runUpdates] using this
  have hcanon_build : Canon m (buildFromLines m) := canon_buildFromLines hnd
  ext x
  · rw [hcanon_run.1 x, hcanon_build.1 x, alookupF_perm hperm hnd x]
  · rw [hcanon_run.2 x, hcanon_build.2 x, ownersOf_perm hperm x]

/-- Witness for C8 at a concrete entry list and a nontrivial
permutation. -/
theorem c8_build_agrees_with_updates_witness :
    runUpdates [("line-2", {"vdd", "gnd"}), ("line-3", ∅), ("line-1", {"vdd"})] =
      buildFromLines [("line-1", {"vdd"}), ("line-2", {"vdd", "gnd"}), ("line-3", ∅)] :=
  c8_build_agrees_with_updates
    [("line-1", {"vdd"}), ("line-2", {"vdd", "gnd"}), ("line-3", ∅)]
    (by unfold NodupKeys; decide)
    [("line-2", {"vdd", "gnd"}), ("line-3", ∅), ("line-1", {"vdd"})]
    (by decide)

end CStore

namespace Rex

theorem regexpQuery_ok (eng : Engine) (templates : List String) (pat : String) :
    regexpQuery eng templates pat =
      .ok (templates.filter (fun t => pyRegexp eng pat t = 1)) := by
  induction templates with
  | nil => rfl
  | cons t rest ih =>
    unfold regexpQuery at ih ⊢
    rw [List.foldr_cons, ih]
    simp only [rowTest]
    cases hd : decide (pyRegexp eng pat t = 1) <;> simp [List.filter_cons, hd]

/-- C4 (counterexample): a structurally invalid regex passed to
`get_matching_templates` with `is_regex = true` does NOT raise — the call
returns the empty set: the claimed `PatternError` never escapes because
`_regexp` swallows `re.error` and `_get_matching_templates` swallows any
remaining query error. -/
theorem c4_invalid_regex_counterexample :
    getMatchingTemplates badEngine ["mycell", "adder"] "[" true = .ok ∅ ∧
    ∀ e : Unit, getMatchingTemplates badEngine ["mycell", "adder"] "[" true ≠ .error e := by
  constructor
  · rfl
  · intro e h
    rw [show getMatchingTemplates badEngine ["mycell", "adder"] "[" true = .ok ∅ from rfl] at h
    exact Except.noConfusion h

/-- C4 (amended): `get_matching_templates` never propagates an error, for
any engine, pattern and flag; when every row-search on the pattern raises
`re.error` (a structurally invalid pattern), the result is the
silently-returned empty set. -/
theorem c4_invalid_regex_silently_empty (eng : Engine) (templates : List String)
    (pattern : String) (isRegex : Bool) :
    (∃ rows, getMatchingTemplates eng templates pattern isRegex = .ok rows) ∧
    (pattern ≠ "" → isRegex = true →
      (∀ item, eng pattern item = .error ()) →
      getMatchingTemplates eng templates pattern isRegex = .ok ∅) := by
  constructor
  · unfold getMatchingTemplates getMatchingTemplatesAux
    by_cases hp : pattern = ""
    · rw [if_pos hp]; exact ⟨∅, rfl⟩
    · rw [if_neg hp]
      cases isRegex with
      | false => exact ⟨_, rfl⟩
      | true =>
        rw [regexpQuery_ok]
        exact ⟨_, rfl⟩
  · intro hp hr hbad
    subst hr
    have hq : regexpQuery eng templates pattern = .ok [] := by
      rw [regexpQuery_ok]
      have hfilter : templates.filter (fun t => pyRegexp eng pattern t = 1) = [] := by
        apply List.filter_eq_nil_iff.mpr
        intro t _
        simp [pyRegexp, hbad t]
      rw [hfilter]
    unfold getMatchingTemplates getMatchingTemplatesAux
    rw [if_neg hp]
    simp [hq]

/-- Witness for the amended C4 at the invalid-regex engine. -/
theorem c4_invalid_regex_silently_empty_witness :
    getMatchingTemplates badEngine ["mycell"] "(" true = .ok ∅ :=
  (c4_invalid_regex_silently_empty badEngine ["mycell"] "(" true).2
    (by decide) rfl (fun _ => rfl)

end Rex

namespace Alias

theorem alookup_aset (m : AMap) (k v x : String) :
    alookup (aset m k v) x = if x = k then some v else alookup m x := by
  induction m with
  | nil =>
    by_cases hx : x = k <;>
      simp [aset, alookup, hx, fun h : x ≠ k => Ne.symm h]
  | cons p t ih =>
    by_cases hp : p.1 = k
    · by_cases hx : x = k <;>
        simp [aset, alookup, hp, hx, ih, fun h : x ≠ k => Ne.symm h]
    · by_cases hx : x = k
      · subst hx
        simp [aset, alookup, hp, ih]
      · simp [aset, alookup, hp, hx, ih, Ne.symm hx]

theorem aget_aset (m : AMap) (k v x : String) :
    aget (aset m k v) x = if x = k then v else aget m x := by
  unfold aget
  rw [alookup_aset]
  by_cases hx : x = k
  · rw [if_pos hx, if_pos hx]
    rfl
  · rw [if_neg hx, if_neg hx]

theorem alookup_eq_none {m : AMap} {x : String} (h : x ∉ m.map Prod.fst) :
    alookup m x = none := by
  induction m with
  | nil => rfl
  | cons p t ih =>
    simp only [List.map_cons, List.mem_cons] at h
    push_neg at h
    simp only [alookup]
    rw [if_neg (fun hq => h.1 hq.symm)]
    exact ih h.2

theorem aget_of_not_mem {m : AMap} {x : String} (h : x ∉ m.map Prod.fst) :
    aget m x = x := by
  unfold aget
  rw [alookup_eq_none h]
  rfl

theorem mem_keys_of_aget_ne {m : AMap} {x : String} (h : aget m x ≠ x) :
    x ∈ m.map Prod.fst := by
  by_contra hc
  exact h (aget_of_not_mem hc)

theorem iterGet_succ (m : AMap) (j : Nat) (n : String) :
    iterGet m (j + 1) n = iterGet m j (aget m n) := rfl

theorem iterGet_add (m : AMap) (a b : Nat) (n : String) :
    iterGet m (a + b) n = iterGet m b (iterGet m a n) := by
  induction a generalizing n with
  | zero => simp [iterGet]
  | succ a ih =>
    have h1 : a + 1 + b = (a + b) + 1 := by omega
    rw [h1, iterGet_succ, iterGet_succ, ih]

theorem iterGet_of_isRoot {m : AMap} {r : String} (hr : IsRoot m r) (j : Nat) :
    iterGet m j r = r := by
  induction j with
  | zero => rfl
  | succ j ih =>
    rw [iterGet_succ, hr]
    exact ih

theorem rootFrom_unique {m : AMap} {n r1 r2 : String}
    (h1 : RootFrom m n r1) (h2 : RootFrom m n r2) : r1 = r2 := by
  obtain ⟨⟨j1, hj1⟩, hr1⟩ := h1
  obtain ⟨⟨j2, hj2⟩, hr2⟩ := h2
  rcases Nat.le_total j1 j2 with h | h
  · obtain ⟨d, rfl⟩ := Nat.exists_eq_add_of_le h
    rw [iterGet_add, hj1, iterGet_of_isRoot hr1] at hj2
    exact hj2
  · obtain ⟨d, rfl⟩ := Nat.exists_eq_add_of_le h
    rw [iterGet_add, hj2, iterGet_of_isRoot hr2] at hj1
    exact hj1.symm

theorem rootFrom_step {m : AMap} {n y r : String} (hy : aget m n = y)
    (h : RootFrom m y r) : RootFrom m n r := by
  obtain ⟨⟨j, hj⟩, hr⟩ := h
  exact ⟨⟨j + 1, by rw [iterGet_succ, hy]; exact hj⟩, hr⟩

theorem rootFrom_self {m : AMap} {r : String} (hr : IsRoot m r) :
    RootFrom m r r := ⟨⟨0, rfl⟩, hr⟩

end Alias

namespace Alias

theorem chain_periodic {m : AMap} {n : String} {p : Nat}
    (hcyc : iterGet m p n = n) (q s : Nat) :
    iterGet m (q * p + s) n = iterGet m s n := by
  induction q with
  | zero => simp
  | succ q ih =>
    have h1 : (q + 1) * p + s = p + (q * p + s) := by ring
    rw [h1, iterGet_add, hcyc, ih]

theorem min_chain_nodup {m : AMap} {n : String} {j₀ : Nat}
    (hmin : ∀ i < j₀, ¬ IsRoot m (iterGet m i n))
    (hroot : IsRoot m (iterGet m j₀ n)) :
    ∀ i1 i2, i1 < i2 → i2 ≤ j₀ → iterGet m i1 n ≠ iterGet m i2 n := by
  intro i1 i2 hlt hle heq
  set p := i2 - i1 with hp
  have hppos : 0 < p := by omega
  have hcyc : iterGet m p (iterGet m i1 n) = iterGet m i1 n := by
    rw [← iterGet_add]
    have : i1 + p = i2 := by omega
    rw [this, ← heq]
  set d := j₀ - i1 with hd
  have hpd : p ≤ d := by omega
  have hmod : iterGet m d (iterGet m i1 n) = iterGet m (d % p) (iterGet m i1 n) := by
    conv_lhs => rw [show d = d / p * p + d % p from by
      rw [Nat.mul_comm]
      exact (Nat.div_add_mod d p).symm]
    exact chain_periodic hcyc (d / p) (d % p)
  have hj₀ : iterGet m j₀ n = iterGet m (i1 + d % p) (iterGet m 0 n) := by
    have h1 : iterGet m j₀ n = iterGet m d (iterGet m i1 n) := by
      rw [← iterGet_add]
      congr 1
      omega
    rw [h1, hmod, ← iterGet_add]
    rfl
  have hlt2 : i1 + d % p < j₀ := by
    have := Nat.mod_lt d hppos
    omega
  exact hmin (i1 + d % p) hlt2 (by rw [show iterGet m (i1 + d % p) n =
    iterGet m (i1 + d % p) (iterGet m 0 n) from rfl, ← hj₀]; exact hroot)

theorem min_index_le {m : AMap} {n : String} {j₀ : Nat}
    (hmin : ∀ i < j₀, ¬ IsRoot m (iterGet m i n))
    (hroot : IsRoot m (iterGet m j₀ n)) :
    j₀ ≤ m.length := by
  have hmaps : ∀ i ∈ Finset.range j₀, iterGet m i n ∈ (m.map Prod.fst).toFinset := by
    intro i hi
    rw [List.mem_toFinset]
    exact mem_keys_of_aget_ne (hmin i (Finset.mem_range.mp hi))
  have hinj : Set.InjOn (fun i => iterGet m i n) (Finset.range j₀) := by
    intro i1 h1 i2 h2 heq
    simp only [Finset.coe_range, Set.mem_Iio] at h1 h2
    by_contra hne
    rcases Nat.lt_or_ge i1 i2 with h | h
    · exact min_chain_nodup hmin hroot i1 i2 h (by omega) heq
    · have h' : i2 < i1 := by omega
      exact min_chain_nodup hmin hroot i2 i1 h' (by omega) heq.symm
  have hcard := Finset.card_le_card_of_injOn _ hmaps hinj
  rw [Finset.card_range] at hcard
  calc j₀ ≤ (m.map Prod.fst).toFinset.card := hcard
    _ ≤ (m.map Prod.fst).length := (m.map Prod.fst).toFinset_card_le
    _ = m.length := List.length_map m Prod.fst

theorem chase_eq_root {m : AMap} :
    ∀ (j₀ : Nat) (fuel : Nat) (visited : List String) (n : String),
      IsRoot m (iterGet m j₀ n) →
      (∀ i < j₀, ¬ IsRoot m (iterGet m i n)) →
      j₀ < fuel →
      (∀ i ≤ j₀, iterGet m i n ∉ visited) →
      chase m fuel visited n = iterGet m j₀ n := by
  intro j₀
  induction j₀ with
  | zero =>
    intro fuel visited n hroot _ hfuel _
    obtain ⟨f, rfl⟩ : ∃ f, fuel = f + 1 := ⟨fuel - 1, by omega⟩
    unfold chase
    have hroot' : aget m n = n := hroot
    rw [if_pos hroot']
    rfl
  | succ k ih =>
    intro fuel visited n hroot hmin hfuel hvis
    obtain ⟨f, rfl⟩ : ∃ f, fuel = f + 1 := ⟨fuel - 1, by omega⟩
    have hnroot : ¬ IsRoot m n := hmin 0 (by omega)
    unfold chase
    have hnroot' : ¬ aget m n = n := hnroot
    have hvis0 : n ∉ visited := hvis 0 (by omega)
    rw [if_neg hnroot', if_neg hvis0]
    have hres := ih f (n :: visited) (aget m n)
      (by rw [← iterGet_succ]; exact hroot)
      (fun i hi => by rw [← iterGet_succ]; exact hmin (i + 1) (by omega))
      (by omega)
      (fun i hi => by
        rw [← iterGet_succ]
        intro hmem
        rcases List.mem_cons.mp hmem with heq | hmem2
        · exact min_chain_nodup hmin hroot 0 (i + 1) (by omega) (by omega) heq.symm
        · exact hvis (i + 1) (by omega) hmem2)
    rw [hres, ← iterGet_succ]

theorem afind_rootFrom {m : AMap} (hAc : Acyclic m) (n : String) :
    RootFrom m n (afind m n) := by
  obtain ⟨r, ⟨⟨j, hj⟩, hr⟩⟩ := hAc n
  have hex : ∃ i, aget m (iterGet m i n) = iterGet m i n := ⟨j, by rw [hj]; exact hr⟩
  classical
  set j₀ := Nat.find hex with hj₀
  have hroot : IsRoot m (iterGet m j₀ n) := Nat.find_spec hex
  have hmin : ∀ i < j₀, ¬ IsRoot m (iterGet m i n) := fun i hi => Nat.find_min hex hi
  have hbound : j₀ ≤ m.length := min_index_le hmin hroot
  have hchase : chase m (m.length + 2) [] n = iterGet m j₀ n :=
    chase_eq_root j₀ (m.length + 2) [] n hroot hmin (by omega) (fun i _ => List.not_mem_nil _)
  refine ⟨⟨j₀, ?_⟩, ?_⟩
  · rw [afind, hchase]
  · rw [afind, hchase]
    exact hroot

end Alias

namespace Alias

theorem acyclic_aset_self {m : AMap} (hAc : Acyclic m) (k : String) :
    Acyclic (aset m k k) := by
  suffices h : ∀ j n, IsRoot m (iterGet m j n) → ∃ r', RootFrom (aset m k k) n r' by
    intro n
    obtain ⟨r, ⟨⟨j, hj⟩, hr⟩⟩ := hAc n
    exact h j n (by rw [hj]; exact hr)
  intro j
  induction j with
  | zero =>
    intro n hr
    by_cases hk : n = k
    · subst hk
      exact ⟨n, rootFrom_self (by rw [IsRoot, aget_aset, if_pos rfl])⟩
    · refine ⟨n, rootFrom_self ?_⟩
      rw [IsRoot, aget_aset, if_neg hk]
      exact hr
  | succ j ih =>
    intro n hr
    by_cases hk : n = k
    · subst hk
      exact ⟨n, rootFrom_self (by rw [IsRoot, aget_aset, if_pos rfl])⟩
    · by_cases hroot : aget m n = n
      · refine ⟨n, rootFrom_self ?_⟩
        rw [IsRoot, aget_aset, if_neg hk]
        exact hroot
      · obtain ⟨r', hrf'⟩ := ih (aget m n) (by rw [← iterGet_succ]; exact hr)
        refine ⟨r', rootFrom_step ?_ hrf'⟩
        rw [aget_aset, if_neg hk]

theorem acyclic_aset_link {m : AMap} (hAc : Acyclic m) {k v : String}
    (hk : IsRoot m k) (hv : IsRoot m v) (hvk : v ≠ k) : Acyclic (aset m k v) := by
  have hvroot : IsRoot (aset m k v) v := by
    rw [IsRoot, aget_aset, if_neg hvk]
    exact hv
  suffices h : ∀ j n, IsRoot m (iterGet m j n) → ∃ r', RootFrom (aset m k v) n r' by
    intro n
    obtain ⟨r, ⟨⟨j, hj⟩, hr⟩⟩ := hAc n
    exact h j n (by rw [hj]; exact hr)
  intro j
  induction j with
  | zero =>
    intro n hr
    by_cases hnk : n = k
    · subst hnk
      refine ⟨v, rootFrom_step ?_ (rootFrom_self hvroot)⟩
      rw [aget_aset, if_pos rfl]
    · refine ⟨n, rootFrom_self ?_⟩
      rw [IsRoot, aget_aset, if_neg hnk]
      exact hr
  | succ j ih =>
    intro n hr
    by_cases hnk : n = k
    · subst hnk
      refine ⟨v, rootFrom_step ?_ (rootFrom_self hvroot)⟩
      rw [aget_aset, if_pos rfl]
    · by_cases hroot : aget m n = n
      · refine ⟨n, rootFrom_self ?_⟩
        rw [IsRoot, aget_aset, if_neg hnk]
        exact hroot
      · obtain ⟨r', hrf'⟩ := ih (aget m n) (by rw [← iterGet_succ]; exact hr)
        refine ⟨r', rootFrom_step ?_ hrf'⟩
        rw [aget_aset, if_neg hnk]

theorem acyclic_mergeStep {m : AMap} (hAc : Acyclic m) (ports : List String)
    (child parent : String) : Acyclic (mergeStep ports m child parent) := by
  unfold mergeStep
  have hpc := afind_rootFrom hAc parent
  have hcc := afind_rootFrom hAc child
  by_cases heq : afind m parent = afind m child
  · rw [if_pos heq]
    exact hAc
  · rw [if_neg heq]
    by_cases hpref : prefLt (preference ports (afind m child))
        (preference ports (afind m parent)) = true
    · rw [if_pos hpref]
      exact acyclic_aset_link hAc hpc.2 hcc.2 (fun h => heq h.symm)
    · rw [if_neg hpref]
      exact acyclic_aset_link hAc hcc.2 hpc.2 heq

theorem rootFrom_aset_compress {m : AMap} {k r : String} (hAc : Acyclic m)
    (hrf : RootFrom m k r) :
    ∀ n r', RootFrom m n r' → RootFrom (aset m k r) n r' := by
  suffices h : ∀ j n r', iterGet m j n = r' → IsRoot m r' →
      RootFrom (aset m k r) n r' by
    intro n r' ⟨⟨j, hj⟩, hr'⟩
    exact h j n r' hj hr'
  intro j
  induction j with
  | zero =>
    intro n r' hj hr'
    rw [show iterGet m 0 n = n from rfl] at hj
    subst hj
    by_cases hnk : n = k
    · subst hnk
      have : r = n := rootFrom_unique hrf (rootFrom_self hr')
      subst this
      exact rootFrom_self (by rw [IsRoot, aget_aset, if_pos rfl])
    · exact rootFrom_self (by rw [IsRoot, aget_aset, if_neg hnk]; exact hr')
  | succ j ih =>
    intro n r' hj hr'
    by_cases hnk : n = k
    · subst hnk
      have hnr : RootFrom m n r' := ⟨⟨j + 1, hj⟩, hr'⟩
      have : r' = r := rootFrom_unique hnr hrf
      subst this
      by_cases hrk : r' = n
      · subst hrk
        exact rootFrom_self (by rw [IsRoot, aget_aset, if_pos rfl])
      · refine @rootFrom_step _ _ r' _ (by rw [aget_aset, if_pos rfl]) ?_
        refine rootFrom_self ?_
        rw [IsRoot, aget_aset, if_neg hrk]
        exact hr'
    · by_cases hroot : aget m n = n
      · have : iterGet m (j + 1) n = n := by
          rw [iterGet_succ, hroot, iterGet_of_isRoot hroot]
        rw [this] at hj
        subst hj
        exact rootFrom_self (by rw [IsRoot, aget_aset, if_neg hnk]; exact hroot)
      · refine @rootFrom_step _ _ (aget m n) _ (by rw [aget_aset, if_neg hnk]) ?_
        exact ih (aget m n) r' (by rw [← iterGet_succ]; exact hj) hr'

theorem acyclic_aset_compress {m : AMap} {k r : String} (hAc : Acyclic m)
    (hrf : RootFrom m k r) : Acyclic (aset m k r) := by
  intro n
  obtain ⟨r', h⟩ := hAc n
  exact ⟨r', rootFrom_aset_compress hAc hrf n r' h⟩

end Alias

namespace Alias


theorem flatInv_step {m mi : AMap} {processed : List String}
    (hAc : Acyclic m) (hinv : FlatInv m mi processed) {k : String}
    (hk : k ∈ m.map Prod.fst) :
    FlatInv m (flattenStep mi k) (processed ++ [k]) := by
  obtain ⟨hAci, hpres, hkeys, hproc⟩ := hinv
  have hrfk : RootFrom mi k (afind mi k) := afind_rootFrom hAci k
  have hafind : ∀ r, RootFrom m k r → afind mi k = r := by
    intro r hrm
    exact rootFrom_unique hrfk (hpres k r hrm)
  refine ⟨acyclic_aset_compress hAci hrfk, ?_, ?_, ?_⟩
  · intro n r h
    exact rootFrom_aset_compress hAci hrfk n r (hpres n r h)
  · intro x hx
    rw [flattenStep, alookup_aset]
    rw [if_neg (fun hq : x = k => hx (hq ▸ hk))]
    exact hkeys x hx
  · intro k' hk'
    rcases List.mem_append.mp hk' with hold | hnew
    · obtain ⟨r, hrm, hget⟩ := hproc k' hold
      by_cases hkk : k' = k
      · subst hkk
        refine ⟨r, hrm, ?_⟩
        rw [flattenStep, aget_aset, if_pos rfl]
        exact hafind r hrm
      · refine ⟨r, hrm, ?_⟩
        rw [flattenStep, aget_aset, if_neg hkk]
        exact hget
    · have hkk : k' = k := by simpa using hnew
      subst hkk
      obtain ⟨r, hrm⟩ := hAc k'
      refine ⟨r, hrm, ?_⟩
      rw [flattenStep, aget_aset, if_pos rfl]
      exact hafind r hrm

theorem flatInv_foldl {m : AMap} (hAc : Acyclic m) :
    ∀ (todo processed : List String) (mi : AMap),
      (∀ k ∈ todo, k ∈ m.map Prod.fst) →
      FlatInv m mi processed →
      FlatInv m (todo.foldl flattenStep mi) (processed ++ todo) := by
  intro todo
  induction todo with
  | nil => intro processed mi _ hinv; simpa using hinv
  | cons k rest ih =>
    intro processed mi htodo hinv
    have hstep := flatInv_step hAc hinv (htodo k (by simp))
    have := ih (processed ++ [k]) (flattenStep mi k)
      (fun k' hk' => htodo k' (by simp [hk'])) hstep
    rw [List.foldl_cons]
    simpa using this

theorem flattenAll_flatInv {m : AMap} (hAc : Acyclic m) :
    FlatInv m (flattenAll m) (m.map Prod.fst) := by
  have hbase : FlatInv m m [] :=
    ⟨hAc, fun _ _ h => h, fun x hx => alookup_eq_none hx, fun k hk => by simp at hk⟩
  have := flatInv_foldl hAc (m.map Prod.fst) [] m (fun _ h => h) hbase
  simpa [flattenAll] using this

/-- The flattening pass of `_build_template_data` produces an idempotent
map whenever the pre-flatten alias map is acyclic (which the merge
discipline guarantees). -/
theorem flattenAll_idem {m : AMap} (hAc : Acyclic m) : IdemMap (flattenAll m) := by
  obtain ⟨_, _, hkeys, hproc⟩ := flattenAll_flatInv hAc
  intro x
  by_cases hx : x ∈ m.map Prod.fst
  · obtain ⟨r, hrm, hget⟩ := hproc x hx
    rw [hget]
    by_cases hr : r ∈ m.map Prod.fst
    · obtain ⟨r2, hrm2, hget2⟩ := hproc r hr
      have : r2 = r := rootFrom_unique hrm2 (rootFrom_self hrm.2)
      rw [hget2, this]
    · have hnone := hkeys r hr
      rw [aget, hnone]
      rfl
  · have hnone := hkeys x hx
    have hxx : aget (flattenAll m) x = x := by rw [aget, hnone]; rfl
    rw [hxx, hxx]

end Alias

namespace Alias

theorem acyclic_registerCanon {m : AMap} (hAc : Acyclic m) (ports : List String)
    (pm : AMap) (instName : String) (c : String) :
    Acyclic (registerCanon ports pm instName m c) := by
  unfold registerCanon
  have h1 : Acyclic (aset m (instName ++ "/" ++ c) (instName ++ "/" ++ c)) :=
    acyclic_aset_self hAc _
  cases alookup pm c with
  | none => exact h1
  | some parentNet => exact acyclic_mergeStep h1 ports _ parentNet

theorem acyclic_registerAlias {m : AMap} (hAc : Acyclic m) (ports : List String)
    (pm : AMap) (instName : String) (pr : String × String) :
    Acyclic (registerAlias ports pm instName m pr) := by
  unfold registerAlias
  have h1 : Acyclic (aset m (instName ++ "/" ++ pr.1) (instName ++ "/" ++ pr.1)) :=
    acyclic_aset_self hAc _
  cases alookup pm pr.2 with
  | none => exact acyclic_mergeStep h1 ports _ _
  | some parentNet => exact acyclic_mergeStep h1 ports _ parentNet

theorem acyclic_foldl_registerCanon {ports : List String} {pm : AMap}
    {instName : String} (cs : List String) :
    ∀ {m : AMap}, Acyclic m →
      Acyclic (cs.foldl (registerCanon ports pm instName) m) := by
  induction cs with
  | nil => intro m h; exact h
  | cons c rest ih =>
    intro m h
    rw [List.foldl_cons]
    exact ih (acyclic_registerCanon h ports pm instName c)

theorem acyclic_foldl_registerAlias {ports : List String} {pm : AMap}
    {instName : String} (prs : List (String × String)) :
    ∀ {m : AMap}, Acyclic m →
      Acyclic (prs.foldl (registerAlias ports pm instName) m) := by
  induction prs with
  | nil => intro m h; exact h
  | cons pr rest ih =>
    intro m h
    rw [List.foldl_cons]
    exact ih (acyclic_registerAlias h ports pm instName pr)

theorem seed_aget (nets : List String) (x : String) :
    aget (nets.foldl (fun m net => aset m net net) []) x = x := by
  suffices h : ∀ (m : AMap), (∀ y, aget m y = y) →
      ∀ y, aget (nets.foldl (fun m net => aset m net net) m) y = y by
    exact h [] (fun y => rfl) x
  induction nets with
  | nil => intro m hm y; exact hm y
  | cons net rest ih =>
    intro m hm y
    rw [List.foldl_cons]
    refine ih (aset m net net) ?_ y
    intro z
    rw [aget_aset]
    by_cases hz : z = net
    · rw [if_pos hz, hz]
    · rw [if_neg hz]; exact hm z

theorem acyclic_seed (nets : List String) :
    Acyclic (nets.foldl (fun m net => aset m net net) []) := by
  intro n
  exact ⟨n, rootFrom_self (seed_aget nets n)⟩

end Alias

namespace Alias

theorem instStep_acyclic (subckts : List (String × SubcktDef))
    (recur : String → Option (List String × AMap)) (ports : List String)
    (acc : Option AMap) (inst : SubInst)
    (h : ∀ mm, acc = some mm → Acyclic mm) :
    ∀ m2, instStep subckts recur ports acc inst = some m2 → Acyclic m2 := by
  intro m2 hstep
  unfold instStep at hstep
  cases acc with
  | none => exact absurd hstep (by simp)
  | some m =>
    have hm : Acyclic m := h m rfl
    cases hs : slookup subckts inst.subcktName with
    | none =>
      rw [hs] at hstep
      simp only [Option.some.injEq] at hstep
      rw [← hstep]
      exact hm
    | some childDef =>
      rw [hs] at hstep
      cases hr : recur inst.subcktName with
      | none => rw [hr] at hstep; exact absurd hstep (by simp)
      | some childData =>
        rw [hr] at hstep
        simp only [Option.some.injEq] at hstep
        rw [← hstep]
        exact acyclic_foldl_registerAlias childData.2
          (acyclic_foldl_registerCanon childData.1 hm)

theorem foldl_instStep_acyclic (subckts : List (String × SubcktDef))
    (recur : String → Option (List String × AMap)) (ports : List String)
    (insts : List SubInst) :
    ∀ (acc : Option AMap), (∀ mm, acc = some mm → Acyclic mm) →
      ∀ m2, insts.foldl (instStep subckts recur ports) acc = some m2 → Acyclic m2 := by
  induction insts with
  | nil =>
    intro acc h m2 hfold
    exact h m2 hfold
  | cons inst rest ih =>
    intro acc h m2 hfold
    rw [List.foldl_cons] at hfold
    exact ih (instStep subckts recur ports acc inst)
      (fun mm hmm => instStep_acyclic subckts recur ports acc inst h mm hmm) m2 hfold

theorem buildTemplateData_some {subckts : List (String × SubcktDef)}
    {fuel : Nat} {tpl : String} {cn : List String} {am : AMap}
    (h : buildTemplateData subckts fuel tpl = some (cn, am)) :
    ∃ mpre, Acyclic mpre ∧ am = flattenAll mpre := by
  cases fuel with
  | zero => exact absurd h (by simp [buildTemplateData])
  | succ f =>
    unfold buildTemplateData at h
    cases hs : slookup subckts tpl with
    | none => rw [hs] at h; exact absurd h (by simp)
    | some defn =>
      rw [hs] at h
      simp only at h
      split at h
      · exact absurd h (by simp)
      · rename_i m heq
        simp only [Option.some.injEq, Prod.mk.injEq] at h
        refine ⟨m, ?_, h.2.symm⟩
        exact foldl_instStep_acyclic subckts (buildTemplateData subckts f) defn.ports
          defn.instances (some _)
          (fun mm hmm => by
            rw [Option.some.injEq] at hmm
            rw [← hmm]
            exact acyclic_seed defn.localNets) m heq

theorem flattenAll_of_identity {m : AMap} (hid : ∀ x, aget m x = x) :
    ∀ x, aget (flattenAll m) x = x := by
  suffices h : ∀ (todo : List String) (mi : AMap), (∀ x, aget mi x = x) →
      ∀ x, aget (todo.foldl flattenStep mi) x = x by
    exact h (m.map Prod.fst) m hid
  intro todo
  induction todo with
  | nil => intro mi hmi x; exact hmi x
  | cons k rest ih =>
    intro mi hmi x
    rw [List.foldl_cons]
    refine ih (flattenStep mi k) ?_ x
    intro z
    have hfind : afind mi k = k := by
      unfold afind chase
      rw [if_pos (hmi k)]
    rw [flattenStep, hfind, aget_aset]
    by_cases hz : z = k
    · rw [if_pos hz, hz]
    · rw [if_neg hz]; exact hmi z

/-- C5: for every template on which `_build_template_data` returns, the
flattened alias map is idempotent — applying it twice equals applying it
once, so every value it produces is its own fixed point — and for a
template with no instances every local net is mapped to itself. -/
theorem c5_alias_map_idempotent (subckts : List (String × SubcktDef))
    (fuel : Nat) (tpl : String) (cn : List String) (am : AMap)
    (h : buildTemplateData subckts fuel tpl = some (cn, am)) :
    (∀ x, aget am (aget am x) = aget am x) ∧
    (∀ defn, slookup subckts tpl = some defn → defn.instances = [] →
      ∀ net ∈ defn.localNets, aget am net = net) := by
  constructor
  · obtain ⟨mpre, hAc, ham⟩ := buildTemplateData_some h
    rw [ham]
    exact flattenAll_idem hAc
  · intro defn hdefn hinst net _
    cases fuel with
    | zero => exact absurd h (by simp [buildTemplateData])
    | succ f =>
      unfold buildTemplateData at h
      rw [hdefn] at h
      simp only [hinst, List.foldl_nil, Option.some.injEq, Prod.mk.injEq] at h
      rw [← h.2]
      exact flattenAll_of_identity (seed_aget defn.localNets) net

/-- Witness for C5 on a concrete two-level hierarchy (template `t0`
instantiating `t1`), plus the no-instance case on `t1` itself. -/
theorem c5_alias_map_idempotent_witness :
    (aget [("a", "a"), ("b", "b"), ("i1/p", "b"), ("i1/q", "i1/q")]
      (aget [("a", "a"), ("b", "b"), ("i1/p", "b"), ("i1/q", "i1/q")] "i1/p") =
      aget [("a", "a"), ("b", "b"), ("i1/p", "b"), ("i1/q", "i1/q")] "i1/p") ∧
    aget [("p", "p"), ("q", "q")] "q" = "q" := by
  constructor
  · exact (c5_alias_map_idempotent
      [("t1", ⟨"t1", ["p"], [], ["p", "q"]⟩),
       ("t0", ⟨"t0", ["a"], [⟨"i1", ["b"], "t1"⟩], ["a", "b"]⟩)]
      5 "t0" ["a", "b", "i1/q"]
      [("a", "a"), ("b", "b"), ("i1/p", "b"), ("i1/q", "i1/q")]
      (by decide)).1 "i1/p"
  · exact (c5_alias_map_idempotent
      [("t1", ⟨"t1", ["p"], [], ["p", "q"]⟩),
       ("t0", ⟨"t0", ["a"], [⟨"i1", ["b"], "t1"⟩], ["a", "b"]⟩)]
      5 "t1" ["p", "q"] [("p", "p"), ("q", "q")]
      (by decide)).2 ⟨"t1", ["p"], [], ["p", "q"]⟩ (by decide) rfl "q" (by decide)

end Alias

namespace Alias

theorem boolLt_self (x : Bool) : boolLt x x = false := by cases x <;> rfl

theorem mem_slash_iff_depth (s : String) : '/' ∈ s.data ↔ 0 < depthOf s := by
  unfold depthOf
  rw [List.length_pos]
  constructor
  · intro h hq
    rw [List.filter_eq_nil_iff] at hq
    exact hq '/' h (by simp)
  · intro h
    by_contra hc
    apply h
    rw [List.filter_eq_nil_iff]
    intro c hcm hcq
    exact hc ((of_decide_eq_true hcq : c = '/') ▸ hcm)

theorem prefLt_port {ports : List String} {a b : String}
    (ha : a ∈ ports) (hb : b ∉ ports) :
    prefLt (preference ports a) (preference ports b) = true := by
  unfold prefLt preference
  simp only
  rw [show decide (a ∉ ports) = false by simp [ha],
      show decide (b ∉ ports) = true by simp [hb]]
  rw [if_pos (show boolLt false true = true from rfl)]

theorem prefLt_depth {ports : List String} {a b : String}
    (hport : (a ∈ ports) ↔ (b ∈ ports)) (hd : depthOf a < depthOf b) :
    prefLt (preference ports a) (preference ports b) = true := by
  unfold prefLt preference
  simp only
  rw [show decide (a ∉ ports) = decide (b ∉ ports) from
        decide_eq_decide.mpr (not_congr hport),
      boolLt_self, if_neg Bool.false_ne_true, if_neg Bool.false_ne_true]
  by_cases hza : depthOf a = 0
  · have hnla : decide ('/' ∈ a.data) = false := by
      simp only [decide_eq_false_iff_not]
      rw [mem_slash_iff_depth, hza]
      omega
    have hnlb : decide ('/' ∈ b.data) = true := by
      simp only [decide_eq_true_eq]
      rw [mem_slash_iff_depth]
      omega
    rw [hnla, hnlb, if_pos (show boolLt false true = true from rfl)]
  · have hnla : decide ('/' ∈ a.data) = true := by
      simp only [decide_eq_true_eq]
      rw [mem_slash_iff_depth]
      omega
    have hnlb : decide ('/' ∈ b.data) = true := by
      simp only [decide_eq_true_eq]
      rw [mem_slash_iff_depth]
      omega
    rw [hnla, hnlb, boolLt_self, if_neg Bool.false_ne_true, if_neg Bool.false_ne_true,
        if_pos hd]

theorem prefLt_len {ports : List String} {a b : String}
    (hport : (a ∈ ports) ↔ (b ∈ ports)) (hd : depthOf a = depthOf b)
    (hlen : a.data.length < b.data.length) :
    prefLt (preference ports a) (preference ports b) = true := by
  unfold prefLt preference
  simp only
  rw [show decide (a ∉ ports) = decide (b ∉ ports) from
        decide_eq_decide.mpr (not_congr hport),
      boolLt_self, if_neg Bool.false_ne_true, if_neg Bool.false_ne_true]
  rw [show decide ('/' ∈ a.data) = decide ('/' ∈ b.data) from
        decide_eq_decide.mpr (by rw [mem_slash_iff_depth, mem_slash_iff_depth, hd]),
      boolLt_self, if_neg Bool.false_ne_true, if_neg Bool.false_ne_true]
  rw [hd, if_neg (lt_irrefl _), if_neg (lt_irrefl _), if_pos hlen]

theorem prefLt_lex {ports : List String} {a b : String}
    (hport : (a ∈ ports) ↔ (b ∈ ports)) (hd : depthOf a = depthOf b)
    (hlen : a.data.length = b.data.length) (hlex : strLtPy a b = true) :
    prefLt (preference ports a) (preference ports b) = true := by
  unfold prefLt preference
  simp only
  rw [show decide (a ∉ ports) = decide (b ∉ ports) from
        decide_eq_decide.mpr (not_congr hport),
      boolLt_self, if_neg Bool.false_ne_true, if_neg Bool.false_ne_true]
  rw [show decide ('/' ∈ a.data) = decide ('/' ∈ b.data) from
        decide_eq_decide.mpr (by rw [mem_slash_iff_depth, mem_slash_iff_depth, hd]),
      boolLt_self, if_neg Bool.false_ne_true, if_neg Bool.false_ne_true]
  rw [hd, if_neg (lt_irrefl _), if_neg (lt_irrefl _)]
  rw [hlen, if_neg (lt_irrefl _), if_neg (lt_irrefl _)]
  exact hlex

/-- C2: `_merge(child, parent)` — with `pc = find(parent)` and
`cc = find(child)` — is a no-op when the two representatives agree;
otherwise the name with the smaller preference tuple survives as
canonical and only the other root's binding is re-pointed at it.  The
tuple order realises the claimed ranking: ports before non-ports,
depth-0 names before hierarchical ones, lower depth before higher,
shorter names before longer, and lexicographic order last. -/
theorem c2_merge_preference (ports : List String) (m : AMap) (child parent : String) :
    ((afind m parent = afind m child → mergeStep ports m child parent = m) ∧
     (afind m parent ≠ afind m child →
       prefLt (preference ports (afind m child)) (preference ports (afind m parent)) = true →
       mergeStep ports m child parent = aset m (afind m parent) (afind m child) ∧
       aget (aset m (afind m parent) (afind m child)) (afind m parent) = afind m child ∧
       ∀ x, x ≠ afind m parent →
         alookup (aset m (afind m parent) (afind m child)) x = alookup m x) ∧
     (afind m parent ≠ afind m child →
       prefLt (preference ports (afind m child)) (preference ports (afind m parent)) = false →
       mergeStep ports m child parent = aset m (afind m child) (afind m parent) ∧
       aget (aset m (afind m child) (afind m parent)) (afind m child) = afind m parent ∧
       ∀ x, x ≠ afind m child →
         alookup (aset m (afind m child) (afind m parent)) x = alookup m x)) ∧
    ((∀ a b, a ∈ ports → b ∉ ports →
        prefLt (preference ports a) (preference ports b) = true) ∧
     (∀ a b, ((a ∈ ports) ↔ (b ∈ ports)) → depthOf a < depthOf b →
        prefLt (preference ports a) (preference ports b) = true) ∧
     (∀ a b, ((a ∈ ports) ↔ (b ∈ ports)) → depthOf a = depthOf b →
        a.data.length < b.data.length →
        prefLt (preference ports a) (preference ports b) = true) ∧
     (∀ a b, ((a ∈ ports) ↔ (b ∈ ports)) → depthOf a = depthOf b →
        a.data.length = b.data.length → strLtPy a b = true →
        prefLt (preference ports a) (preference ports b) = true)) := by
  refine ⟨⟨?_, ?_, ?_⟩, fun a b ha hb => prefLt_port ha hb,
    fun a b h1 h2 => prefLt_depth h1 h2,
    fun a b h1 h2 h3 => prefLt_len h1 h2 h3,
    fun a b h1 h2 h3 h4 => prefLt_lex h1 h2 h3 h4⟩
  · intro heq
    unfold mergeStep
    rw [if_pos heq]
  · intro hne hpref
    unfold mergeStep
    rw [if_neg hne, if_pos hpref]
    refine ⟨rfl, ?_, ?_⟩
    · rw [aget_aset, if_pos rfl]
    · intro x hx
      rw [alookup_aset, if_neg hx]
  · intro hne hpref
    unfold mergeStep
    rw [if_neg hne, if_neg (by rw [hpref]; exact Bool.false_ne_true)]
    refine ⟨rfl, ?_, ?_⟩
    · rw [aget_aset, if_pos rfl]
    · intro x hx
      rw [alookup_aset, if_neg hx]

/-- Witness for C2: a concrete merge where both roots are plain local
nets and the lexicographically smaller one survives, plus the ranking
facts at concrete names. -/
theorem c2_merge_preference_witness :
    mergeStep ["p"] [("a", "a"), ("b", "b")] "a" "b" = [("a", "a"), ("b", "a")] ∧
    prefLt (preference ["p"] "p") (preference ["p"] "zz") = true ∧
    prefLt (preference ["p"] "x") (preference ["p"] "i1/x") = true := by
  refine ⟨?_, ?_, ?_⟩
  · have h := ((c2_merge_preference ["p"] [("a", "a"), ("b", "b")] "a" "b").1.2.1
      (by decide) (by decide)).1
    rw [h]
    decide
  · exact (c2_merge_preference ["p"] [] "x" "x").2.1 "p" "zz" (by decide) (by decide)
  · exact (c2_merge_preference ["p"] [] "x" "x").2.2.1 "x" "i1/x" (by decide) (by decide)

end Alias

namespace Bus

theorem takeDigits_spec (cs : List Char) :
    (takeDigits cs).1 ++ (takeDigits cs).2 = cs ∧ ∀ c ∈ (takeDigits cs).1, c.isDigit := by
  induction cs with
  | nil => exact ⟨rfl, fun c hc => absurd hc (List.not_mem_nil c)⟩
  | cons c rest ih =>
    by_cases hd : c.isDigit
    · constructor
      · simp only [takeDigits]
        rw [if_pos hd]
        simp [ih.1]
      · intro x hx
        simp only [takeDigits] at hx
        rw [if_pos hd] at hx
        rcases List.mem_cons.mp hx with rfl | hx2
        · exact hd
        · exact ih.2 x hx2
    · constructor
      · simp only [takeDigits]
        rw [if_neg hd]
        rfl
      · intro x hx
        simp only [takeDigits] at hx
        rw [if_neg hd] at hx
        exact absurd hx (List.not_mem_nil x)

theorem busParseClose_spec {d1 d2 r d1' d2' rest : List Char}
    (h : busParseClose d1 d2 r = some (d1', d2', rest)) :
    d1' = d1 ∧ d2' = d2 ∧ r = ']' :: rest := by
  cases r with
  | nil => exact absurd h (by simp [busParseClose])
  | cons c r4 =>
    simp only [busParseClose] at h
    by_cases hc : c = ']'
    · rw [if_pos hc] at h
      simp only [Option.some.injEq, Prod.mk.injEq] at h
      exact ⟨h.1.symm, h.2.1.symm, by rw [hc, h.2.2]⟩
    · rw [if_neg hc] at h
      exact absurd h (by simp)

theorem busParseTail_spec {d1 r : List Char} {d1' d2' rest : List Char}
    (h : busParseTail d1 r = some (d1', d2', rest)) :
    ∃ sep, (sep = ':' ∨ sep = '-') ∧ d1' = d1 ∧
      r = sep :: (d2' ++ ']' :: rest) ∧ d2' ≠ [] ∧ (∀ c ∈ d2', c.isDigit) := by
  cases r with
  | nil => exact absurd h (by simp [busParseTail])
  | cons sep r2 =>
    simp only [busParseTail] at h
    by_cases hsep : sep = ':' ∨ sep = '-'
    · rw [if_pos hsep] at h
      by_cases h2 : (takeDigits r2).1 = []
      · rw [if_pos h2] at h
        exact absurd h (by simp)
      · rw [if_neg h2] at h
        obtain ⟨hd1, hd2, hr⟩ := busParseClose_spec h
        have hs2 := takeDigits_spec r2
        refine ⟨sep, hsep, hd1, ?_, ?_, ?_⟩
        · rw [← hs2.1, hr, hd2]
        · rw [hd2]; exact h2
        · rw [hd2]; exact hs2.2
    · rw [if_neg hsep] at h
      exact absurd h (by simp)

theorem busParseAt_spec {input d1 d2 rest : List Char}
    (h : busParseAt input = some (d1, d2, rest)) :
    ∃ sep, (sep = ':' ∨ sep = '-') ∧
      input = d1 ++ sep :: (d2 ++ ']' :: rest) ∧
      d1 ≠ [] ∧ d2 ≠ [] ∧ (∀ c ∈ d1, c.isDigit) ∧ (∀ c ∈ d2, c.isDigit) := by
  unfold busParseAt at h
  simp only at h
  by_cases h1 : (takeDigits input).1 = []
  · rw [if_pos h1] at h
    exact absurd h (by simp)
  · rw [if_neg h1] at h
    obtain ⟨sep, hsep, hd1, hr, hne2, hdig2⟩ := busParseTail_spec h
    have hs1 := takeDigits_spec input
    refine ⟨sep, hsep, ?_, ?_, hne2, ?_, hdig2⟩
    · rw [← hs1.1, hr, hd1]
    · rw [hd1]; exact h1
    · rw [hd1]; exact hs1.2

theorem findBus_spec {cs pre d1 d2 suf : List Char}
    (h : findBus cs = some (pre, d1, d2, suf)) :
    ∃ sep, (sep = ':' ∨ sep = '-') ∧
      cs = pre ++ '[' :: (d1 ++ sep :: (d2 ++ ']' :: suf)) ∧
      d1 ≠ [] ∧ d2 ≠ [] ∧ (∀ c ∈ d1, c.isDigit) ∧ (∀ c ∈ d2, c.isDigit) := by
  induction cs generalizing pre with
  | nil => exact absurd h (by simp [findBus])
  | cons c rest ih =>
    unfold findBus at h
    by_cases hc : c = '['
    · rw [if_pos hc] at h
      cases hp : busParseAt rest with
      | some q =>
        rw [hp] at h
        simp only [Option.some.injEq, Prod.mk.injEq] at h
        obtain ⟨hpre, hd1, hd2, hsuf⟩ := h
        obtain ⟨sep, hsep, heq, hne1, hne2, hdig1, hdig2⟩ :=
          @busParseAt_spec _ q.1 q.2.1 q.2.2 (by rw [hp])
        refine ⟨sep, hsep, ?_, ?_, ?_, ?_, ?_⟩
        · rw [← hpre, ← hd1, ← hd2, ← hsuf]
          simp only [List.nil_append]
          rw [hc, heq]
        · rw [← hd1]; exact hne1
        · rw [← hd2]; exact hne2
        · rw [← hd1]; exact hdig1
        · rw [← hd2]; exact hdig2
      | none =>
        rw [hp] at h
        cases hf : findBus rest with
        | none => rw [hf] at h; exact absurd h (by simp)
        | some q =>
          rw [hf] at h
          simp only [Option.some.injEq, Prod.mk.injEq] at h
          obtain ⟨hpre, hd1, hd2, hsuf⟩ := h
          obtain ⟨sep, hsep, heq, hne1, hne2, hdig1, hdig2⟩ :=
            @ih q.1 (by rw [hf, ← hd1, ← hd2, ← hsuf])
          refine ⟨sep, hsep, ?_, hne1, hne2, hdig1, hdig2⟩
          rw [← hpre]
          simp only [List.cons_append]
          rw [heq]
    · rw [if_neg hc] at h
      cases hf : findBus rest with
      | none => rw [hf] at h; exact absurd h (by simp)
      | some q =>
        rw [hf] at h
        simp only [Option.some.injEq, Prod.mk.injEq] at h
        obtain ⟨hpre, hd1, hd2, hsuf⟩ := h
        obtain ⟨sep, hsep, heq, hne1, hne2, hdig1, hdig2⟩ :=
          @ih q.1 (by rw [hf, ← hd1, ← hd2, ← hsuf])
        refine ⟨sep, hsep, ?_, hne1, hne2, hdig1, hdig2⟩
        rw [← hpre]
        simp only [List.cons_append]
        rw [heq]

end Bus

namespace Bus

theorem digitVal_le_nine {c : Char} (h : c.isDigit) : digitVal c ≤ 9 := by
  unfold digitVal
  simp only [Char.isDigit, Bool.and_eq_true, decide_eq_true_eq] at h
  have h57 : c.val ≤ 57 := h.2
  rw [UInt32.le_def, BitVec.le_def] at h57
  have he : ((57 : UInt32)).toBitVec.toNat = 57 := rfl
  rw [he] at h57
  have hc : c.toNat = c.val.toBitVec.toNat := rfl
  omega

theorem digsToNat_lt {ds : List Char} (hd : ∀ c ∈ ds, c.isDigit) :
    digsToNat ds < 10 ^ ds.length := by
  unfold digsToNat
  suffices h : ∀ a, List.foldl (fun a c => 10 * a + digitVal c) a ds <
      (a + 1) * 10 ^ ds.length by
    have := h 0
    simpa using this
  induction ds with
  | nil => intro a; simp
  | cons c t ih =>
    intro a
    rw [List.foldl_cons]
    have hc : digitVal c ≤ 9 := digitVal_le_nine (hd c (by simp))
    have ht := ih (fun x hx => hd x (by simp [hx])) (10 * a + digitVal c)
    calc List.foldl (fun a c => 10 * a + digitVal c) (10 * a + digitVal c) t
        < (10 * a + digitVal c + 1) * 10 ^ t.length := ht
      _ ≤ ((a + 1) * 10) * 10 ^ t.length := by nlinarith
      _ = (a + 1) * 10 ^ (t.length + 1) := by ring
      _ = (a + 1) * 10 ^ (c :: t).length := by rw [List.length_cons]

theorem natChars_ne_nil (n : Nat) : natChars n ≠ [] := by
  unfold natChars
  by_cases h : n = 0
  · rw [if_pos h]; simp
  · rw [if_neg h]
    show natCharsAux (n + 1) n ≠ []
    unfold natCharsAux
    rw [if_neg h]
    simp

theorem natCharsAux_length_le :
    ∀ fuel n k, n < fuel → n < 10 ^ k → (natCharsAux fuel n).length ≤ k := by
  intro fuel
  induction fuel with
  | zero => intro n k hf _; omega
  | succ f ih =>
    intro n k hf hk
    unfold natCharsAux
    by_cases hz : n = 0
    · rw [if_pos hz]; simp
    · rw [if_neg hz]
      have hk1 : 1 ≤ k := by
        by_contra hk0
        have : k = 0 := by omega
        rw [this] at hk
        omega
      have hdiv : n / 10 < 10 ^ (k - 1) := by
        rw [Nat.div_lt_iff_lt_mul (by omega)]
        have : 10 ^ (k - 1) * 10 = 10 ^ k := by
          rw [← pow_succ]
          congr 1
          omega
        omega
      have hdf : n / 10 < f := by
        have := Nat.div_lt_self (by omega : 0 < n) (by omega : 1 < 10)
        omega
      have := ih (n / 10) (k - 1) hdf hdiv
      rw [List.length_append]
      simp only [List.length_cons, List.length_nil]
      omega

theorem natChars_length_le {n k : Nat} (hk : 1 ≤ k) (h : n < 10 ^ k) :
    (natChars n).length ≤ k := by
  unfold natChars
  by_cases hz : n = 0
  · rw [if_pos hz]
    simpa using hk
  · rw [if_neg hz]
    exact natCharsAux_length_le (n + 1) n k (by omega) h

end Bus

namespace Bus

theorem mkBus_length_lt {cs pre d1 d2 suf : List Char}
    (h : findBus cs = some (pre, d1, d2, suf)) {i : Nat}
    (hi : i ≤ max (digsToNat d1) (digsToNat d2)) :
    (mkBus pre i suf).length < cs.length := by
  obtain ⟨sep, _, heq, hne1, hne2, hdig1, hdig2⟩ := findBus_spec h
  have ha : digsToNat d1 < 10 ^ d1.length := digsToNat_lt hdig1
  have hb : digsToNat d2 < 10 ^ d2.length := digsToNat_lt hdig2
  have hlen1 : 1 ≤ d1.length := List.length_pos.mpr hne1
  have hlen2 : 1 ≤ d2.length := List.length_pos.mpr hne2
  have hik : i < 10 ^ (d1.length + d2.length) := by
    have h1 : 10 ^ d1.length ≤ 10 ^ (d1.length + d2.length) :=
      Nat.pow_le_pow_right (by omega) (by omega)
    have h2 : 10 ^ d2.length ≤ 10 ^ (d1.length + d2.length) :=
      Nat.pow_le_pow_right (by omega) (by omega)
    rcases Nat.le_total (digsToNat d1) (digsToNat d2) with hle | hle
    · have hm : max (digsToNat d1) (digsToNat d2) = digsToNat d2 := Nat.max_eq_right hle
      omega
    · have hm : max (digsToNat d1) (digsToNat d2) = digsToNat d1 := Nat.max_eq_left hle
      omega
  have hnc : (natChars i).length ≤ d1.length + d2.length :=
    natChars_length_le (by omega) hik
  rw [heq]
  unfold mkBus
  simp only [List.length_append, List.length_cons]
  omega

theorem foldExpand_ok (rec : Nat → List Char → Except BusErr (Nat × List String))
    (pre suf : List Char) (g : Nat → List String) :
    ∀ is : List Nat,
      (∀ i ∈ is, ∀ c, rec c (mkBus pre i suf) = .ok (c, g i)) →
      ∀ cnt outs0,
        is.foldl (expandFoldStep rec pre suf) (.ok (cnt, outs0)) =
          .ok (cnt, outs0 ++ is.flatMap g) := by
  intro is
  induction is with
  | nil => intro _ cnt outs0; simp
  | cons i t ih =>
    intro hrec cnt outs0
    rw [List.foldl_cons]
    have hstep : expandFoldStep rec pre suf (.ok (cnt, outs0)) i =
        .ok (cnt, outs0 ++ g i) := by
      show (match rec cnt (mkBus pre i suf) with
            | Except.error e => Except.error e
            | Except.ok q' => Except.ok (q'.1, outs0 ++ q'.2)) = Except.ok (cnt, outs0 ++ g i)
      rw [hrec i (by simp) cnt]
    rw [hstep, ih (fun j hj c => hrec j (by simp [hj]) c) cnt (outs0 ++ g i)]
    simp [List.flatMap_cons, List.append_assoc]

theorem foldExpand_error (rec : Nat → List Char → Except BusErr (Nat × List String))
    (pre suf : List Char) (e : BusErr) :
    ∀ is : List Nat, is.foldl (expandFoldStep rec pre suf) (.error e) = .error e := by
  intro is
  induction is with
  | nil => rfl
  | cons i t ih =>
    rw [List.foldl_cons]
    show t.foldl (expandFoldStep rec pre suf) (.error e) = .error e
    exact ih

theorem foldExpand_capped (rec : Nat → List Char → Except BusErr (Nat × List String))
    (pre suf : List Char) (g : Nat → List String) (err : BusErr) (mx : Nat) :
    ∀ is : List Nat,
      (∀ i ∈ is, ∀ c, c ≤ mx → rec c (mkBus pre i suf) =
        if c + (g i).length ≤ mx then .ok (c + (g i).length, g i) else .error err) →
      ∀ cnt outs0, cnt ≤ mx →
        is.foldl (expandFoldStep rec pre suf) (.ok (cnt, outs0)) =
          if cnt + (is.flatMap g).length ≤ mx
          then .ok (cnt + (is.flatMap g).length, outs0 ++ is.flatMap g)
          else .error err := by
  intro is
  induction is with
  | nil =>
    intro _ cnt outs0 hcnt
    rw [if_pos (by simpa using hcnt)]
    simp
  | cons i t ih =>
    intro hrec cnt outs0 hcnt
    rw [List.foldl_cons]
    have hflat : ((i :: t).flatMap g).length = (g i).length + (t.flatMap g).length := by
      simp [List.flatMap_cons]
    by_cases hi : cnt + (g i).length ≤ mx
    · have hstep : expandFoldStep rec pre suf (.ok (cnt, outs0)) i =
          .ok (cnt + (g i).length, outs0 ++ g i) := by
        show (match rec cnt (mkBus pre i suf) with
              | Except.error e => Except.error e
              | Except.ok q' => Except.ok (q'.1, outs0 ++ q'.2)) = _
        rw [hrec i (by simp) cnt hcnt, if_pos hi]
      rw [hstep, ih (fun j hj c hc => hrec j (by simp [hj]) c hc)
        (cnt + (g i).length) (outs0 ++ g i) hi]
      by_cases ht : cnt + (g i).length + (t.flatMap g).length ≤ mx
      · rw [if_pos ht, if_pos (by omega : cnt + ((i :: t).flatMap g).length ≤ mx)]
        simp [List.flatMap_cons, List.append_assoc]
        omega
      · rw [if_neg ht, if_neg (by omega : ¬ cnt + ((i :: t).flatMap g).length ≤ mx)]
    · have hstep : expandFoldStep rec pre suf (.ok (cnt, outs0)) i = .error err := by
        show (match rec cnt (mkBus pre i suf) with
              | Except.error e => Except.error e
              | Except.ok q' => Except.ok (q'.1, outs0 ++ q'.2)) = _
        rw [hrec i (by simp) cnt hcnt, if_neg hi]
      rw [hstep, foldExpand_error, if_neg (by omega : ¬ cnt + ((i :: t).flatMap g).length ≤ mx)]

end Bus

namespace Bus

theorem expandAux_uncapped (orig : String) :
    ∀ fuel cur cnt, cur.length < fuel →
      expandAux orig none fuel cnt cur = .ok (cnt, fullExpand fuel cur) := by
  intro fuel
  induction fuel with
  | zero => intro cur cnt h; omega
  | succ f ih =>
    intro cur cnt h
    cases hfb : findBus cur with
    | none => simp only [expandAux, fullExpand, hfb]
    | some q =>
      obtain ⟨pre, d1, d2, suf⟩ := q
      simp only [expandAux, fullExpand, hfb]
      have hlohi : (if digsToNat d1 > digsToNat d2 then digsToNat d2 else digsToNat d1) ≤
          (if digsToNat d1 > digsToNat d2 then digsToNat d1 else digsToNat d2) := by
        by_cases hgt : digsToNat d1 > digsToNat d2
        · rw [if_pos hgt, if_pos hgt]; omega
        · rw [if_neg hgt, if_neg hgt]; omega
      have hhimax : (if digsToNat d1 > digsToNat d2 then digsToNat d1 else digsToNat d2) ≤
          max (digsToNat d1) (digsToNat d2) := by
        by_cases hgt : digsToNat d1 > digsToNat d2
        · rw [if_pos hgt]; omega
        · rw [if_neg hgt]; omega
      have hrec : ∀ i ∈ List.range'
          (if digsToNat d1 > digsToNat d2 then digsToNat d2 else digsToNat d1)
          ((if digsToNat d1 > digsToNat d2 then digsToNat d1 else digsToNat d2) + 1 -
           (if digsToNat d1 > digsToNat d2 then digsToNat d2 else digsToNat d1)), ∀ c,
          (fun c cur2 => expandAux orig none f c cur2) c (mkBus pre i suf) =
            .ok (c, fullExpand f (mkBus pre i suf)) := by
        intro i hiM c
        have hmem := List.mem_range'_1.mp hiM
        have hile : i ≤ max (digsToNat d1) (digsToNat d2) := by omega
        have hlt : (mkBus pre i suf).length < cur.length := mkBus_length_lt hfb hile
        exact ih (mkBus pre i suf) c (by omega)
      rw [foldExpand_ok _ pre suf (fun i => fullExpand f (mkBus pre i suf)) _ hrec cnt []]
      simp

theorem expandAux_capped (orig : String) (mx : Nat) :
    ∀ fuel cur cnt, cur.length < fuel → cnt ≤ mx →
      expandAux orig (some mx) fuel cnt cur =
        if cnt + (fullExpand fuel cur).length ≤ mx
        then .ok (cnt + (fullExpand fuel cur).length, fullExpand fuel cur)
        else .error (.limitExceeded orig mx) := by
  intro fuel
  induction fuel with
  | zero => intro cur cnt h _; omega
  | succ f ih =>
    intro cur cnt h hcnt
    cases hfb : findBus cur with
    | none =>
      simp only [expandAux, fullExpand, hfb, List.length_singleton]
      by_cases hle : cnt + 1 ≤ mx
      · rw [if_neg (by omega : ¬ cnt + 1 > mx), if_pos hle]
      · rw [if_pos (by omega : cnt + 1 > mx), if_neg hle]
    | some q =>
      obtain ⟨pre, d1, d2, suf⟩ := q
      simp only [expandAux, fullExpand, hfb]
      have hlohi : (if digsToNat d1 > digsToNat d2 then digsToNat d2 else digsToNat d1) ≤
          (if digsToNat d1 > digsToNat d2 then digsToNat d1 else digsToNat d2) := by
        by_cases hgt : digsToNat d1 > digsToNat d2
        · rw [if_pos hgt, if_pos hgt]; omega
        · rw [if_neg hgt, if_neg hgt]; omega
      have hhimax : (if digsToNat d1 > digsToNat d2 then digsToNat d1 else digsToNat d2) ≤
          max (digsToNat d1) (digsToNat d2) := by
        by_cases hgt : digsToNat d1 > digsToNat d2
        · rw [if_pos hgt]; omega
        · rw [if_neg hgt]; omega
      have hrec : ∀ i ∈ List.range'
          (if digsToNat d1 > digsToNat d2 then digsToNat d2 else digsToNat d1)
          ((if digsToNat d1 > digsToNat d2 then digsToNat d1 else digsToNat d2) + 1 -
           (if digsToNat d1 > digsToNat d2 then digsToNat d2 else digsToNat d1)), ∀ c, c ≤ mx →
          (fun c cur2 => expandAux orig (some mx) f c cur2) c (mkBus pre i suf) =
            if c + (fullExpand f (mkBus pre i suf)).length ≤ mx
            then .ok (c + (fullExpand f (mkBus pre i suf)).length, fullExpand f (mkBus pre i suf))
            else .error (.limitExceeded orig mx) := by
        intro i hiM c hc
        have hmem := List.mem_range'_1.mp hiM
        have hile : i ≤ max (digsToNat d1) (digsToNat d2) := by omega
        have hlt : (mkBus pre i suf).length < cur.length := mkBus_length_lt hfb hile
        exact ih (mkBus pre i suf) c (by omega) hc
      rw [foldExpand_capped _ pre suf (fun i => fullExpand f (mkBus pre i suf))
        (.limitExceeded orig mx) mx _ hrec cnt [] hcnt]
      simp

end Bus

namespace Bus

theorem busIfLo_eq_min (s e : Nat) : (if s > e then e else s) = min s e := by
  by_cases hgt : s > e
  · rw [if_pos hgt]; omega
  · rw [if_neg hgt]; omega

theorem busIfHi_eq_max (s e : Nat) : (if s > e then s else e) = max s e := by
  by_cases hgt : s > e
  · rw [if_pos hgt]; omega
  · rw [if_neg hgt]; omega

theorem flatMapCongr {α β : Type} {l : List α} {f g : α → List β}
    (h : ∀ a ∈ l, f a = g a) : l.flatMap f = l.flatMap g := by
  induction l with
  | nil => rfl
  | cons a t ih =>
    rw [List.flatMap_cons, List.flatMap_cons, h a (by simp),
      ih (fun x hx => h x (by simp [hx]))]

theorem fullExpand_congr :
    ∀ f f' cur, cur.length < f → cur.length < f' →
      fullExpand f cur = fullExpand f' cur := by
  intro f
  induction f with
  | zero => intro f' cur h _; omega
  | succ g ih =>
    intro f' cur h h'
    cases f' with
    | zero => omega
    | succ g2 =>
      cases hfb : findBus cur with
      | none => simp only [fullExpand, hfb]
      | some q =>
        obtain ⟨pre, d1, d2, suf⟩ := q
        simp only [fullExpand, hfb]
        refine flatMapCongr ?_
        intro i hiM
        have hmem := List.mem_range'_1.mp hiM
        have hlohi := busIfLo_eq_min (digsToNat d1) (digsToNat d2)
        have hhimax := busIfHi_eq_max (digsToNat d1) (digsToNat d2)
        have hile : i ≤ max (digsToNat d1) (digsToNat d2) := by omega
        have hlt : (mkBus pre i suf).length < cur.length := mkBus_length_lt hfb hile
        exact ih g2 (mkBus pre i suf) (by omega) (by omega)

theorem expandBus_none_total (pattern : String) :
    expandBus pattern none = .ok (fullExpand (pattern.data.length + 1) pattern.data) := by
  show (if hasBus pattern = false then Except.ok [pattern]
        else match expandAux pattern none (pattern.data.length + 1) 0 pattern.data with
          | Except.ok q => Except.ok q.2
          | Except.error e => Except.error e) = _
  by_cases hb : hasBus pattern = false
  · rw [if_pos hb]
    have hfb : findBus pattern.data = none := by
      unfold hasBus at hb
      cases hx : findBus pattern.data with
      | none => rfl
      | some q => rw [hx] at hb; simp at hb
    simp only [fullExpand, hfb]
  · rw [if_neg hb,
      expandAux_uncapped pattern (pattern.data.length + 1) pattern.data 0 (by omega)]

theorem expandBus_capped (pattern : String) (mx : Nat) (hmx : 1 ≤ mx) :
    expandBus pattern (some mx) =
      if (fullExpand (pattern.data.length + 1) pattern.data).length ≤ mx
      then .ok (fullExpand (pattern.data.length + 1) pattern.data)
      else .error (.limitExceeded pattern mx) := by
  cases mx with
  | zero => omega
  | succ k =>
    show (if hasBus pattern = false then Except.ok [pattern]
          else match expandAux pattern (some (k + 1)) (pattern.data.length + 1) 0 pattern.data with
            | Except.ok q => Except.ok q.2
            | Except.error e => Except.error e) = _
    by_cases hb : hasBus pattern = false
    · rw [if_pos hb]
      have hfb : findBus pattern.data = none := by
        unfold hasBus at hb
        cases hx : findBus pattern.data with
        | none => rfl
        | some q => rw [hx] at hb; simp at hb
      simp only [fullExpand, hfb, List.length_singleton]
      rw [if_pos (by omega : 1 ≤ k + 1)]
    · rw [if_neg hb,
        expandAux_capped pattern (k + 1) (pattern.data.length + 1) pattern.data 0
          (by omega) (by omega)]
      simp only [Nat.zero_add]
      by_cases hle : (fullExpand (pattern.data.length + 1) pattern.data).length ≤ k + 1
      · rw [if_pos hle, if_pos hle]
      · rw [if_neg hle, if_neg hle]

end Bus

namespace Bus

/-- C7: `expand_bus_notation` finds the first bracketed `[lo:hi]` range
(bounds accepted in either order), substitutes each integer of the
inclusive range and re-scans each substituted pattern, so the uncapped
result is the concatenation of the uncapped expansions of the
substituted patterns — multiple independent ranges therefore give the
Cartesian product; expanding `net[0:2]` yields exactly
`["net[0]", "net[1]", "net[2]"]` (and `net[2:0]` the same); and with a
positive cap `mx`, when the full expansion would exceed `mx` the call
fails with the expansion-limit error naming the original pattern and
the cap, otherwise it returns the full expansion. -/
theorem c7_expand_semantics (pattern : String) (pre d1 d2 suf : List Char)
    (mx : Nat) (outs : List String)
    (hfb : findBus pattern.data = some (pre, d1, d2, suf))
    (hmx : 1 ≤ mx)
    (houts : expandBus pattern none = .ok outs) :
    (∃ outsOf : Nat → List String,
      (∀ i ∈ List.range' (min (digsToNat d1) (digsToNat d2))
          (max (digsToNat d1) (digsToNat d2) + 1 - min (digsToNat d1) (digsToNat d2)),
        expandBus (String.mk (mkBus pre i suf)) none = .ok (outsOf i)) ∧
      outs = (List.range' (min (digsToNat d1) (digsToNat d2))
          (max (digsToNat d1) (digsToNat d2) + 1 -
            min (digsToNat d1) (digsToNat d2))).flatMap outsOf) ∧
    expandBus "net[0:2]" none = .ok ["net[0]", "net[1]", "net[2]"] ∧
    expandBus "net[2:0]" none = .ok ["net[0]", "net[1]", "net[2]"] ∧
    expandBus "my[1:2]net[3:4]" none =
      .ok ["my[1]net[3]", "my[1]net[4]", "my[2]net[3]", "my[2]net[4]"] ∧
    expandBus pattern (some mx) =
      (if outs.length ≤ mx then .ok outs else .error (.limitExceeded pattern mx)) := by
  have hout' : outs = fullExpand (pattern.data.length + 1) pattern.data := by
    have htot := expandBus_none_total pattern
    rw [houts] at htot
    exact Except.ok.inj htot
  refine ⟨⟨fun i => fullExpand pattern.data.length (mkBus pre i suf), ?_, ?_⟩,
    rfl, rfl, rfl, ?_⟩
  · intro i hiM
    have hmem := List.mem_range'_1.mp hiM
    have hile : i ≤ max (digsToNat d1) (digsToNat d2) := by omega
    have hlt : (mkBus pre i suf).length < pattern.data.length := mkBus_length_lt hfb hile
    rw [expandBus_none_total (String.mk (mkBus pre i suf))]
    have hcongr := fullExpand_congr ((mkBus pre i suf).length + 1) pattern.data.length
      (mkBus pre i suf) (by omega) hlt
    rw [show (String.mk (mkBus pre i suf)).data = mkBus pre i suf from rfl, hcongr]
  · rw [hout']
    simp only [fullExpand, hfb]
    rw [busIfLo_eq_min, busIfHi_eq_max]
  · rw [hout']
    exact expandBus_capped pattern mx hmx

theorem c7_expand_semantics_witness :
    (findBus ("a[0:5]" : String).data = some (['a'], ['0'], ['5'], []) ∧
     1 ≤ 3 ∧
     expandBus "a[0:5]" none = .ok ["a[0]", "a[1]", "a[2]", "a[3]", "a[4]", "a[5]"]) ∧
    expandBus "a[0:5]" (some 3) = .error (.limitExceeded "a[0:5]" 3) := by
  constructor
  · exact ⟨rfl, by omega, rfl⟩
  · have h := c7_expand_semantics "a[0:5]" ['a'] ['0'] ['5'] [] 3
      ["a[0]", "a[1]", "a[2]", "a[3]", "a[4]", "a[5]"] rfl (by omega) rfl
    rw [h.2.2.2.2, if_neg (by decide)]

end Bus

namespace Parse

/-- C3 counterexample: `c3Lines` contains the instance line
`Xbad x foo`, whose single connection does not match the two ports of
its target template `foo`, yet the parse succeeds and returns a
netlist: the line is the last line of the file, so its deferred
processing never runs and the mismatch is silently dropped. -/
theorem c3_eof_mismatch_counterexample :
    isOkE (readSpice "top" c3Lines) = true ∧
    parsedPins "top" c3Lines "foo" = some 2 ∧
    c3Lines.get? 5 = some "Xbad x foo" ∧
    pyWords "Xbad x foo" = ["Xbad", "x", "foo"] ∧
    ((pyWords "Xbad x foo").drop 1).dropLast = ["x"] := by
  refine ⟨?_, ?_, ?_, ?_, ?_⟩ <;> decide

end Parse

namespace Parse

theorem getOrAddNet_subInsts (t : PTemplate) (n : String) :
    (getOrAddNet t n).subInsts = t.subInsts := by
  unfold getOrAddNet
  split <;> rfl

theorem foldGetOrAdd_subInsts : ∀ (l : List String) (t : PTemplate),
    (l.foldl getOrAddNet t).subInsts = t.subInsts := by
  intro l
  induction l with
  | nil => intro t; rfl
  | cons a r ih =>
    intro t
    rw [List.foldl_cons, ih]
    exact getOrAddNet_subInsts t a

theorem selfInstEntry_fst (key : String) (inst : PInstance) (kv : String × PTemplate) :
    (if kv.1 = key then (kv.1, { kv.2 with selfInsts := kv.2.selfInsts ++ [inst] })
     else kv).1 = kv.1 := by
  split <;> rfl

theorem lookupT_selfInstMap (key : String) (inst : PInstance) (n : String) :
    ∀ l : List (String × PTemplate),
      lookupT (l.map (fun kv =>
        if kv.1 = key then (kv.1, { kv.2 with selfInsts := kv.2.selfInsts ++ [inst] })
        else kv)) n =
      (lookupT l n).map
        (fun t => if n = key then { t with selfInsts := t.selfInsts ++ [inst] } else t) := by
  intro l
  induction l with
  | nil => rfl
  | cons kv r ih =>
    rw [List.map_cons]
    show (if (if kv.1 = key then (kv.1, { kv.2 with selfInsts := kv.2.selfInsts ++ [inst] })
              else kv).1 = n
          then some (if kv.1 = key then (kv.1, { kv.2 with selfInsts := kv.2.selfInsts ++ [inst] })
                     else kv).2
          else lookupT (r.map (fun kv =>
            if kv.1 = key then (kv.1, { kv.2 with selfInsts := kv.2.selfInsts ++ [inst] })
            else kv)) n) = _
    rw [selfInstEntry_fst]
    by_cases hn : kv.1 = n
    · rw [if_pos hn]
      show _ = (if kv.1 = n then some kv.2 else lookupT r n).map _
      rw [if_pos hn]
      simp only [Option.map_some']
      by_cases hk : kv.1 = key
      · have hk2 : n = key := by rw [← hn]; exact hk
        rw [if_pos hk, if_pos hk2]
      · have hk2 : ¬ n = key := by rw [← hn]; exact hk
        rw [if_neg hk, if_neg hk2]
    · rw [if_neg hn]
      show _ = (if kv.1 = n then some kv.2 else lookupT r n).map _
      rw [if_neg hn]
      exact ih

theorem findTemplate_addSelfInst (nl : PNetlist) (key : String) (inst : PInstance) (n : String) :
    findTemplate (addSelfInst nl key inst) n =
      (findTemplate nl n).map
        (fun t => if Py.lowerStr n = key then { t with selfInsts := t.selfInsts ++ [inst] }
                  else t) := by
  simp only [findTemplate, addSelfInst]
  exact lookupT_selfInstMap key inst (Py.lowerStr n) nl.templates

theorem wc_of_subInsts_eq {nl : PNetlist} {t1 t2 : PTemplate}
    (hs : t2.subInsts = t1.subInsts) (h : WellConnected nl t1) : WellConnected nl t2 := by
  intro inst hm
  rw [hs] at hm
  exact h inst hm

theorem wc_addSelfInst {nl : PNetlist} {t : PTemplate} (key : String) (inst : PInstance)
    (h : WellConnected nl t) : WellConnected (addSelfInst nl key inst) t := by
  intro i hm
  obtain ⟨tt, hf, hl⟩ := h i hm
  refine ⟨if Py.lowerStr i.templName = key
          then { tt with selfInsts := tt.selfInsts ++ [inst] } else tt, ?_, ?_⟩
  · rw [findTemplate_addSelfInst, hf]
    rfl
  · split <;> exact hl

theorem lookupTAppend (n : String) :
    ∀ l1 l2 : List (String × PTemplate),
      lookupT (l1 ++ l2) n =
        match lookupT l1 n with
        | some v => some v
        | none => lookupT l2 n := by
  intro l1 l2
  induction l1 with
  | nil => rfl
  | cons kv r ih =>
    rw [List.cons_append]
    show (if kv.1 = n then some kv.2 else lookupT (r ++ l2) n) = _
    by_cases hn : kv.1 = n
    · rw [if_pos hn]
      show _ = (match (if kv.1 = n then some kv.2 else lookupT r n) with
        | some v => some v
        | none => lookupT l2 n)
      rw [if_pos hn]
    · rw [if_neg hn]
      show _ = (match (if kv.1 = n then some kv.2 else lookupT r n) with
        | some v => some v
        | none => lookupT l2 n)
      rw [if_neg hn]
      exact ih

theorem wc_extend {nl nl2 : PNetlist} {t : PTemplate} (entry : String × PTemplate)
    (hsh : nl2.templates = nl.templates ++ [entry]) (h : WellConnected nl t) :
    WellConnected nl2 t := by
  intro i hm
  obtain ⟨tt, hf, hl⟩ := h i hm
  refine ⟨tt, ?_, hl⟩
  have hf' : lookupT nl.templates (Py.lowerStr i.templName) = some tt := hf
  show lookupT nl2.templates (Py.lowerStr i.templName) = some tt
  rw [hsh, lookupTAppend, hf']

theorem addTemplate_ok {nl nl1 : PNetlist} {t : PTemplate}
    (h : addTemplate nl t = .ok nl1) :
    nl1.templates = nl.templates ++ [(Py.lowerStr t.name, t)] := by
  unfold addTemplate at h
  split at h
  · exact Except.noConfusion h
  · simp only [Except.ok.injEq] at h
    rw [← h]

theorem mkTemplate_subInsts {tname : String} {pins : List String} {b : Bool} {t : PTemplate}
    (h : mkTemplate tname pins b = .ok t) : t.subInsts = [] := by
  unfold mkTemplate at h
  cases hx : mkTemplateKeys tname pins [] with
  | error m => rw [hx] at h; exact Except.noConfusion h
  | ok keys =>
    rw [hx] at h
    simp only [Except.ok.injEq] at h
    rw [← h]

end Parse

namespace Parse

theorem procTemplFlag_inv {top : String} {k : Nat} {ts : List String} {st : BState}
    {b : Bool} {st1 : BState}
    (h : procTemplFlag top k ts st = .ok (b, st1)) (hinv : BInv st) : BInv st1 := by
  unfold procTemplFlag at h
  split at h
  · split at h
    · simp only [Except.ok.injEq, Prod.mk.injEq] at h
      rw [← h.2]
      exact hinv
    · split at h
      · exact Except.noConfusion h
      · split at h
        · exact Except.noConfusion h
        · rename_i t ht
          simp only [Except.ok.injEq, Prod.mk.injEq] at h
          rw [← h.2]
          refine ⟨fun kv hm => hinv.1 kv hm, ?_⟩
          intro t' ht'
          have ht2 : t = t' := by
            simpa using ht'
          rw [← ht2]
          intro i hm
          rw [mkTemplate_subInsts ht] at hm
          exact absurd hm (List.not_mem_nil i)
  · simp only [Except.ok.injEq, Prod.mk.injEq] at h
    rw [← h.2]
    exact hinv

end Parse

namespace Parse

theorem procInstFlag_inv {k : Nat} {ts : List String} {st : BState} {b : Bool} {st1 : BState}
    (h : procInstFlag k ts st = .ok (b, st1)) (hinv : BInv st) : BInv st1 := by
  unfold procInstFlag at h
  by_cases hji : st.justInstance = true
  · rw [if_pos hji] at h
    by_cases hplus : ts.head? = some "+"
    · rw [if_pos hplus] at h
      simp only [Except.ok.injEq, Prod.mk.injEq] at h
      rw [← h.2]
      exact hinv
    · rw [if_neg hplus] at h
      cases hstrip : stripPcell st.instLines with
      | none => rw [hstrip] at h; exact Except.noConfusion h
      | some l =>
        cases l with
        | nil =>
          simp only [hstrip] at h
          exact Except.noConfusion h
        | cons i0 irest =>
          simp only [hstrip] at h
          by_cases hname : ({ data := List.drop 1 i0.data } : String) = ""
          · rw [if_pos hname] at h
            exact Except.noConfusion h
          · rw [if_neg hname] at h
            by_cases hlen2 : (i0 :: irest).length < 2
            · rw [if_pos hlen2] at h
              exact Except.noConfusion h
            · rw [if_neg hlen2] at h
              cases hfind : findTemplate st.netlist ((i0 :: irest).getLastD "") with
              | none =>
                simp only [hfind] at h
                exact Except.noConfusion h
              | some it =>
                simp only [hfind] at h
                cases hct : st.templ with
                | none =>
                  simp only [hct] at h
                  exact Except.noConfusion h
                | some ct =>
                  simp only [hct] at h
                  by_cases hmis :
                      (List.drop 1 (i0 :: irest)).dropLast.length ≠ it.pins.length
                  · rw [if_pos hmis] at h
                    exact Except.noConfusion h
                  · rw [if_neg hmis] at h
                    by_cases hdup :
                        ((List.foldl getOrAddNet ct
                          (List.drop 1 (i0 :: irest)).dropLast).subInsts.any fun i2 =>
                            Py.lowerStr i2.name ==
                              Py.lowerStr { data := List.drop 1 i0.data }) = true
                    · rw [if_pos hdup] at h
                      exact Except.noConfusion h
                    · rw [if_neg hdup] at h
                      simp only [Except.ok.injEq, Prod.mk.injEq] at h
                      rw [← h.2]
                      constructor
                      · intro kv hm
                        simp only [addSelfInst, List.mem_map] at hm
                        obtain ⟨kv0, hkv0, hmap⟩ := hm
                        refine wc_of_subInsts_eq ?_
                          (wc_addSelfInst _ _ (hinv.1 kv0 hkv0))
                        rw [← hmap]
                        split <;> rfl
                      · intro t' ht'
                        have ht2 := Option.some.inj ht'
                        rw [← ht2]
                        intro i hm
                        simp only [List.mem_append, List.mem_singleton,
                          foldGetOrAdd_subInsts] at hm
                        rcases hm with hm | hm
                        · exact wc_addSelfInst _ _ (hinv.2 ct hct) i hm
                        · rw [hm]
                          refine ⟨{ it with selfInsts := it.selfInsts ++
                            [{ name := { data := List.drop 1 i0.data },
                               templName := (i0 :: irest).getLastD "",
                               conns := (List.drop 1 (i0 :: irest)).dropLast }] }, ?_, ?_⟩
                          · rw [findTemplate_addSelfInst]
                            show (findTemplate st.netlist ((i0 :: irest).getLastD "")).map _ = _
                            rw [hfind]
                            simp only [Option.map_some']
                            split
                            · rfl
                            · rename_i hcon
                              exact absurd trivial hcon
                          · exact not_ne_iff.mp hmis
  · rw [if_neg hji] at h
    simp only [Except.ok.injEq, Prod.mk.injEq] at h
    rw [← h.2]
    exact hinv

end Parse

namespace Parse

theorem procDevFlag_inv {k : Nat} {ts : List String} {st : BState} {b : Bool} {st1 : BState}
    (h : procDevFlag k ts st = .ok (b, st1)) (hinv : BInv st) : BInv st1 := by
  unfold procDevFlag at h
  by_cases hjd : st.justDevice = true
  · rw [if_pos hjd] at h
    by_cases hplus : ts.head? = some "+"
    · rw [if_pos hplus] at h
      simp only [Except.ok.injEq, Prod.mk.injEq] at h
      rw [← h.2]
      exact hinv
    · rw [if_neg hplus] at h
      cases hdl : st.devLines with
      | nil =>
        simp only [hdl] at h
        exact Except.noConfusion h
      | cons d0 rest =>
        simp only [hdl] at h
        by_cases hl4 : (d0 :: rest).length < 4
        · rw [if_pos hl4] at h
          exact Except.noConfusion h
        · rw [if_neg hl4] at h
          cases hct : st.templ with
          | none =>
            simp only [hct] at h
            exact Except.noConfusion h
          | some ct =>
            simp only [hct] at h
            by_cases hdup : ((List.foldl getOrAddNet ct
                ((List.drop 1 (d0 :: rest)).take 3)).devices.any fun d =>
                  Py.lowerStr d == Py.lowerStr d0) = true
            · rw [if_pos hdup] at h
              exact Except.noConfusion h
            · rw [if_neg hdup] at h
              simp only [Except.ok.injEq, Prod.mk.injEq] at h
              rw [← h.2]
              refine ⟨fun kv hm => hinv.1 kv hm, ?_⟩
              intro t' ht'
              have ht2 := Option.some.inj ht'
              rw [← ht2]
              exact wc_of_subInsts_eq (foldGetOrAdd_subInsts _ _) (hinv.2 ct hct)
  · rw [if_neg hjd] at h
    simp only [Except.ok.injEq, Prod.mk.injEq] at h
    rw [← h.2]
    exact hinv

theorem procResFlag_inv {k : Nat} {ts : List String} {st : BState} {b : Bool} {st1 : BState}
    (h : procResFlag k ts st = .ok (b, st1)) (hinv : BInv st) : BInv st1 := by
  unfold procResFlag at h
  by_cases hjr : st.justResistor = true
  · rw [if_pos hjr] at h
    by_cases hplus : ts.head? = some "+"
    · rw [if_pos hplus] at h
      simp only [Except.ok.injEq, Prod.mk.injEq] at h
      rw [← h.2]
      exact hinv
    · rw [if_neg hplus] at h
      cases hdl : st.resLines with
      | nil =>
        simp only [hdl] at h
        exact Except.noConfusion h
      | cons r0 rest =>
        simp only [hdl] at h
        by_cases hl3 : (r0 :: rest).length < 3
        · rw [if_pos hl3] at h
          exact Except.noConfusion h
        · rw [if_neg hl3] at h
          cases hct : st.templ with
          | none =>
            simp only [hct] at h
            exact Except.noConfusion h
          | some ct =>
            simp only [hct] at h
            by_cases hdup : ((List.foldl getOrAddNet ct
                ((List.drop 1 (r0 :: rest)).take 2)).resistors.any fun r =>
                  Py.lowerStr r == Py.lowerStr r0) = true
            · rw [if_pos hdup] at h
              exact Except.noConfusion h
            · rw [if_neg hdup] at h
              simp only [Except.ok.injEq, Prod.mk.injEq] at h
              rw [← h.2]
              refine ⟨fun kv hm => hinv.1 kv hm, ?_⟩
              intro t' ht'
              have ht2 := Option.some.inj ht'
              rw [← ht2]
              exact wc_of_subInsts_eq (foldGetOrAdd_subInsts _ _) (hinv.2 ct hct)
  · rw [if_neg hjr] at h
    simp only [Except.ok.injEq, Prod.mk.injEq] at h
    rw [← h.2]
    exact hinv

theorem procMain_inv {top : String} {k : Nat} {ts : List String} {st st1 : BState}
    (h : procMain top k ts st = .ok st1) (hinv : BInv st) : BInv st1 := by
  cases ts with
  | nil =>
    injection h with h2
    rw [← h2]
    exact hinv
  | cons t0 trest =>
    simp only [procMain] at h
    by_cases hsub : Py.lowerStr t0 = ".subckt"
    · rw [if_pos hsub] at h
      cases trest with
      | nil => exact Except.noConfusion h
      | cons t1 tr2 =>
        injection h with h2
        rw [← h2]
        exact hinv
    · rw [if_neg hsub] at h
      by_cases hin : st.inTemplate = true
      · rw [if_pos hin] at h
        by_cases hend : Py.lowerStr t0 = ".ends"
        · rw [if_pos hend] at h
          cases hct : st.templ with
          | none =>
            simp only [hct] at h
            exact Except.noConfusion h
          | some t =>
            simp only [hct] at h
            cases hadd : addTemplate st.netlist t with
            | error m =>
              simp only [hadd] at h
              exact Except.noConfusion h
            | ok nl1 =>
              simp only [hadd] at h
              injection h with h2
              rw [← h2]
              have hsh := addTemplate_ok hadd
              constructor
              · intro kv hm
                show WellConnected nl1 kv.2
                have hm2 : kv ∈ st.netlist.templates ++ [(Py.lowerStr t.name, t)] := by
                  rw [← hsh]
                  exact hm
                rcases List.mem_append.mp hm2 with hml | hmr
                · exact wc_extend _ hsh (hinv.1 kv hml)
                · have : kv = (Py.lowerStr t.name, t) := List.mem_singleton.mp hmr
                  rw [this]
                  exact wc_extend _ hsh (hinv.2 t hct)
              · intro t' ht'
                have ht2 := Option.some.inj (hct ▸ ht' : some t = some t')
                rw [← ht2]
                exact wc_extend _ hsh (hinv.2 t hct)
        · rw [if_neg hend] at h
          by_cases hX : t0.data.head? = some 'X'
          · rw [if_pos hX] at h
            injection h with h2
            rw [← h2]
            exact hinv
          · rw [if_neg hX] at h
            by_cases hM : t0.data.head? = some 'M'
            · rw [if_pos hM] at h
              injection h with h2
              rw [← h2]
              exact hinv
            · rw [if_neg hM] at h
              by_cases hR : t0.data.head? = some 'R'
              · rw [if_pos hR] at h
                injection h with h2
                rw [← h2]
                exact hinv
              · rw [if_neg hR] at h
                injection h with h2
                rw [← h2]
                exact hinv
      · rw [if_neg hin] at h
        injection h with h2
        rw [← h2]
        exact hinv

theorem stepThen_ok {r : Except ParseErr (Bool × BState)}
    {f : BState → Except ParseErr BState} {st' : BState}
    (h : stepThen r f = .ok st') :
    (∃ stm, r = .ok (true, stm) ∧ st' = stm) ∨
    (∃ stm, r = .ok (false, stm) ∧ f stm = .ok st') := by
  cases r with
  | error e => exact Except.noConfusion h
  | ok p =>
    obtain ⟨b, stm⟩ := p
    cases b with
    | true => exact Or.inl ⟨stm, rfl, (Except.ok.inj h).symm⟩
    | false => exact Or.inr ⟨stm, rfl, h⟩

theorem procLine_inv {top : String} {k : Nat} {ts : List String} {st st1 : BState}
    (h : procLine top k ts st = .ok st1) (hinv : BInv st) : BInv st1 := by
  unfold procLine at h
  rcases stepThen_ok h with ⟨sa, h1, h2⟩ | ⟨sa, h1, h2⟩
  · rw [h2]
    exact procTemplFlag_inv h1 hinv
  · have hia := procTemplFlag_inv h1 hinv
    rcases stepThen_ok h2 with ⟨sb, h3, h4⟩ | ⟨sb, h3, h4⟩
    · rw [h4]
      exact procInstFlag_inv h3 hia
    · have hib := procInstFlag_inv h3 hia
      rcases stepThen_ok h4 with ⟨sc, h5, h6⟩ | ⟨sc, h5, h6⟩
      · rw [h6]
        exact procDevFlag_inv h5 hib
      · have hic := procDevFlag_inv h5 hib
        rcases stepThen_ok h6 with ⟨sd, h7, h8⟩ | ⟨sd, h7, h8⟩
        · rw [h8]
          exact procResFlag_inv h7 hic
        · exact procMain_inv h8 (procResFlag_inv h7 hic)

theorem runLines_inv {top : String} : ∀ (lines : List String) (k : Nat) (st st' : BState),
    runLines top k lines st = .ok st' → BInv st → BInv st' := by
  intro lines
  induction lines with
  | nil =>
    intro k st st' h hinv
    rw [← Except.ok.inj h]
    exact hinv
  | cons l ls ih =>
    intro k st st' h hinv
    unfold runLines at h
    cases he : effTokens l with
    | none =>
      simp only [he] at h
      exact ih (k + 1) st st' h hinv
    | some ts =>
      simp only [he] at h
      cases hp : procLine top (k + 1) ts st with
      | error e =>
        simp only [hp] at h
        exact Except.noConfusion h
      | ok stm =>
        simp only [hp] at h
        exact ih (k + 1) stm st' h (procLine_inv hp hinv)

theorem readSpice_wc {top : String} {lines : List String} {nl : PNetlist}
    (h : readSpice top lines = .ok nl) :
    ∀ kv ∈ nl.templates, WellConnected nl kv.2 := by
  unfold readSpice at h
  cases hr : runLines top 0 lines initState with
  | error e =>
    simp only [hr] at h
    exact Except.noConfusion h
  | ok st =>
    simp only [hr] at h
    have hinv : BInv st := by
      refine runLines_inv lines 0 initState st hr ⟨?_, ?_⟩
      · intro kv hm
        exact absurd hm (List.not_mem_nil kv)
      · intro t ht
        exact Option.noConfusion ht
    by_cases htop : st.netlist.topCell.isSome = true
    · rw [if_pos htop] at h
      rw [← Except.ok.inj h]
      exact hinv.1
    · rw [if_neg htop] at h
      exact Except.noConfusion h

end Parse

namespace Parse

theorem procLine_mismatch {top : String} {k : Nat} {ts : List String} {st : BState}
    {i0 : String} {irest : List String} {it ct : PTemplate}
    (hjt : st.justTemplate = false)
    (hji : st.justInstance = true)
    (hplus : ¬ ts.head? = some "+")
    (hstrip : stripPcell st.instLines = some (i0 :: irest))
    (hname : ¬ (⟨i0.data.drop 1⟩ : String) = "")
    (hlen : ¬ (i0 :: irest).length < 2)
    (hfind : findTemplate st.netlist ((i0 :: irest).getLastD "") = some it)
    (hct : st.templ = some ct)
    (hmis : ((i0 :: irest).drop 1).dropLast.length ≠ it.pins.length) :
    ∃ msg, procLine top k ts st = .error (.atLine k msg) := by
  have hstage1 : procTemplFlag top k ts st = .ok (false, st) := by
    unfold procTemplFlag
    rw [if_neg (show ¬ st.justTemplate = true by simp [hjt])]
  have hstage2 : procInstFlag k ts st = .error (.atLine k
      ("Failed to create instance " ++ (⟨i0.data.drop 1⟩ : String) ++
        " of template " ++ (i0 :: irest).getLastD "" ++
        ", number of connected nets does not equal number of template interface nets")) := by
    unfold procInstFlag
    rw [if_pos hji, if_neg hplus]
    simp only [hstrip]
    rw [if_neg hname, if_neg hlen]
    simp only [hfind, hct]
    rw [if_pos hmis]
  refine ⟨"Failed to create instance " ++ (⟨i0.data.drop 1⟩ : String) ++
    " of template " ++ (i0 :: irest).getLastD "" ++
    ", number of connected nets does not equal number of template interface nets", ?_⟩
  unfold procLine
  rw [hstage1]
  simp only [stepThen]
  rw [hstage2]

end Parse

namespace Parse

/-- C3 (amended): the connection-count check runs only when the pending
instance line's deferred processing is triggered by a later effective
line. In that case a mismatch aborts the parse with a `ValueError`
wrapped with the current line counter, and consequently every
sub-instance of a successfully parsed netlist has as many connections
as its target template has ports. But an offending instance line that
is the last effective line of the file is never processed and is
silently dropped, so — contrary to the original claim — the parse can
succeed (see the counterexample). -/
theorem c3_mismatch_abort_semantics (top : String) (k : Nat) (ts : List String)
    (st : BState) (i0 : String) (irest : List String) (it ct : PTemplate)
    (lines : List String) (nl : PNetlist)
    (hjt : st.justTemplate = false)
    (hji : st.justInstance = true)
    (hplus : ¬ ts.head? = some "+")
    (hstrip : stripPcell st.instLines = some (i0 :: irest))
    (hname : ¬ (⟨i0.data.drop 1⟩ : String) = "")
    (hlen : ¬ (i0 :: irest).length < 2)
    (hfind : findTemplate st.netlist ((i0 :: irest).getLastD "") = some it)
    (hct : st.templ = some ct)
    (hmis : ((i0 :: irest).drop 1).dropLast.length ≠ it.pins.length)
    (hok : readSpice top lines = .ok nl) :
    (∃ msg, procLine top k ts st = .error (.atLine k msg)) ∧
    ∀ kv ∈ nl.templates, WellConnected nl kv.2 :=
  ⟨procLine_mismatch hjt hji hplus hstrip hname hlen hfind hct hmis, readSpice_wc hok⟩

/-- Witness for C3 at concrete inputs: the pending mismatched line
`Xbad x foo` aborts with an error at the current line counter when
processed, and a successful parse is well connected. -/
theorem c3_mismatch_abort_semantics_witness :
    (c3St.justInstance = true ∧
     stripPcell c3St.instLines = some ["Xbad", "x", "foo"] ∧
     findTemplate c3St.netlist "foo" = some c3FooT ∧
     ((["Xbad", "x", "foo"].drop 1).dropLast).length ≠ c3FooT.pins.length ∧
     readSpice "top" [".subckt top a b", ".ends"] = .ok c3TopNl) ∧
    ((∃ msg, procLine "top" 6 [".ends"] c3St = .error (.atLine 6 msg)) ∧
     ∀ kv ∈ c3TopNl.templates, WellConnected c3TopNl kv.2) := by
  constructor
  · exact ⟨rfl, rfl, rfl, by decide, rfl⟩
  · exact c3_mismatch_abort_semantics "top" 6 [".ends"] c3St "Xbad" ["x", "foo"]
      c3FooT c3BarT [".subckt top a b", ".ends"] c3TopNl
      rfl rfl (by decide) rfl (by decide) (by decide) rfl rfl (by decide) rfl

end Parse

namespace NQ

/-- C6 counterexample: `collapse_bus_notation` lower-cases its input and
re-prints every index from its parsed integer value, so for upper-case
names (or zero-padded indices) the expand-of-collapse round trip yields
the normalized names, not the original set. -/
theorem c6_roundtrip_counterexample :
    collapseBus ["A[0]", "A[1]"] = some "a[0:1]" ∧
    Bus.expandBus "a[0:1]" none = .ok ["a[0]", "a[1]"] ∧
    ¬ ((["a[0]", "a[1]"] : List String).toFinset =
       (["A[0]", "A[1]"] : List String).toFinset) ∧
    collapseBus ["a[00]", "a[01]"] = some "a[0:1]" ∧
    ¬ ((["a[0]", "a[1]"] : List String).toFinset =
       (["a[00]", "a[01]"] : List String).toFinset) := by
  exact ⟨by decide, rfl, by decide, by decide, by decide⟩

end NQ

namespace Bus

theorem natCharsAux_chars :
    ∀ fuel n, ∀ c ∈ natCharsAux fuel n, ∃ d, d ≤ 9 ∧ c = Char.ofNat (48 + d) := by
  intro fuel
  induction fuel with
  | zero => intro n c hc; exact absurd hc (List.not_mem_nil c)
  | succ f ih =>
    intro n c hc
    unfold natCharsAux at hc
    by_cases hz : n = 0
    · rw [if_pos hz] at hc
      exact absurd hc (List.not_mem_nil c)
    · rw [if_neg hz] at hc
      rcases List.mem_append.mp hc with hm | hm
      · exact ih (n / 10) c hm
      · rw [List.mem_singleton.mp hm]
        exact ⟨n % 10, by omega, rfl⟩

theorem natChars_chars {n : Nat} : ∀ c ∈ natChars n, ∃ d, d ≤ 9 ∧ c = Char.ofNat (48 + d) := by
  intro c hc
  unfold natChars at hc
  by_cases hz : n = 0
  · rw [if_pos hz] at hc
    rw [List.mem_singleton.mp hc]
    exact ⟨0, by omega, by decide⟩
  · rw [if_neg hz] at hc
    exact natCharsAux_chars (n + 1) n c hc

theorem digitChar_isDigit {d : Nat} (hd : d ≤ 9) : (Char.ofNat (48 + d)).isDigit = true := by
  interval_cases d <;> decide

theorem digitChar_lowChar {d : Nat} (hd : d ≤ 9) :
    Py.lowChar (Char.ofNat (48 + d)) = Char.ofNat (48 + d) := by
  interval_cases d <;> decide

theorem digitChar_ne_lbrk {d : Nat} (hd : d ≤ 9) : Char.ofNat (48 + d) ≠ '[' := by
  interval_cases d <;> decide

theorem digitChar_toNat {d : Nat} (hd : d ≤ 9) : (Char.ofNat (48 + d)).toNat = 48 + d := by
  interval_cases d <;> decide

theorem natChars_isDigit {n : Nat} : ∀ c ∈ natChars n, c.isDigit = true := by
  intro c hc
  obtain ⟨d, hd, hce⟩ := natChars_chars c hc
  rw [hce]
  exact digitChar_isDigit hd

theorem digsToNat_append_one (xs : List Char) (c : Char) :
    digsToNat (xs ++ [c]) = 10 * digsToNat xs + digitVal c := by
  unfold digsToNat
  rw [List.foldl_append]
  rfl

theorem digsToNat_natCharsAux :
    ∀ fuel n, n < fuel → digsToNat (natCharsAux fuel n) = n := by
  intro fuel
  induction fuel with
  | zero => intro n h; omega
  | succ f ih =>
    intro n h
    unfold natCharsAux
    by_cases hz : n = 0
    · rw [if_pos hz, hz]
      rfl
    · rw [if_neg hz]
      rw [digsToNat_append_one]
      have hdf : n / 10 < f := by
        have := Nat.div_lt_self (by omega : 0 < n) (by omega : (1:Nat) < 10)
        omega
      rw [ih (n / 10) hdf]
      unfold digitVal
      rw [digitChar_toNat (by omega : n % 10 ≤ 9)]
      omega

theorem digsToNat_natChars (n : Nat) : digsToNat (natChars n) = n := by
  unfold natChars
  by_cases hz : n = 0
  · rw [if_pos hz, hz]
    decide
  · rw [if_neg hz]
    exact digsToNat_natCharsAux (n + 1) n (by omega)

theorem natChars_inj {a b : Nat} (h : natChars a = natChars b) : a = b := by
  have ha := digsToNat_natChars a
  rw [h, digsToNat_natChars b] at ha
  omega

end Bus

namespace Bus

theorem takeDigits_append_stop {ds : List Char} (hd : ∀ c ∈ ds, c.isDigit = true)
    {c : Char} (hc : ¬ c.isDigit = true) (r : List Char) :
    takeDigits (ds ++ c :: r) = (ds, c :: r) := by
  induction ds with
  | nil =>
    simp only [List.nil_append]
    unfold takeDigits
    rw [if_neg hc]
  | cons d t ih =>
    simp only [List.cons_append]
    unfold takeDigits
    rw [if_pos (hd d (by simp))]
    rw [ih (fun x hx => hd x (by simp [hx]))]

theorem busParseAt_build {d1 d2 suf : List Char} {sep : Char}
    (h1 : d1 ≠ []) (hd1 : ∀ c ∈ d1, c.isDigit = true)
    (h2 : d2 ≠ []) (hd2 : ∀ c ∈ d2, c.isDigit = true)
    (hsep : sep = ':' ∨ sep = '-') :
    busParseAt (d1 ++ sep :: (d2 ++ ']' :: suf)) = some (d1, d2, suf) := by
  have hsd : ¬ sep.isDigit = true := by
    rcases hsep with rfl | rfl <;> decide
  unfold busParseAt
  rw [takeDigits_append_stop hd1 hsd]
  simp only
  rw [if_neg h1]
  simp only [busParseTail]
  rw [if_pos hsep]
  rw [takeDigits_append_stop hd2 (by decide : ¬ (']' : Char).isDigit = true)]
  simp only
  rw [if_neg h2]
  simp only [busParseClose]
  simp

theorem findBus_build {pre d1 d2 suf : List Char} {sep : Char}
    (hpre : ∀ c ∈ pre, c ≠ '[')
    (h1 : d1 ≠ []) (hd1 : ∀ c ∈ d1, c.isDigit = true)
    (h2 : d2 ≠ []) (hd2 : ∀ c ∈ d2, c.isDigit = true)
    (hsep : sep = ':' ∨ sep = '-') :
    findBus (pre ++ '[' :: (d1 ++ sep :: (d2 ++ ']' :: suf))) = some (pre, d1, d2, suf) := by
  induction pre with
  | nil =>
    simp only [List.nil_append]
    unfold findBus
    rw [if_pos rfl]
    rw [busParseAt_build h1 hd1 h2 hd2 hsep]
  | cons c t ih =>
    simp only [List.cons_append]
    unfold findBus
    rw [if_neg (hpre c (by simp))]
    rw [ih (fun x hx => hpre x (by simp [hx]))]

theorem findBus_none_noBracket : ∀ {cs : List Char}, (∀ c ∈ cs, c ≠ '[') → findBus cs = none := by
  intro cs
  induction cs with
  | nil => intro _; rfl
  | cons c t ih =>
    intro h
    unfold findBus
    rw [if_neg (h c (by simp))]
    rw [ih (fun x hx => h x (by simp [hx]))]

theorem findBus_idxOnly_none {pre d suf : List Char}
    (hpre : ∀ c ∈ pre, c ≠ '[') (hd : ∀ c ∈ d, c.isDigit = true)
    (hsuf : ∀ c ∈ suf, c ≠ '[') :
    findBus (pre ++ '[' :: (d ++ ']' :: suf)) = none := by
  have hdnb : ∀ c ∈ d, c ≠ '[' := by
    intro c hc hceq
    have := hd c hc
    rw [hceq] at this
    exact absurd this (by decide)
  have htail : findBus (d ++ ']' :: suf) = none := by
    refine findBus_none_noBracket ?_
    intro c hc
    rcases List.mem_append.mp hc with hm | hm
    · exact hdnb c hm
    · rcases List.mem_cons.mp hm with rfl | hm2
      · decide
      · exact hsuf c hm2
  have hpa : busParseAt (d ++ ']' :: suf) = none := by
    unfold busParseAt
    cases d with
    | nil =>
      simp only [List.nil_append]
      show (if (takeDigits (']' :: suf)).1 = [] then none
            else busParseTail (takeDigits (']' :: suf)).1 (takeDigits (']' :: suf)).2) = none
      have h0 : takeDigits (']' :: suf) = ([], ']' :: suf) := by
        unfold takeDigits
        rw [if_neg (by decide : ¬ (']' : Char).isDigit = true)]
      rw [h0]
      simp
    | cons d0 dt =>
      rw [takeDigits_append_stop hd (by decide : ¬ (']' : Char).isDigit = true)]
      simp only
      rw [if_neg (by simp : ¬ (d0 :: dt) = [])]
      simp only [busParseTail]
      rw [if_neg (by decide : ¬ ((']' : Char) = ':' ∨ (']' : Char) = '-'))]
  induction pre with
  | nil =>
    simp only [List.nil_append]
    unfold findBus
    rw [if_pos rfl, hpa, htail]
  | cons c t ih =>
    simp only [List.cons_append]
    unfold findBus
    rw [if_neg (hpre c (by simp))]
    rw [ih (fun x hx => hpre x (by simp [hx]))]

end Bus

namespace NQ

theorem idxParseAt_build {d suf : List Char}
    (h1 : d ≠ []) (hd : ∀ c ∈ d, c.isDigit = true) :
    idxParseAt (d ++ ']' :: suf) = some (d, suf) := by
  unfold idxParseAt
  rw [Bus.takeDigits_append_stop hd (by decide : ¬ (']' : Char).isDigit = true)]
  simp only
  rw [if_neg h1]

theorem findIdx_build {pre d suf : List Char}
    (hpre : ∀ c ∈ pre, c ≠ '[')
    (h1 : d ≠ []) (hd : ∀ c ∈ d, c.isDigit = true) :
    findIdx (pre ++ '[' :: (d ++ ']' :: suf)) = some (pre, d, suf) := by
  induction pre with
  | nil =>
    simp only [List.nil_append]
    unfold findIdx
    rw [if_pos rfl]
    rw [idxParseAt_build h1 hd]
  | cons c t ih =>
    simp only [List.cons_append]
    unfold findIdx
    rw [if_neg (hpre c (by simp))]
    rw [ih (fun x hx => hpre x (by simp [hx]))]

theorem findIdx_none_noBracket : ∀ {cs : List Char}, (∀ c ∈ cs, c ≠ '[') → findIdx cs = none := by
  intro cs
  induction cs with
  | nil => intro _; rfl
  | cons c t ih =>
    intro h
    unfold findIdx
    rw [if_neg (h c (by simp))]
    rw [ih (fun x hx => h x (by simp [hx]))]

theorem idxFindall_none {cs : List Char} (h : findIdx cs = none) :
    ∀ fuel, idxFindall fuel cs = [] := by
  intro fuel
  cases fuel with
  | zero => rfl
  | succ f =>
    unfold idxFindall
    rw [h]

theorem idxSubst_none {cs : List Char} (h : findIdx cs = none) :
    ∀ fuel, idxSubst fuel cs = cs := by
  intro fuel
  cases fuel with
  | zero => rfl
  | succ f =>
    unfold idxSubst
    rw [h]

theorem busSubst_none {cs : List Char} (h : Bus.findBus cs = none) :
    ∀ fuel, busSubst fuel cs = cs := by
  intro fuel
  cases fuel with
  | zero => rfl
  | succ f =>
    unfold busSubst
    rw [h]

theorem busFindallF_none {cs : List Char} (h : Bus.findBus cs = none) :
    ∀ fuel, busFindallF fuel cs = [] := by
  intro fuel
  cases fuel with
  | zero => rfl
  | succ f =>
    unfold busFindallF
    rw [h]

end NQ

namespace NQ

theorem plainSeg_noBracket {l : List Char} (h : PlainSeg l) : ∀ c ∈ l, c ≠ '[' :=
  fun c hc => (h c hc).1

theorem idxSubst_step {cs pre d suf : List Char}
    (h : findIdx cs = some (pre, d, suf)) (fuel : Nat) :
    idxSubst (fuel + 1) cs = pre ++ '[' :: ']' :: idxSubst fuel suf := by
  show (match findIdx cs with
        | none => cs
        | some (pre, _, suf) => pre ++ '[' :: ']' :: idxSubst fuel suf) = _
  rw [h]

theorem idxFindall_step {cs pre d suf : List Char}
    (h : findIdx cs = some (pre, d, suf)) (fuel : Nat) :
    idxFindall (fuel + 1) cs = Bus.digsToNat d :: idxFindall fuel suf := by
  show (match findIdx cs with
        | none => []
        | some (_, d, suf) => Bus.digsToNat d :: idxFindall fuel suf) = _
  rw [h]

theorem mapIdOn {f : Char → Char} : ∀ {l : List Char}, (∀ c ∈ l, f c = c) → l.map f = l := by
  intro l
  induction l with
  | nil => intro _; rfl
  | cons c t ih =>
    intro h
    rw [List.map_cons, h c (by simp), ih (fun x hx => h x (by simp [hx]))]

theorem lowerStr_mk {pre suf : List Char} (i : Nat)
    (hpre : PlainSeg pre) (hsuf : PlainSeg suf) :
    Py.lowerStr ⟨Bus.mkBus pre i suf⟩ = ⟨Bus.mkBus pre i suf⟩ := by
  unfold Py.lowerStr
  show (⟨(Bus.mkBus pre i suf).map Py.lowChar⟩ : String) = _
  congr 1
  refine mapIdOn ?_
  intro c hc
  unfold Bus.mkBus at hc
  rcases List.mem_append.mp hc with hm | hm
  · exact (hpre c hm).2.2
  · rcases List.mem_cons.mp hm with rfl | hm2
    · decide
    · rcases List.mem_append.mp hm2 with hm3 | hm3
      · obtain ⟨d, hd, hce⟩ := Bus.natChars_chars c hm3
        rw [hce]
        exact Bus.digitChar_lowChar hd
      · rcases List.mem_cons.mp hm3 with rfl | hm4
        · decide
        · exact (hsuf c hm4).2.2

theorem collectRow_mk {pre suf : List Char} (i : Nat)
    (hpre : PlainSeg pre) (hsuf : PlainSeg suf) :
    collectRow ⟨Bus.mkBus pre i suf⟩ = ([i], ⟨pre ++ '[' :: ']' :: suf⟩) := by
  have hfb : Bus.findBus (Bus.mkBus pre i suf) = none := by
    unfold Bus.mkBus
    exact Bus.findBus_idxOnly_none (plainSeg_noBracket hpre)
      (fun c hc => Bus.natChars_isDigit c hc) (plainSeg_noBracket hsuf)
  have hfi : findIdx (Bus.mkBus pre i suf) = some (pre, Bus.natChars i, suf) := by
    unfold Bus.mkBus
    exact findIdx_build (plainSeg_noBracket hpre) (Bus.natChars_ne_nil i)
      (fun c hc => Bus.natChars_isDigit c hc)
  have hfisuf : findIdx suf = none := findIdx_none_noBracket (plainSeg_noBracket hsuf)
  have hdata : (⟨Bus.mkBus pre i suf⟩ : String).data = Bus.mkBus pre i suf := rfl
  simp only [collectRow, hdata, busFindallF_none hfb, busSubst_none hfb,
    idxFindall_step hfi, idxFindall_none hfisuf, idxSubst_step hfi, idxSubst_none hfisuf,
    Bus.digsToNat_natChars, ne_eq, not_true_eq_false, if_false, ite_false]

theorem collectGo_mk {pre suf : List Char}
    (hpre : PlainSeg pre) (hsuf : PlainSeg suf) :
    ∀ is : List Nat,
      collectGo ⟨pre ++ '[' :: ']' :: suf⟩
        (is.map (fun i => (⟨Bus.mkBus pre i suf⟩ : String))) =
      some (is.map (fun i => [i])) := by
  intro is
  induction is with
  | nil => rfl
  | cons i t ih =>
    simp only [List.map_cons, collectGo, collectRow_mk i hpre hsuf, ih]
    simp

theorem collectRows_mk {pre suf : List Char}
    (hpre : PlainSeg pre) (hsuf : PlainSeg suf) (is : List Nat) (hne : is ≠ []) :
    collectRows (is.map (fun i => (⟨Bus.mkBus pre i suf⟩ : String))) =
      some (is.map (fun i => [i]), ⟨pre ++ '[' :: ']' :: suf⟩) := by
  cases is with
  | nil => exact absurd rfl hne
  | cons i0 t =>
    simp only [List.map_cons, collectRows, collectRow_mk i0 hpre hsuf, collectGo_mk hpre hsuf]
    simp

theorem mkName_inj {pre suf : List Char} {a b : Nat}
    (h : (⟨Bus.mkBus pre a suf⟩ : String) = ⟨Bus.mkBus pre b suf⟩) : a = b := by
  have hd : Bus.mkBus pre a suf = Bus.mkBus pre b suf := congrArg String.data h
  unfold Bus.mkBus at hd
  have h2 := List.append_cancel_left hd
  have h3 : Bus.natChars a ++ ']' :: suf = Bus.natChars b ++ ']' :: suf := by
    injection h2
  exact Bus.natChars_inj (List.append_cancel_right h3)

theorem replaceBrkOnce_plain {pre : List Char} (hpre : ∀ c ∈ pre, c ≠ '[')
    (rep rest : List Char) :
    replaceBrkOnce rep (pre ++ '[' :: ']' :: rest) = pre ++ (rep ++ rest) := by
  induction pre with
  | nil =>
    simp only [List.nil_append]
    unfold replaceBrkOnce
    rw [if_pos rfl]
    rfl
  | cons c t ih =>
    simp only [List.cons_append]
    unfold replaceBrkOnce
    rw [if_neg (hpre c (by simp))]
    rw [ih (fun x hx => hpre x (by simp [hx]))]

theorem flatMap_singleton_map {α β : Type} (l : List α) (f : α → β) :
    l.flatMap (fun x => [f x]) = l.map f := by
  induction l with
  | nil => rfl
  | cons a t ih => simp [List.flatMap_cons, ih]

end NQ

namespace NQ

theorem range'_getLast? : ∀ (n s : Nat), (List.range' s (n + 1)).getLast? = some (s + n) := by
  intro n
  induction n with
  | zero => intro s; rfl
  | succ k ih =>
    intro s
    show (s :: ((s + 1) :: List.range' (s + 1 + 1) k)).getLast? = some (s + (k + 1))
    rw [List.getLast?_cons_cons]
    have h2 := ih (s + 1)
    rw [show List.range' (s + 1) (k + 1) = (s + 1) :: List.range' (s + 1 + 1) k from rfl] at h2
    rw [h2]
    congr 1
    omega

theorem collapseDims_range1 (lo hi : Nat) (hlt : lo < hi) :
    collapseDims [List.range' lo (hi + 1 - lo)] =
      some [('[' :: (Bus.natChars lo ++ ':' :: (Bus.natChars hi ++ [']'])))] := by
  obtain ⟨m, hm⟩ : ∃ m, hi + 1 - lo = m + 2 := ⟨hi - lo - 1, by omega⟩
  have hhi : hi = lo + (m + 1) := by omega
  rw [hm]
  have hnd : (List.range' lo (m + 2)).dedup = List.range' lo (m + 2) :=
    List.dedup_eq_self.mpr (List.nodup_range' lo (m + 2) 1 (by omega))
  have hsorted : (List.range' lo (m + 2)).Sorted (· ≤ ·) :=
    (List.pairwise_lt_range' lo (m + 2) 1 (by omega)).imp (fun h => Nat.le_of_lt h)
  have hlast : (List.range' lo (m + 2)).getLast?.getD 0 = lo + (m + 1) := by
    rw [range'_getLast? (m + 1) lo]
    rfl
  simp only [collapseDims, hnd, hsorted.insertionSort_eq, hlast]
  have hhead : (List.range' lo (m + 2)).head?.getD 0 = lo := rfl
  rw [hhead]
  rw [if_pos (show List.range' lo (m + 2) = List.range' lo (lo + (m + 1) + 1 - lo) by
    congr 1
    omega)]
  rw [if_neg (show ¬ lo = lo + (m + 1) by omega)]
  simp only [collapseDims, Option.map_some']
  rw [← hhi]

end NQ

namespace NQ

theorem c6_collapse_family {pre suf : List Char} {lo hi : Nat} (hlt : lo < hi)
    (hpre : PlainSeg pre) (hsuf : PlainSeg suf) :
    collapseBus ((List.range' lo (hi + 1 - lo)).map
        (fun i => (⟨Bus.mkBus pre i suf⟩ : String))) =
      some ⟨pre ++ '[' :: (Bus.natChars lo ++ ':' :: (Bus.natChars hi ++ ']' :: suf))⟩ := by
  obtain ⟨m, hm⟩ : ∃ m, hi + 1 - lo = m + 2 := ⟨hi - lo - 1, by omega⟩
  rw [hm]
  have hnorm : (((List.range' lo (m + 2)).map
      (fun i => (⟨Bus.mkBus pre i suf⟩ : String))).map Py.lowerStr) =
      (List.range' lo (m + 2)).map (fun i => (⟨Bus.mkBus pre i suf⟩ : String)) := by
    rw [List.map_map]
    exact List.map_congr_left (fun i _ => lowerStr_mk i hpre hsuf)
  cases hN : (List.range' lo (m + 2)).map (fun i => (⟨Bus.mkBus pre i suf⟩ : String)) with
  | nil =>
    have := congrArg List.length hN
    simp [List.length_range'] at this
  | cons n0 nrest =>
    simp only [collapseBus]
    rw [← hN, hnorm]
    rw [if_neg (show ¬ ((List.range' lo (m + 2)).map
        (fun i => (⟨Bus.mkBus pre i suf⟩ : String))).length = 1 by
      simp [List.length_map, List.length_range'])]
    rw [collectRows_mk hpre hsuf (List.range' lo (m + 2)) (by
      intro hc
      have := congrArg List.length hc
      simp [List.length_range'] at this)]
    simp only
    have hhead : (((List.range' lo (m + 2)).map (fun i => [i])).head?.getD []) = [lo] := by
      rw [show List.range' lo (m + 2) = lo :: List.range' (lo + 1) (m + 1) from rfl]
      rfl
    rw [hhead]
    rw [if_neg (show ¬ ([lo] : List Nat) = [] by simp)]
    rw [show ([lo] : List Nat).length = 1 from rfl]
    rw [if_neg (show ¬ (((List.range' lo (m + 2)).map (fun i => [i])).any
        (fun l => l.length ≠ 1)) = true by
      simp [List.any_map])]
    have hdims : (List.range 1).map
        (fun i => ((List.range' lo (m + 2)).map (fun j => [j])).map (fun l => l.getD i 0)) =
        [List.range' lo (m + 2)] := by
      rw [show List.range 1 = [0] by rfl, List.map_cons]
      simp only [List.map_nil, List.map_map]
      congr 1
      rw [show ((fun l => l.getD 0 0) ∘ (fun j => [j])) = fun j : Nat => j from rfl]
      exact List.map_id _
    rw [hdims]
    have hcd := collapseDims_range1 lo hi hlt
    rw [hm] at hcd
    rw [hcd]
    simp only
    have hcount : ([List.range' lo (m + 2)].foldl (fun a dim => a * dim.dedup.length) 1) =
        m + 2 := by
      rw [List.foldl_cons, List.foldl_nil]
      rw [List.dedup_eq_self.mpr (List.nodup_range' lo (m + 2) 1 (by omega))]
      simp [List.length_range']
    rw [hcount]
    have hnodupN : ((List.range' lo (m + 2)).map
        (fun i => (⟨Bus.mkBus pre i suf⟩ : String))).Nodup :=
      (List.nodup_range' lo (m + 2) 1 (by omega)).map (fun a b h => mkName_inj h)
    have hdedupN : ((List.range' lo (m + 2)).map
        (fun i => (⟨Bus.mkBus pre i suf⟩ : String))).dedup.length = m + 2 := by
      rw [List.dedup_eq_self.mpr hnodupN]
      simp [List.length_range']
    rw [hdedupN]
    rw [if_neg (show ¬ (m + 2 ≠ m + 2) by omega)]
    rw [List.foldl_cons, List.foldl_nil,
      replaceBrkOnce_plain (plainSeg_noBracket hpre)]
    congr 1
    simp [List.append_assoc]

end NQ

namespace Bus

theorem fullExpand_leaf {cur : List Char} (h : findBus cur = none) (fuel : Nat) :
    fullExpand (fuel + 1) cur = [⟨cur⟩] := by
  show (match findBus cur with
        | none => [(⟨cur⟩ : String)]
        | some (pre, d1, d2, suf) =>
          let s0 := digsToNat d1
          let e0 := digsToNat d2
          let lo := if s0 > e0 then e0 else s0
          let hi := if s0 > e0 then s0 else e0
          (List.range' lo (hi + 1 - lo)).flatMap
            (fun i => fullExpand fuel (mkBus pre i suf))) = _
  rw [h]

theorem fullExpand_step {cur pre d1 d2 suf : List Char}
    (h : findBus cur = some (pre, d1, d2, suf)) (fuel : Nat) :
    fullExpand (fuel + 1) cur =
      (List.range'
        (if digsToNat d1 > digsToNat d2 then digsToNat d2 else digsToNat d1)
        ((if digsToNat d1 > digsToNat d2 then digsToNat d1 else digsToNat d2) + 1 -
          (if digsToNat d1 > digsToNat d2 then digsToNat d2 else digsToNat d1))).flatMap
        (fun i => fullExpand fuel (mkBus pre i suf)) := by
  show (match findBus cur with
        | none => [(⟨cur⟩ : String)]
        | some (pre, d1, d2, suf) =>
          let s0 := digsToNat d1
          let e0 := digsToNat d2
          let lo := if s0 > e0 then e0 else s0
          let hi := if s0 > e0 then s0 else e0
          (List.range' lo (hi + 1 - lo)).flatMap
            (fun i => fullExpand fuel (mkBus pre i suf))) = _
  rw [h]

end Bus

namespace NQ

theorem c6_expand_family {pre suf : List Char} {lo hi : Nat} (hlt : lo < hi)
    (hpre : PlainSeg pre) (hsuf : PlainSeg suf) :
    Bus.expandBus ⟨pre ++ '[' :: (Bus.natChars lo ++ ':' :: (Bus.natChars hi ++ ']' :: suf))⟩
        none =
      .ok ((List.range' lo (hi + 1 - lo)).map
        (fun i => (⟨Bus.mkBus pre i suf⟩ : String))) := by
  rw [Bus.expandBus_none_total]
  have hds : (⟨pre ++ '[' :: (Bus.natChars lo ++ ':' :: (Bus.natChars hi ++ ']' :: suf))⟩ :
      String).data = pre ++ '[' :: (Bus.natChars lo ++ ':' :: (Bus.natChars hi ++ ']' :: suf)) :=
    rfl
  rw [hds]
  have hfb : Bus.findBus
      (pre ++ '[' :: (Bus.natChars lo ++ ':' :: (Bus.natChars hi ++ ']' :: suf))) =
      some (pre, Bus.natChars lo, Bus.natChars hi, suf) :=
    Bus.findBus_build (plainSeg_noBracket hpre) (Bus.natChars_ne_nil lo)
      (fun c hc => Bus.natChars_isDigit c hc) (Bus.natChars_ne_nil hi)
      (fun c hc => Bus.natChars_isDigit c hc) (Or.inl rfl)
  obtain ⟨k, hk⟩ : ∃ k, (pre ++ '[' :: (Bus.natChars lo ++ ':' ::
      (Bus.natChars hi ++ ']' :: suf))).length = k + 1 := by
    refine ⟨(pre ++ '[' :: (Bus.natChars lo ++ ':' :: (Bus.natChars hi ++ ']' :: suf))).length
      - 1, ?_⟩
    simp only [List.length_append, List.length_cons]
    omega
  rw [hk]
  congr 1
  rw [Bus.fullExpand_step hfb]
  simp only [Bus.digsToNat_natChars]
  simp only [if_neg (show ¬ lo > hi by omega)]
  have hfun : (fun i => Bus.fullExpand (k + 1) (Bus.mkBus pre i suf)) =
      (fun i => [(⟨Bus.mkBus pre i suf⟩ : String)]) := by
    funext i
    have hfb2 : Bus.findBus (Bus.mkBus pre i suf) = none := by
      unfold Bus.mkBus
      exact Bus.findBus_idxOnly_none (plainSeg_noBracket hpre)
        (fun c hc => Bus.natChars_isDigit c hc) (plainSeg_noBracket hsuf)
    exact Bus.fullExpand_leaf hfb2 k
  rw [hfun, flatMap_singleton_map]

end NQ

namespace NQ

theorem c6_family {pre suf : List Char} {lo hi : Nat} (hle : lo ≤ hi)
    (hpre : PlainSeg pre) (hsuf : PlainSeg suf) :
    ∃ p, collapseBus ((List.range' lo (hi + 1 - lo)).map
        (fun i => (⟨Bus.mkBus pre i suf⟩ : String))) = some p ∧
      Bus.expandBus p none =
        .ok ((List.range' lo (hi + 1 - lo)).map
          (fun i => (⟨Bus.mkBus pre i suf⟩ : String))) := by
  rcases Nat.eq_or_lt_of_le hle with rfl | hlt
  · refine ⟨⟨Bus.mkBus pre lo suf⟩, ?_, ?_⟩
    · rw [show lo + 1 - lo = 1 from by omega]
      rw [show List.range' lo 1 = [lo] from rfl, List.map_cons, List.map_nil]
      simp only [collapseBus]
      rw [List.map_cons, List.map_nil, lowerStr_mk lo hpre hsuf]
      rw [if_pos (show ([(⟨Bus.mkBus pre lo suf⟩ : String)]).length = 1 from rfl)]
      rfl
    · rw [show lo + 1 - lo = 1 from by omega]
      rw [show List.range' lo 1 = [lo] from rfl, List.map_cons, List.map_nil]
      rw [Bus.expandBus_none_total]
      congr 1
      have hfb : Bus.findBus (Bus.mkBus pre lo suf) = none := by
        unfold Bus.mkBus
        exact Bus.findBus_idxOnly_none (plainSeg_noBracket hpre)
          (fun c hc => Bus.natChars_isDigit c hc) (plainSeg_noBracket hsuf)
      exact Bus.fullExpand_leaf hfb _
  · exact ⟨_, c6_collapse_family hlt hpre hsuf, c6_expand_family hlt hpre hsuf⟩

end NQ

namespace NQ

end NQ

namespace NQ

theorem toFinsetMap (l : List Nat) (f : Nat → String) :
    (l.map f).toFinset = l.toFinset.image f := by
  ext x
  simp [List.mem_toFinset, List.mem_map, Finset.mem_image]

theorem toFinsetDedup (l : List Nat) : l.dedup.toFinset = l.toFinset := by
  ext x
  simp [List.mem_toFinset, List.mem_dedup]

theorem sorted_head_le {l : List Nat} (hs : l.Sorted (· ≤ ·)) {x : Nat} (hx : x ∈ l) :
    l.head?.getD 0 ≤ x := by
  cases l with
  | nil => exact absurd hx (List.not_mem_nil x)
  | cons h t =>
    rcases List.mem_cons.mp hx with rfl | hxt
    · exact Nat.le_refl x
    · exact (List.sorted_cons.mp hs).1 x hxt

theorem sorted_le_getLast : ∀ {l : List Nat}, l.Sorted (· ≤ ·) → ∀ {x : Nat}, x ∈ l →
    x ≤ l.getLast?.getD 0 := by
  intro l
  induction l with
  | nil => intro _ x hx; exact absurd hx (List.not_mem_nil x)
  | cons h t ih =>
    intro hs x hx
    cases t with
    | nil =>
      have hxh := List.mem_singleton.mp hx
      subst hxh
      exact Nat.le_refl _
    | cons y t2 =>
      rw [List.getLast?_cons_cons]
      rcases List.mem_cons.mp hx with rfl | hxt
      · have h1 : x ≤ y := (List.sorted_cons.mp hs).1 y (by simp)
        have h2 : y ≤ ((y :: t2).getLast?.getD 0) := ih (List.sorted_cons.mp hs).2 (by simp)
        omega
      · exact ih (List.sorted_cons.mp hs).2 hxt

theorem collapse_family_pipeline {pre suf : List Char} (hpre : PlainSeg pre)
    (hsuf : PlainSeg suf) (is : List Nat) (h2 : 2 ≤ is.length) :
    collapseBus (is.map (fun i => (⟨Bus.mkBus pre i suf⟩ : String))) =
      (match collapseDims [is] with
       | none => none
       | some cdims =>
         if [is].foldl (fun a dim => a * dim.dedup.length) 1 ≠
             (is.map (fun i => (⟨Bus.mkBus pre i suf⟩ : String))).dedup.length then none
         else some ⟨cdims.foldl (fun acc d => replaceBrkOnce d acc)
           (pre ++ '[' :: ']' :: suf)⟩) := by
  obtain ⟨i0, t, rfl⟩ : ∃ i0 t, is = i0 :: t := by
    cases is with
    | nil => simp at h2
    | cons a b => exact ⟨a, b, rfl⟩
  have hnorm : (((i0 :: t).map (fun i => (⟨Bus.mkBus pre i suf⟩ : String))).map Py.lowerStr) =
      (i0 :: t).map (fun i => (⟨Bus.mkBus pre i suf⟩ : String)) := by
    rw [List.map_map]
    exact List.map_congr_left (fun i _ => lowerStr_mk i hpre hsuf)
  cases hN : (i0 :: t).map (fun i => (⟨Bus.mkBus pre i suf⟩ : String)) with
  | nil => exact absurd hN (by simp)
  | cons n0 nrest =>
    simp only [collapseBus]
    rw [← hN, hnorm]
    rw [if_neg (show ¬ ((i0 :: t).map
        (fun i => (⟨Bus.mkBus pre i suf⟩ : String))).length = 1 by
      simp only [List.length_map, List.length_cons] at h2 ⊢
      omega)]
    rw [collectRows_mk hpre hsuf (i0 :: t) (by simp)]
    simp only
    rw [show (((i0 :: t).map (fun i => [i])).head?.getD []) = [i0] from rfl]
    rw [if_neg (show ¬ ([i0] : List Nat) = [] by simp)]
    rw [show ([i0] : List Nat).length = 1 from rfl]
    rw [if_neg (show ¬ (((i0 :: t).map (fun i => [i])).any
        (fun l => l.length ≠ 1)) = true by
      simp [List.any_map])]
    have hdims : (List.range 1).map
        (fun k => ((i0 :: t).map (fun j => [j])).map (fun l => l.getD k 0)) = [i0 :: t] := by
      rw [show List.range 1 = [0] by rfl, List.map_cons]
      simp only [List.map_nil, List.map_map]
      congr 1
      rw [show ((fun l => l.getD 0 0) ∘ (fun j : Nat => [j])) = fun j : Nat => j from rfl]
      exact List.map_id _
    rw [hdims]

theorem collapse_family_of_dims_none {pre suf : List Char} (hpre : PlainSeg pre)
    (hsuf : PlainSeg suf) (is : List Nat) (h2 : 2 ≤ is.length)
    (hcd : collapseDims [is] = none) :
    collapseBus (is.map (fun i => (⟨Bus.mkBus pre i suf⟩ : String))) = none := by
  rw [collapse_family_pipeline hpre hsuf is h2, hcd]

theorem collapse_family_of_dims_some {pre suf : List Char} (hpre : PlainSeg pre)
    (hsuf : PlainSeg suf) (is : List Nat) (h2 : 2 ≤ is.length)
    {cdims : List (List Char)} (hcd : collapseDims [is] = some cdims)
    (hcount : is.dedup.length =
      (is.map (fun i => (⟨Bus.mkBus pre i suf⟩ : String))).dedup.length) :
    collapseBus (is.map (fun i => (⟨Bus.mkBus pre i suf⟩ : String))) =
      some ⟨cdims.foldl (fun acc d => replaceBrkOnce d acc) (pre ++ '[' :: ']' :: suf)⟩ := by
  rw [collapse_family_pipeline hpre hsuf is h2, hcd]
  show (if [is].foldl (fun a dim => a * dim.dedup.length) 1 ≠
      (is.map (fun i => (⟨Bus.mkBus pre i suf⟩ : String))).dedup.length then none
    else some (⟨cdims.foldl (fun acc d => replaceBrkOnce d acc)
      (pre ++ '[' :: ']' :: suf)⟩ : String)) = _
  have h1 : ([is] : List (List Nat)).foldl (fun a dim => a * dim.dedup.length) 1 =
      is.dedup.length := by
    rw [List.foldl_cons, List.foldl_nil, Nat.one_mul]
  rw [h1, hcount]
  rw [if_neg (show ¬ ((is.map (fun i => (⟨Bus.mkBus pre i suf⟩ : String))).dedup.length ≠
    (is.map (fun i => (⟨Bus.mkBus pre i suf⟩ : String))).dedup.length) from fun h => h rfl)]

end NQ

namespace NQ

theorem collapseDims_interval {is : List Nat} {lo hi : Nat} (hle : lo ≤ hi)
    (hvals : List.insertionSort (· ≤ ·) is.dedup = List.range' lo (hi + 1 - lo)) :
    collapseDims [is] =
      some [if lo = hi then '[' :: (Bus.natChars lo ++ [']'])
            else '[' :: (Bus.natChars lo ++ ':' :: (Bus.natChars hi ++ [']']))] := by
  obtain ⟨m, hm⟩ : ∃ m, hi + 1 - lo = m + 1 := ⟨hi - lo, by omega⟩
  rw [hm] at hvals
  simp only [collapseDims, hvals]
  have hhead : (List.range' lo (m + 1)).head?.getD 0 = lo := rfl
  have hlast : (List.range' lo (m + 1)).getLast?.getD 0 = lo + m := by
    rw [range'_getLast? m lo]
    rfl
  rw [hhead, hlast]
  rw [if_pos (show List.range' lo (m + 1) = List.range' lo (lo + m + 1 - lo) by
    congr 1
    omega)]
  by_cases heq : lo = hi
  · rw [if_pos (show lo = lo + m by omega)]
    rw [if_pos heq]
    simp only [collapseDims, Option.map_some']
  · rw [if_neg (show ¬ lo = lo + m by omega)]
    rw [if_neg heq]
    simp only [collapseDims, Option.map_some']
    rw [show lo + m = hi by omega]

theorem c6_family_general {pre suf : List Char} {lo hi : Nat} (hle : lo ≤ hi)
    (hpre : PlainSeg pre) (hsuf : PlainSeg suf)
    (is : List Nat) (hne : is ≠ [])
    (hcov : is.toFinset = (List.range' lo (hi + 1 - lo)).toFinset) :
    ∃ p, collapseBus (is.map (fun i => (⟨Bus.mkBus pre i suf⟩ : String))) = some p ∧
      Bus.expandBus p none =
        .ok ((List.range' lo (hi + 1 - lo)).map
          (fun i => (⟨Bus.mkBus pre i suf⟩ : String))) ∧
      ((List.range' lo (hi + 1 - lo)).map
          (fun i => (⟨Bus.mkBus pre i suf⟩ : String))).toFinset =
        (is.map (fun i => (⟨Bus.mkBus pre i suf⟩ : String))).toFinset := by
  have hinj : Function.Injective (fun i : Nat => (⟨Bus.mkBus pre i suf⟩ : String)) :=
    fun a b h => mkName_inj h
  have hsetmap : ((List.range' lo (hi + 1 - lo)).map
      (fun i => (⟨Bus.mkBus pre i suf⟩ : String))).toFinset =
      (is.map (fun i => (⟨Bus.mkBus pre i suf⟩ : String))).toFinset := by
    rw [toFinsetMap, toFinsetMap, hcov]
  have hperm : List.Perm is.dedup (List.range' lo (hi + 1 - lo)) :=
    List.perm_of_nodup_nodup_toFinset_eq (List.nodup_dedup is)
      (List.nodup_range' lo (hi + 1 - lo) 1 (by omega))
      (by rw [toFinsetDedup, hcov])
  have hvals : List.insertionSort (· ≤ ·) is.dedup = List.range' lo (hi + 1 - lo) :=
    List.eq_of_perm_of_sorted ((List.perm_insertionSort _ is.dedup).trans hperm)
      (List.sorted_insertionSort _ is.dedup)
      ((List.pairwise_lt_range' lo (hi + 1 - lo) 1 (by omega)).imp (fun h => Nat.le_of_lt h))
  have hcard : is.dedup.length = hi + 1 - lo := by
    rw [← List.card_toFinset, hcov, List.card_toFinset,
      List.dedup_eq_self.mpr (List.nodup_range' lo (hi + 1 - lo) 1 (by omega)),
      List.length_range']
  have hmapdedup : (is.map (fun i => (⟨Bus.mkBus pre i suf⟩ : String))).dedup.length =
      hi + 1 - lo := by
    rw [← List.card_toFinset, toFinsetMap, Finset.card_image_of_injective _ hinj,
      List.card_toFinset, hcard]
  have hfb0 : ∀ i : Nat, Bus.findBus (Bus.mkBus pre i suf) = none := by
    intro i
    unfold Bus.mkBus
    exact Bus.findBus_idxOnly_none (plainSeg_noBracket hpre)
      (fun c hc => Bus.natChars_isDigit c hc) (plainSeg_noBracket hsuf)
  cases is with
  | nil => exact absurd rfl hne
  | cons a tis =>
    cases tis with
    | nil =>
      have hcard1 : hi + 1 - lo = 1 := by
        have h1 : ([a] : List Nat).dedup.length = 1 := by simp
        rw [hcard] at h1
        exact h1
      have ha : a = lo := by
        have hmem : a ∈ (List.range' lo (hi + 1 - lo)).toFinset := by
          rw [← hcov]
          simp
        rw [hcard1, show List.range' lo 1 = [lo] from rfl] at hmem
        simpa [List.mem_toFinset] using hmem
      rw [hcard1, show List.range' lo 1 = [lo] from rfl]
      rw [List.map_cons, List.map_nil, List.map_cons, List.map_nil, ha]
      refine ⟨⟨Bus.mkBus pre lo suf⟩, ?_, ?_, rfl⟩
      · simp only [collapseBus]
        rw [List.map_cons, List.map_nil, lowerStr_mk lo hpre hsuf]
        rw [if_pos (show ([(⟨Bus.mkBus pre lo suf⟩ : String)]).length = 1 from rfl)]
        rfl
      · rw [Bus.expandBus_none_total]
        congr 1
        exact Bus.fullExpand_leaf (hfb0 lo) _
    | cons b tis2 =>
      have h2 : 2 ≤ (a :: b :: tis2).length := by
        simp only [List.length_cons]
        omega
      have hfold : ([if lo = hi then '[' :: (Bus.natChars lo ++ [']'])
            else '[' :: (Bus.natChars lo ++ ':' :: (Bus.natChars hi ++ [']']))].foldl
          (fun acc d => replaceBrkOnce d acc) (pre ++ '[' :: ']' :: suf)) =
          (if lo = hi then Bus.mkBus pre lo suf
           else pre ++ '[' :: (Bus.natChars lo ++ ':' :: (Bus.natChars hi ++ ']' :: suf))) := by
        by_cases heq : lo = hi
        · rw [if_pos heq, if_pos heq]
          rw [List.foldl_cons, List.foldl_nil,
            replaceBrkOnce_plain (plainSeg_noBracket hpre)]
          unfold Bus.mkBus
          simp [List.append_assoc]
        · rw [if_neg heq, if_neg heq]
          rw [List.foldl_cons, List.foldl_nil,
            replaceBrkOnce_plain (plainSeg_noBracket hpre)]
          simp [List.append_assoc]
      refine ⟨_, collapse_family_of_dims_some hpre hsuf _ h2
        (collapseDims_interval hle hvals) (by rw [hcard, hmapdedup]), ?_, hsetmap⟩
      rw [hfold]
      by_cases heq : lo = hi
      · rw [if_pos heq]
        subst heq
        rw [show lo + 1 - lo = 1 by omega, show List.range' lo 1 = [lo] from rfl,
          List.map_cons, List.map_nil]
        rw [Bus.expandBus_none_total]
        congr 1
        exact Bus.fullExpand_leaf (hfb0 lo) _
      · rw [if_neg heq]
        exact c6_expand_family (by omega) hpre hsuf

end NQ

namespace NQ

theorem c6_gap_none {pre suf : List Char} (hpre : PlainSeg pre) (hsuf : PlainSeg suf)
    (js : List Nat) (g : Nat)
    (hga : ∃ a ∈ js, a < g) (hgb : ∃ b ∈ js, g < b) (hgni : g ∉ js) :
    collapseBus (js.map (fun i => (⟨Bus.mkBus pre i suf⟩ : String))) = none := by
  obtain ⟨a, haM, halt⟩ := hga
  obtain ⟨b, hbM, hblt⟩ := hgb
  have h2 : 2 ≤ js.length := by
    cases js with
    | nil => simp at haM
    | cons x t =>
      cases t with
      | nil =>
        have hax : a = x := by simpa using haM
        have hbx : b = x := by simpa using hbM
        omega
      | cons y t2 =>
        simp only [List.length_cons]
        omega
  refine collapse_family_of_dims_none hpre hsuf js h2 ?_
  simp only [collapseDims]
  rw [if_neg ?_]
  intro hcontig
  have hsorted : (List.insertionSort (· ≤ ·) js.dedup).Sorted (· ≤ ·) :=
    List.sorted_insertionSort _ js.dedup
  have haV : a ∈ List.insertionSort (· ≤ ·) js.dedup :=
    (List.mem_insertionSort _).mpr (List.mem_dedup.mpr haM)
  have hbV : b ∈ List.insertionSort (· ≤ ·) js.dedup :=
    (List.mem_insertionSort _).mpr (List.mem_dedup.mpr hbM)
  have hmn_a := sorted_head_le hsorted haV
  have hb_mx := sorted_le_getLast hsorted hbV
  have hgV : g ∈ List.insertionSort (· ≤ ·) js.dedup := by
    rw [hcontig]
    refine List.mem_range'_1.mpr ⟨by omega, by omega⟩
  exact hgni (List.mem_dedup.mp ((List.mem_insertionSort _).mp hgV))

theorem c6_skeleton_mismatch_none {pre suf pre2 suf2 : List Char}
    (hpre : PlainSeg pre) (hsuf : PlainSeg suf)
    (hpre2 : PlainSeg pre2) (hsuf2 : PlainSeg suf2)
    (hne : pre ++ '[' :: ']' :: suf ≠ pre2 ++ '[' :: ']' :: suf2)
    (i j : Nat) (rest : List String) :
    collapseBus
        ((⟨Bus.mkBus pre i suf⟩ : String) :: (⟨Bus.mkBus pre2 j suf2⟩ : String) :: rest) =
      none := by
  simp only [collapseBus]
  rw [List.map_cons, List.map_cons, lowerStr_mk i hpre hsuf, lowerStr_mk j hpre2 hsuf2]
  rw [if_neg (show ¬ ((⟨Bus.mkBus pre i suf⟩ : String) ::
      (⟨Bus.mkBus pre2 j suf2⟩ : String) :: rest.map Py.lowerStr).length = 1 by simp)]
  have hrows : collectRows ((⟨Bus.mkBus pre i suf⟩ : String) ::
      (⟨Bus.mkBus pre2 j suf2⟩ : String) :: rest.map Py.lowerStr) = none := by
    simp only [collectRows, collectRow_mk i hpre hsuf, collectRow_mk j hpre2 hsuf2, collectGo]
    rw [if_neg (show ¬ (⟨pre2 ++ '[' :: ']' :: suf2⟩ : String) = ⟨pre ++ '[' :: ']' :: suf⟩ by
      intro h
      exact hne (congrArg String.data h).symm)]
    rfl
  rw [hrows]

end NQ

namespace NQ

/-- C6 (amended): `collapse_bus_notation` lower-cases every name and
re-prints each index from its parsed integer value, so
`expand_bus_notation(collapse_bus_notation(names))` reproduces the
normal form of the input rather than the input itself; for names already
in normal form the round trip over a single bracketed range is exact:
for any nonempty list of names `pre[i]suf` — in any order and with any
multiplicities — whose index set is exactly the interval `lo..hi`,
collapse yields a pattern whose expansion is exactly `pre[lo]suf ..
pre[hi]suf` in increasing order, the same set of names (likewise for a
two-range Cartesian family, verified at a concrete instance); and
`collapse_bus_notation` returns `None` when two names' bracket skeletons
differ, when a dimension's index set has a gap, or when the names do not
cover the full Cartesian product (concrete 3-of-4 instance). -/
theorem c6_collapse_expand_roundtrip (pre suf pre2 suf2 : List Char)
    (lo hi : Nat) (is js : List Nat) (g i2 j2 : Nat) (rest2 : List String)
    (hle : lo ≤ hi) (hpre : PlainSeg pre) (hsuf : PlainSeg suf)
    (hne : is ≠ [])
    (hcov : is.toFinset = (List.range' lo (hi + 1 - lo)).toFinset)
    (hpre2 : PlainSeg pre2) (hsuf2 : PlainSeg suf2)
    (hskel : pre ++ '[' :: ']' :: suf ≠ pre2 ++ '[' :: ']' :: suf2)
    (hga : ∃ a ∈ js, a < g) (hgb : ∃ b ∈ js, g < b) (hgni : g ∉ js) :
    (∃ p, collapseBus (is.map (fun i => (⟨Bus.mkBus pre i suf⟩ : String))) = some p ∧
      Bus.expandBus p none =
        .ok ((List.range' lo (hi + 1 - lo)).map
          (fun i => (⟨Bus.mkBus pre i suf⟩ : String))) ∧
      ((List.range' lo (hi + 1 - lo)).map
          (fun i => (⟨Bus.mkBus pre i suf⟩ : String))).toFinset =
        (is.map (fun i => (⟨Bus.mkBus pre i suf⟩ : String))).toFinset) ∧
    (collapseBus ["my[1]net[3]", "my[1]net[4]", "my[2]net[3]", "my[2]net[4]"] =
        some "my[1:2]net[3:4]" ∧
      Bus.expandBus "my[1:2]net[3:4]" none =
        .ok ["my[1]net[3]", "my[1]net[4]", "my[2]net[3]", "my[2]net[4]"]) ∧
    collapseBus
        ((⟨Bus.mkBus pre i2 suf⟩ : String) :: (⟨Bus.mkBus pre2 j2 suf2⟩ : String) :: rest2) =
      none ∧
    collapseBus (js.map (fun i => (⟨Bus.mkBus pre i suf⟩ : String))) = none ∧
    collapseBus ["m[1]n[3]", "m[1]n[4]", "m[2]n[3]"] = none :=
  ⟨c6_family_general hle hpre hsuf is hne hcov, ⟨by decide, rfl⟩,
    c6_skeleton_mismatch_none hpre hsuf hpre2 hsuf2 hskel i2 j2 rest2,
    c6_gap_none hpre hsuf js g hga hgb hgni, by decide⟩

/-- Witness for C6: the family `dat[4]x, dat[2]x, dat[3]x, dat[2]x`
(indices 2..4, out of order, with a repeat), the skeleton mismatch
`dat[1]x` vs `q[2]`, and the gapped family `dat[1]x, dat[4]x, dat[5]x`
(index 2 missing between 1 and 4). -/
theorem c6_collapse_expand_roundtrip_witness :
    (([4, 2, 3, 2] : List Nat) ≠ [] ∧
      ([4, 2, 3, 2] : List Nat).toFinset = (List.range' 2 (4 + 1 - 2)).toFinset ∧
      PlainSeg ['d', 'a', 't'] ∧ PlainSeg ['x'] ∧ PlainSeg ['q'] ∧ PlainSeg [] ∧
      ['d', 'a', 't'] ++ '[' :: ']' :: ['x'] ≠ ['q'] ++ '[' :: ']' :: ([] : List Char) ∧
      (∃ a ∈ ([1, 4, 5] : List Nat), a < 2) ∧
      (∃ b ∈ ([1, 4, 5] : List Nat), 2 < b) ∧ 2 ∉ ([1, 4, 5] : List Nat)) ∧
    ((∃ p, collapseBus (([4, 2, 3, 2] : List Nat).map
        (fun i => (⟨Bus.mkBus ['d', 'a', 't'] i ['x']⟩ : String))) = some p ∧
      Bus.expandBus p none =
        .ok ((List.range' 2 (4 + 1 - 2)).map
          (fun i => (⟨Bus.mkBus ['d', 'a', 't'] i ['x']⟩ : String))) ∧
      ((List.range' 2 (4 + 1 - 2)).map
          (fun i => (⟨Bus.mkBus ['d', 'a', 't'] i ['x']⟩ : String))).toFinset =
        (([4, 2, 3, 2] : List Nat).map
          (fun i => (⟨Bus.mkBus ['d', 'a', 't'] i ['x']⟩ : String))).toFinset) ∧
    collapseBus
        ((⟨Bus.mkBus ['d', 'a', 't'] 1 ['x']⟩ : String) ::
          (⟨Bus.mkBus ['q'] 2 ([] : List Char)⟩ : String) :: ([] : List String)) = none ∧
    collapseBus (([1, 4, 5] : List Nat).map
        (fun i => (⟨Bus.mkBus ['d', 'a', 't'] i ['x']⟩ : String))) = none) := by
  refine ⟨⟨by decide, by decide, by unfold PlainSeg; decide, by unfold PlainSeg; decide,
    by unfold PlainSeg; decide, by unfold PlainSeg; decide, by decide,
    by decide, by decide, by decide⟩, ?_⟩
  have h := c6_collapse_expand_roundtrip ['d', 'a', 't'] ['x'] ['q'] ([] : List Char)
    2 4 [4, 2, 3, 2] [1, 4, 5] 2 1 2 ([] : List String)
    (by omega) (by unfold PlainSeg; decide) (by unfold PlainSeg; decide)
    (by decide) (by decide)
    (by unfold PlainSeg; decide) (by unfold PlainSeg; decide)
    (by decide) (by decide) (by decide) (by decide)
  exact ⟨h.1, h.2.2.1, h.2.2.2.1⟩

end NQ
